import Mathlib

/-!
Report generator of the web-server benchmark (`scripts/generate_readme.go`).

A shallow embedding of the numeric normaliser (`parseRPS`, `formatNumber`), the ranking
loops, the ASCII chart and `generateREADME`, together with the properties of the
specification that concern them.

Go's `float64` is modelled exactly.  Every finite binary64 value is an integer multiple of
`2^-1074`, so a finite float is stored as a sign and the natural number `k` of such units;
arithmetic computes the exact result as a fraction of natural numbers and rounds it to the
nearest representable value, ties to even (`roundUnits`).  Only natural-number arithmetic is
used, so every definition evaluates on concrete inputs.
-/

set_option maxRecDepth 100000
set_option exponentiation.threshold 20000

namespace Readme

/-! ## binary64 -/

/-- Number of whole `w`-bit blocks that can be cut from the low end of `n` while at least
`2^w` remains, times `w`; `fuel` bounds the number of blocks. -/
def bitLenBy (w : ℕ) : ℕ → ℕ → ℕ
  | 0, _ => 0
  | fuel + 1, n => if n < 2 ^ w then 0 else bitLenBy w fuel (n / 2 ^ w) + w

/-- Number of binary digits of `n` (`0` for `0`): blocks of 256 bits, then of 16 bits, then
single bits. -/
def bitLen (n : ℕ) : ℕ :=
  let a := bitLenBy 256 n n
  let b := bitLenBy 16 (n / 2 ^ a) (n / 2 ^ a)
  let c := bitLenBy 1 (n / 2 ^ a / 2 ^ b) (n / 2 ^ a / 2 ^ b)
  a + b + c + (if n / 2 ^ a / 2 ^ b / 2 ^ c = 0 then 0 else 1)

/-- Exponent of the unit: every finite binary64 value is a multiple of `2^-1074`. -/
def unitExp : ℕ := 1074

/-- First number of units that is too large for a finite binary64 (`2^1024` in units). -/
def overflowUnits : ℕ := 2 ^ 2098

/-- Round the quotient `n / d` to an integer, ties to even. -/
def divHalfEven (n d : ℕ) : ℕ :=
  let m := n / d
  let r := n % d
  if 2 * r < d then m
  else if d < 2 * r then m + 1
  else if m % 2 = 0 then m else m + 1

/-- The number of units of the binary64 nearest to `num / den` (ties to even), before the
overflow check: the quotient is cut to 53 significant bits, or to the unit `2^-1074` when it is
subnormal. -/
def roundUnits (num den : ℕ) : ℕ :=
  let scaled := num * 2 ^ unitExp
  let shift := bitLen (scaled / den) - 53
  divHalfEven scaled (den * 2 ^ shift) * 2 ^ shift

/-- A binary64 value: NaN, an infinity, or a finite value `± units * 2^-1074` (both zeros are
present, as `fin false 0` and `fin true 0`). -/
inductive F64 where
  | nan : F64
  | inf (neg : Bool) : F64
  | fin (neg : Bool) (units : ℕ) : F64
  deriving DecidableEq

namespace F64

/-- The binary64 nearest to `± num / den`; an infinity when the rounded value overflows. -/
def ofRatio (neg : Bool) (num den : ℕ) : F64 :=
  let k := roundUnits num den
  if k < overflowUnits then fin neg k else inf neg

/-- The float of a natural-number constant. -/
def ofNat (n : ℕ) : F64 := ofRatio false n 1

/-- The rational value of a finite float. -/
def toRat : F64 → Option ℚ
  | fin neg k => some ((if neg then -1 else 1) * (k : ℚ) / 2 ^ unitExp)
  | _ => none

def isNaN : F64 → Bool
  | nan => true
  | _ => false

/-- Go's `x * y`. -/
def mul : F64 → F64 → F64
  | nan, _ => nan
  | _, nan => nan
  | inf a, inf b => inf (xor a b)
  | inf a, fin b k => if k = 0 then nan else inf (xor a b)
  | fin a k, inf b => if k = 0 then nan else inf (xor a b)
  | fin a k, fin b l => ofRatio (xor a b) (k * l) (2 ^ unitExp * 2 ^ unitExp)

/-- Go's `x / y`. -/
def div : F64 → F64 → F64
  | nan, _ => nan
  | _, nan => nan
  | inf _, inf _ => nan
  | inf a, fin b _ => inf (xor a b)
  | fin a _, inf b => fin (xor a b) 0
  | fin a k, fin b l =>
    if l = 0 then (if k = 0 then nan else inf (xor a b))
    else ofRatio (xor a b) k l

/-- Go's unary minus. -/
def neg : F64 → F64
  | nan => nan
  | inf a => inf (!a)
  | fin a k => fin (!a) k

/-- Go's `x + y`. -/
def add : F64 → F64 → F64
  | nan, _ => nan
  | _, nan => nan
  | inf a, inf b => if a = b then inf a else nan
  | inf a, fin _ _ => inf a
  | fin _ _, inf b => inf b
  | fin a k, fin b l =>
    if a = b then ofRatio a (k + l) (2 ^ unitExp)
    else if k = l then fin false 0
    else if l < k then ofRatio a (k - l) (2 ^ unitExp)
    else ofRatio b (l - k) (2 ^ unitExp)

/-- Go's `x - y`. -/
def sub (x y : F64) : F64 := add x (neg y)

/-- Go's `x < y` (false when either side is NaN; the two zeros are equal). -/
def lt : F64 → F64 → Bool
  | nan, _ => false
  | _, nan => false
  | inf a, inf b => a && !b
  | inf a, fin _ _ => a
  | fin _ _, inf b => !b
  | fin a k, fin b l =>
    match a, b with
    | false, false => decide (k < l)
    | false, true => false
    | true, false => decide (0 < k ∨ 0 < l)
    | true, true => decide (l < k)

/-- Go's `x > y`. -/
def gt (x y : F64) : Bool := lt y x

/-- Go's `x == y`. -/
def eq : F64 → F64 → Bool
  | nan, _ => false
  | _, nan => false
  | inf a, inf b => a == b
  | inf _, fin _ _ => false
  | fin _ _, inf _ => false
  | fin a k, fin b l => (k == 0 && l == 0) || (a == b && k == l)

/-- Go's `x >= y`. -/
def ge (x y : F64) : Bool := gt x y || eq x y

/-- Go's `x <= y`. -/
def le (x y : F64) : Bool := ge y x

end F64

/-! ## `strconv.ParseFloat(s, 64)` -/

/-- Value of a decimal digit character. -/
def digitVal (c : Char) : ℕ := c.toNat - 48

/-- Decimal digit test, `'0' <= c && c <= '9'`. -/
def isDigit (c : Char) : Bool := decide ('0' ≤ c ∧ c ≤ '9')

/-- Hexadecimal letter test, `'a' <= lower(c) && lower(c) <= 'f'`. -/
def isHexLetter (c : Char) : Bool :=
  decide (('a' ≤ c ∧ c ≤ 'f') ∨ ('A' ≤ c ∧ c ≤ 'F'))

/-- Value of a hexadecimal letter. -/
def hexLetterVal (c : Char) : ℕ :=
  if 'a' ≤ c then c.toNat - 87 else c.toNat - 55

/-- Lower-casing of an ASCII capital, as in `commonPrefixLenIgnoreCase`. -/
def lowerAscii (c : Char) : Char :=
  if 'A' ≤ c ∧ c ≤ 'Z' then Char.ofNat (c.toNat + 32) else c

/-- Length of the longest common prefix of `s` and the lower-case `pre`, ignoring the case
of `s`. -/
def commonPrefixLenIgnoreCase : List Char → List Char → ℕ
  | c :: s, p :: pre => if lowerAscii c = p then commonPrefixLenIgnoreCase s pre + 1 else 0
  | _, _ => 0

/-- The infinity branch of `special`: `n` characters of `"infinity"` matched after `nsign`
sign characters. -/
def specialInf (neg : Bool) (nsign : ℕ) (s : List Char) : Option (F64 × ℕ) :=
  let n := commonPrefixLenIgnoreCase s "infinity".data
  let n := if 3 < n ∧ n < 8 then 3 else n
  if n = 3 ∨ n = 8 then some (F64.inf neg, nsign + n) else none

/-- The function `special` of `strconv`: an infinity or a NaN at the start of `s`, with the
number of characters it takes. -/
def special (s : List Char) : Option (F64 × ℕ) :=
  match s with
  | [] => none
  | c :: rest =>
    if c = '+' ∨ c = '-' then specialInf (c = '-') 1 rest
    else if c = 'i' ∨ c = 'I' then specialInf false 0 s
    else if c = 'n' ∨ c = 'N' then
      (if commonPrefixLenIgnoreCase s "nan".data = 3 then some (F64.nan, 3) else none)
    else none

/-- What the mantissa loop of `readFloat` has seen. -/
structure Mant where
  /-- The digits read so far, as a number in the base of the literal. -/
  digits : ℕ
  /-- How many of them stood after the point. -/
  frac : ℕ
  sawdot : Bool
  sawdigits : Bool
  underscores : Bool
  deriving DecidableEq

/-- The state of the mantissa loop before the first character. -/
def Mant.init : Mant := ⟨0, 0, false, false, false⟩

/-- One more digit of value `v` in base `b`. -/
def Mant.push (m : Mant) (b v : ℕ) : Mant :=
  { m with digits := m.digits * b + v, frac := if m.sawdot then m.frac + 1 else m.frac,
           sawdigits := true }

/-- The mantissa loop of `readFloat`: underscores, one point, and digits of the base; it
stops at the first other character and returns the rest of the input. -/
def scanMantissa (hex : Bool) : List Char → Mant → Mant × List Char
  | [], m => (m, [])
  | c :: cs, m =>
    if c = '_' then scanMantissa hex cs { m with underscores := true }
    else if c = '.' then
      (if m.sawdot then (m, c :: cs) else scanMantissa hex cs { m with sawdot := true })
    else if isDigit c then scanMantissa hex cs (m.push (if hex then 16 else 10) (digitVal c))
    else if hex && isHexLetter c then scanMantissa hex cs (m.push 16 (hexLetterVal c))
    else (m, c :: cs)

/-- The digit loop of the exponent: digits and underscores; the exponent stops growing once
it has reached 10000. Returns the exponent, whether an underscore was seen, and the rest. -/
def scanExpDigits : List Char → ℕ → Bool → ℕ × Bool × List Char
  | [], e, u => (e, u, [])
  | c :: cs, e, u =>
    if c = '_' then scanExpDigits cs e true
    else if isDigit c then scanExpDigits cs (if e < 10000 then e * 10 + digitVal c else e) u
    else (e, u, c :: cs)

/-- The function `underscoreOK` of `strconv`, after the sign and base prefix: `saw` is the
class of the last character (`'0'` digit, `'_'` underscore, `'!'` other, `'^'` start). -/
def underscoreLoop (hex : Bool) : List Char → Char → Bool
  | [], saw => saw ≠ '_'
  | c :: cs, saw =>
    if isDigit c || (hex && isHexLetter c) then underscoreLoop hex cs '0'
    else if c = '_' then (if saw ≠ '0' then false else underscoreLoop hex cs '_')
    else if saw = '_' then false
    else underscoreLoop hex cs '!'

/-- The function `underscoreOK` of `strconv`: underscores only between digits, or between
the base prefix and the first digit. -/
def underscoreOK (s : List Char) : Bool :=
  let s := match s with
    | c :: t => if c = '-' ∨ c = '+' then t else s
    | [] => s
  match s with
  | c0 :: c1 :: t =>
    if c0 = '0' ∧ (c1 = 'b' ∨ c1 = 'B' ∨ c1 = 'o' ∨ c1 = 'O' ∨ c1 = 'x' ∨ c1 = 'X') then
      underscoreLoop (decide (c1 = 'x' ∨ c1 = 'X')) t '0'
    else underscoreLoop false s '^'
  | _ => underscoreLoop false s '^'

/-- The exact value `digits * base^(exp - frac)` read by `readFloat`, as a fraction of
natural numbers (`base` is 10, or 2 with four binary places per hexadecimal digit). -/
def literalRatio (hex : Bool) (digits frac : ℕ) (eneg : Bool) (e : ℕ) : ℕ × ℕ :=
  let b := if hex then 2 else 10
  let f := if hex then 4 * frac else frac
  let up := if eneg then 0 else e
  let down := (if eneg then e else 0) + f
  if down ≤ up then (digits * b ^ (up - down), 1) else (digits, b ^ (down - up))

/-- The exponent part of `readFloat`: after the exponent character, an optional sign and at
least one digit. Returns the sign, the exponent, whether an underscore was seen, the rest. -/
def scanExponent (s : List Char) : Option (Bool × ℕ × Bool × List Char) :=
  let (eneg, t) := match s with
    | c :: t => if c = '+' then (false, t) else if c = '-' then (true, t) else (false, s)
    | [] => (false, s)
  match t with
  | c :: _ => if isDigit c then
      let (e, u, rest) := scanExpDigits t 0 false
      some (eneg, e, u, rest)
    else none
  | [] => none

/-- The optional sign at the start of a literal: whether it is `-`, and the rest. -/
def splitSign (s : List Char) : Bool × List Char :=
  match s with
  | c :: t => if c = '+' then (false, t) else if c = '-' then (true, t) else (false, s)
  | [] => (false, s)

/-- The optional base prefix `0x`, taken only when a character follows it: whether the
literal is hexadecimal, and the rest. -/
def splitHexPrefix (t : List Char) : Bool × List Char :=
  match t with
  | c0 :: c1 :: c2 :: r =>
    if c0 = '0' ∧ (c1 = 'x' ∨ c1 = 'X') then (true, c2 :: r) else (false, t)
  | _ => (false, t)

/-- What follows the mantissa: an exponent after `e` (after `p` in a hexadecimal literal,
which must have one), or nothing. -/
def readExponent (hex : Bool) (rest : List Char) : Option (Bool × ℕ × Bool × List Char) :=
  match rest with
  | c :: r =>
    if (hex ∧ (c = 'p' ∨ c = 'P')) ∨ (¬ hex ∧ (c = 'e' ∨ c = 'E')) then scanExponent r
    else if hex then none else some (false, 0, false, rest)
  | [] => if hex then none else some (false, 0, false, rest)

/-- The function `readFloat` of `strconv` after the sign, followed by the conversion of the
literal: `t` is the input `s` after its sign, which is `-` when `neg`. -/
def readMagnitude (neg : Bool) (s t : List Char) : Option (F64 × List Char) :=
  let (hex, t) := splitHexPrefix t
  let (m, rest) := scanMantissa hex t Mant.init
  if !m.sawdigits then none
  else
    match readExponent hex rest with
    | none => none
    | some (eneg, e, u, rest) =>
      if (m.underscores || u) && !underscoreOK (s.take (s.length - rest.length)) then none
      else
        let r := literalRatio hex m.digits m.frac eneg e
        some (F64.ofRatio neg r.1 r.2, rest)

/-- The function `readFloat` of `strconv` followed by the conversion of the literal: the
float nearest to the literal that starts `s`, and the unread rest of `s`; `none` when no
literal starts `s`, or when its underscores are misplaced. A value too large for binary64
comes back as an infinity. -/
def readFloat (s : List Char) : Option (F64 × List Char) :=
  readMagnitude (splitSign s).1 s (splitSign s).2

/-- Go's `strconv.ParseFloat(s, 64)`: `some f` when the error is nil, `none` for a syntax
error (the whole of `s` must be one literal) and for a range error (a finite literal that
rounds to an infinity). -/
def parseFloat (s : String) : Option F64 :=
  match special s.data with
  | some (f, n) => if n = s.data.length then some f else none
  | none =>
    match readFloat s.data with
    | some (F64.fin neg k, []) => some (F64.fin neg k)
    | _ => none

/-! ## `fmt.Sprintf` with the verbs `%.0f`, `%.1f`, `%.2f` -/

/-- The decimal digits of `n` written in at least `width` places, zeros in front. -/
def padDigits (width n : ℕ) : List Char :=
  let ds := Nat.toDigits 10 n
  List.replicate (width - ds.length) '0' ++ ds

/-- The digits of the fixed-point rendering of `units * 2^-1074` with `prec` decimals: the
value is rounded to a multiple of `10^-prec`, ties to even, on its exact binary expansion. -/
def fixedDigits (prec units : ℕ) : List Char :=
  let n := divHalfEven (units * 10 ^ prec) (2 ^ unitExp)
  if prec = 0 then Nat.toDigits 10 n
  else Nat.toDigits 10 (n / 10 ^ prec) ++ '.' :: padDigits prec (n % 10 ^ prec)

/-- Go's `fmt.Sprintf("%.<prec>f", x)`. -/
def sprintfF (prec : ℕ) : F64 → String
  | F64.nan => "NaN"
  | F64.inf false => "+Inf"
  | F64.inf true => "-Inf"
  | F64.fin neg k => String.mk ((if neg then ['-'] else []) ++ fixedDigits prec k)

/-! ## The numeric normaliser -/

/-- Go's `strings.ReplaceAll(s, ",", "")`. -/
def removeCommas (s : String) : String := String.mk (s.data.filter (fun c => c ≠ ','))

/-- Go's `strings.HasSuffix(s, string(c))` for a one-character suffix. -/
def hasSuffixChar (s : String) (c : Char) : Bool := s.data.getLast? == some c

/-- Go's `strings.TrimSuffix(s, string(c))` on a string that ends in `c`. -/
def dropSuffixChar (s : String) : String := String.mk s.data.dropLast

/-- The suffix branches of `formatNumber`: the comma-free text, rewritten to the scaled
number with no decimals when it ends in `k` or `M` and the rest of it parses. -/
def rescale (cleanValue : String) : String :=
  if hasSuffixChar cleanValue 'k' then
    match parseFloat (dropSuffixChar cleanValue) with
    | some num => sprintfF 0 (F64.mul num (F64.ofNat 1000))
    | none => cleanValue
  else if hasSuffixChar cleanValue 'M' then
    match parseFloat (dropSuffixChar cleanValue) with
    | some num => sprintfF 0 (F64.mul num (F64.ofNat 1000000))
    | none => cleanValue
  else cleanValue

/-- The last step of `formatNumber`: a number with two decimals in the unit that suits it. -/
def render (num : F64) : String :=
  if F64.ge num (F64.ofNat 1000000) then sprintfF 2 (F64.div num (F64.ofNat 1000000)) ++ "M"
  else if F64.ge num (F64.ofNat 1000) then sprintfF 2 (F64.div num (F64.ofNat 1000)) ++ "k"
  else sprintfF 2 num

/-- The function `formatNumber`. -/
def formatNumber (value : String) : String :=
  let cleanValue := rescale (removeCommas value)
  match parseFloat cleanValue with
  | none => value
  | some num => render num

/-- The function `parseRPS`. -/
def parseRPS (rpsStr : String) : F64 :=
  let cleanValue := removeCommas rpsStr
  let scaled : Option F64 :=
    if hasSuffixChar cleanValue 'k' then
      (parseFloat (dropSuffixChar cleanValue)).map (fun num => F64.mul num (F64.ofNat 1000))
    else if hasSuffixChar cleanValue 'M' then
      (parseFloat (dropSuffixChar cleanValue)).map (fun num => F64.mul num (F64.ofNat 1000000))
    else none
  match scaled with
  | some r => r
  | none =>
    match parseFloat cleanValue with
    | some num => num
    | none => F64.fin false 0

/-! ## Data model -/

/-- The struct `LatencyPercentiles`. -/
structure LatencyPercentiles where
  P50 : String
  P75 : String
  P90 : String
  P99 : String
  deriving DecidableEq

/-- The struct `EndpointResult`. -/
structure EndpointResult where
  Endpoint : String
  URL : String
  RequestsPerSec : String
  AvgLatency : String
  TransferPerSec : String
  LatencyPercentiles : LatencyPercentiles
  RawOutput : String
  deriving DecidableEq

/-- The struct `BenchmarkConfig`. -/
structure BenchmarkConfig where
  Duration : ℤ
  Connections : ℤ
  Threads : ℤ
  WarmupTime : ℤ
  deriving DecidableEq

/-- The struct `BenchmarkResults`. The Go map `Results` is the list of its entries in an
order in which a `range` loop may visit them. Go leaves that order open, and may change it
from one loop to the next: the orders of the loops of one run are a `Visits`, below. -/
structure BenchmarkResults where
  Timestamp : String
  Configuration : BenchmarkConfig
  Results : List (String × List EndpointResult)
  deriving DecidableEq

/-- The struct `FrameworkData`. -/
structure FrameworkData where
  Name : String
  RPS : F64
  Data : EndpointResult
  deriving DecidableEq

/-- The zero value of `EndpointResult`, the `Data` of a `FrameworkData` built without it. -/
def EndpointResult.zero : EndpointResult :=
  ⟨"", "", "", "", "", ⟨"", "", "", ""⟩, ""⟩

/-- What the program takes from its host: the library function `strings.Title`, and the
result of the conversion `int(f)` for a float that no `int` represents, which Go leaves
to the implementation. -/
structure Host where
  title : String → String
  intOfBad : F64 → ℤ

/-! ## Ranking -/

/-- The inner loop of the ranking: the first entry with the label `endpointName` and a
non-empty `RequestsPerSec` (the loop breaks there). -/
def firstMatch (endpointName : String) : List EndpointResult → Option EndpointResult
  | [] => none
  | endpoint :: rest =>
    if endpoint.Endpoint = endpointName ∧ endpoint.RequestsPerSec ≠ "" then some endpoint
    else firstMatch endpointName rest

/-- The outer loop of the ranking in `createPerformanceTable` and `createEndpointComparison`:
one `FrameworkData` for each framework with a match, in the order of the iteration. -/
def collect (endpointName : String) : List (String × List EndpointResult) → List FrameworkData
  | [] => []
  | (framework, endpoints) :: rest =>
    match firstMatch endpointName endpoints with
    | some endpoint =>
      ⟨framework, parseRPS endpoint.RequestsPerSec, endpoint⟩ :: collect endpointName rest
    | none => collect endpointName rest

/-- The same loop in `createASCIIChart` and `generateREADME`, which leave `Data` at its zero
value. -/
def collectRPS (results : List (String × List EndpointResult)) : List FrameworkData :=
  (collect "Root endpoint" results).map (fun fw => { fw with Data := EndpointResult.zero })

/-- One pass of the insertion sort: `x` moves down from the top of the sorted prefix, held
here top first, while `less x y` for the element `y` below it. -/
def insertDown {α : Type} (less : α → α → Bool) (x : α) : List α → List α
  | [] => [x]
  | y :: ys => if less x y then y :: insertDown less x ys else x :: y :: ys

/-- Go's `sort.Slice(data, less)` as the insertion sort the library runs on slices of at most
twelve elements. On longer slices the library sorts by another method, with the same
contract: the result is a permutation of the input, ordered by `less` when `less` is a strict
weak order. The two agree on longer slices only up to the order of elements that `less` does
not tell apart, and need not agree at all when `less` is no strict weak order, as with a
NaN throughput; `SortContract`, below, is what holds of the library's sort at every
length. -/
def sortSlice {α : Type} (less : α → α → Bool) (data : List α) : List α :=
  (data.foldl (fun sorted x => insertDown less x sorted) []).reverse

/-- The comparison `frameworks[i].RPS > frameworks[j].RPS`. -/
def byRPS (a b : FrameworkData) : Bool := F64.gt a.RPS b.RPS

/-- The ranked list for a label: collected, then sorted by throughput. -/
def ranked (endpointName : String) (results : List (String × List EndpointResult)) :
    List FrameworkData :=
  sortSlice byRPS (collect endpointName results)

/-- The ranked list of `createASCIIChart` and `generateREADME`. -/
def rankedRPS (results : List (String × List EndpointResult)) : List FrameworkData :=
  sortSlice byRPS (collectRPS results)

/-! ## Tables -/

/-- Go's `strings.ReplaceAll(s, "-", " ")`. -/
def hyphensToSpaces (s : String) : String :=
  String.mk (s.data.map (fun c => if c = '-' then ' ' else c))

/-- The display name of a framework. -/
def displayName (h : Host) (name : String) : String := h.title (hyphensToSpaces name)

/-- A row of the headline table. -/
def performanceRow (h : Host) (fw : FrameworkData) : String :=
  "| **" ++ displayName h fw.Name ++ "** | " ++ formatNumber fw.Data.RequestsPerSec ++ " | " ++
    fw.Data.AvgLatency ++ " | " ++ fw.Data.LatencyPercentiles.P50 ++ " | " ++
    fw.Data.LatencyPercentiles.P75 ++ " | " ++ fw.Data.LatencyPercentiles.P90 ++ " | " ++
    fw.Data.LatencyPercentiles.P99 ++ " |\n"

/-- The two header lines of the headline table. -/
def performanceHeader : String :=
  "\n| Framework | Requests/sec | Avg Latency | P50 | P75 | P90 | P99 |\n" ++
  "|-----------|-------------|-------------|-----|-----|-----|-----|\n"

/-- The function `createPerformanceTable`, for the visiting order `results` and no more than
twelve ranked frameworks; `createPerformanceTableBy`, below, is the function in any run. -/
def createPerformanceTable (h : Host) (results : List (String × List EndpointResult)) : String :=
  performanceHeader ++ String.join ((ranked "Root endpoint" results).map (performanceRow h))

/-- The labels compared by `createEndpointComparison`. -/
def endpointsToCompare : List String :=
  ["Root endpoint", "Health check", "User endpoint", "POST users"]

/-- A row of a per-endpoint table. -/
def comparisonRow (h : Host) (fw : FrameworkData) : String :=
  "| **" ++ displayName h fw.Name ++ "** | " ++ formatNumber fw.Data.RequestsPerSec ++ " | " ++
    fw.Data.AvgLatency ++ " |\n"

/-- The heading and header lines of a per-endpoint table. -/
def comparisonHeader (endpointName : String) : String :=
  "\n### " ++ endpointName ++ "\n\n" ++
  "| Framework | Requests/sec | Avg Latency |\n" ++
  "|-----------|-------------|-------------|\n"

/-- The table of `createEndpointComparison` for one label. -/
def comparisonTable (h : Host) (results : List (String × List EndpointResult))
    (endpointName : String) : String :=
  comparisonHeader endpointName ++
    String.join ((ranked endpointName results).map (comparisonRow h))

/-- The function `createEndpointComparison`, in the run in which the loops for the four
labels visit the map in the same order `results` and no more than twelve frameworks are
ranked; `createEndpointComparisonBy`, below, is the function in any run. -/
def createEndpointComparison (h : Host) (results : List (String × List EndpointResult)) :
    String :=
  String.join (endpointsToCompare.map (comparisonTable h results))

/-! ## The chart -/

/-- Go's conversion `int(f)` on a 64-bit platform: the integer part of a float that has
one in the range of `int`; otherwise whatever the implementation gives. -/
def toInt (h : Host) : F64 → ℤ
  | F64.fin neg k =>
    let t : ℤ := ((k / 2 ^ unitExp : ℕ) : ℤ)
    let v := if neg then -t else t
    if -(2 : ℤ) ^ 63 ≤ v ∧ v < (2 : ℤ) ^ 63 then v else h.intOfBad (F64.fin neg k)
  | x => h.intOfBad x

/-- The bar length computed in the loop of `createASCIIChart`. -/
def barLength (h : Host) (rps maxRPS : F64) : ℤ :=
  let barLength := toInt h (F64.mul (F64.div rps maxRPS) (F64.ofNat 50))
  if F64.eq maxRPS (F64.ofNat 0) then 0 else barLength

/-- Go's `strings.Repeat("█", count)`: it panics (`none`) on a negative count and when the
length of the result, three bytes for each block, overflows `int`. -/
def repeatBlock (count : ℤ) : Option String :=
  if count < 0 ∨ (2 : ℤ) ^ 63 ≤ 3 * count then none
  else some (String.mk (List.replicate count.toNat '█'))

/-- The padding of the verb `%-<width>s`: spaces after `s` up to `width` characters. -/
def padRight (width : ℕ) (s : String) : String :=
  s ++ String.mk (List.replicate (width - s.length) ' ')

/-- One line of the chart. -/
def chartLine (h : Host) (maxRPS : F64) (fw : FrameworkData) : Option String :=
  (repeatBlock (barLength h fw.RPS maxRPS)).map (fun bar =>
    padRight 12 fw.Name ++ " │" ++ padRight 50 bar ++ " " ++
      formatNumber (sprintfF 0 fw.RPS) ++ " req/s\n")

/-- The loop of `createASCIIChart`: the lines of the chart, or `none` when a bar panics. -/
def chartLines (h : Host) (maxRPS : F64) : List FrameworkData → Option String
  | [] => some ""
  | fw :: rest =>
    match chartLine h maxRPS fw with
    | none => none
    | some line => (chartLines h maxRPS rest).map (fun more => line ++ more)

/-- The function `createASCIIChart`, for the visiting order `results` and no more than
twelve ranked frameworks; `none` when it panics. `createASCIIChartBy`, below, is the
function in any run. -/
def createASCIIChart (h : Host) (results : List (String × List EndpointResult)) :
    Option String :=
  let rpsData := rankedRPS results
  let body : Option String :=
    match rpsData with
    | [] => some ""
    | top :: _ => chartLines h top.RPS rpsData
  body.map (fun lines => "\n```\nRequests per Second Comparison:\n\n" ++ lines ++ "```\n")

/-! ## The report -/

/-- Text of the report template: the title and the heading of the quick results. -/
def readmePart0 : String :=
  "# JS vs Go Web Framework Benchmark\n" ++
  "\n" ++
  "A comprehensive performance comparison between JavaScript (Bun) and Go web frameworks.\n" ++
  "\n" ++
  "## 🚀 Quick Results\n" ++
  "\n"

/-- Text of the report template: the heading of the chart. -/
def readmePart1 : String :=
  "\n" ++
  "\n" ++
  "## 📊 Performance Chart\n" ++
  "\n"

/-- Text of the report template: the list of frameworks and the heading of the detailed results. -/
def readmePart2 : String :=
  "\n" ++
  "\n" ++
  "## 🔧 Frameworks Tested\n" ++
  "\n" ++
  "### Go Frameworks\n" ++
  "- **Go Vanilla (net/http)**: Standard Go HTTP server using the built-in `net/http` package\n" ++
  "- **Go Fiber**: Fast Express-inspired web framework built on top of Fasthttp\n" ++
  "\n" ++
  "### JavaScript/TypeScript Frameworks (Bun Runtime)\n" ++
  "- **Bun Vanilla**: Pure Bun HTTP server using Bun's native HTTP APIs\n" ++
  "- **Hono.js**: Ultrafast web framework for Cloudflare Workers, Deno, Bun, and Node.js\n" ++
  "\n" ++
  "## 📈 Detailed Results by Endpoint\n" ++
  "\n"

/-- Text of the report template: the heading of the configuration, up to the duration. -/
def readmePart3 : String :=
  "\n" ++
  "\n" ++
  "## ⚙️ Benchmark Configuration\n" ++
  "\n" ++
  "- **Duration**: "

/-- Text of the report template: up to the number of connections. -/
def readmePart4 : String :=
  " seconds\n" ++
  "- **Connections**: "

/-- Text of the report template: up to the number of threads. -/
def readmePart5 : String :=
  "\n" ++
  "- **Threads**: "

/-- Text of the report template: up to the warm-up time. -/
def readmePart6 : String :=
  "\n" ++
  "- **Warmup Time**: "

/-- Text of the report template: up to the time stamp of the snapshot. -/
def readmePart7 : String :=
  " seconds\n" ++
  "- **Tool**: [wrk](https://github.com/wg/wrk)\n" ++
  "- **Last Updated**: "

/-- Text of the report template: the set-up instructions and the heading of the key findings. -/
def readmePart8 : String :=
  "\n" ++
  "\n" ++
  "## 🛠️ Setup & Running\n" ++
  "\n" ++
  "### Prerequisites\n" ++
  "\n" ++
  "```bash\n" ++
  "# Install Go\n" ++
  "brew install go\n" ++
  "\n" ++
  "# Install Bun\n" ++
  "curl -fsSL https://bun.sh/install | bash\n" ++
  "\n" ++
  "# Install wrk (macOS)\n" ++
  "brew install wrk\n" ++
  "\n" ++
  "# Install wrk (Ubuntu/Debian)\n" ++
  "sudo apt-get install wrk\n" ++
  "\n" ++
  "# Install dependencies for each server\n" ++
  "cd servers/go-fiber && go mod tidy\n" ++
  "cd ../hono-bun && bun install\n" ++
  "```\n" ++
  "\n" ++
  "### Running Benchmarks\n" ++
  "\n" ++
  "```bash\n" ++
  "# Run all benchmarks\n" ++
  "./scripts/benchmark.sh\n" ++
  "\n" ++
  "# Run with custom parameters\n" ++
  "./scripts/benchmark.sh --duration 60 --connections 200 --threads 8\n" ++
  "\n" ++
  "# Generate updated README\n" ++
  "go run scripts/generate_readme.go\n" ++
  "```\n" ++
  "\n" ++
  "## 📋 Test Endpoints\n" ++
  "\n" ++
  "Each server implements the following endpoints:\n" ++
  "\n" ++
  "1. **GET /**: Simple \"Hello, World!\" response\n" ++
  "2. **GET /health**: Health check endpoint\n" ++
  "3. **GET /user/:id**: Parameterized route returning user data\n" ++
  "4. **POST /users**: Create user endpoint (accepts JSON payload)\n" ++
  "\n" ++
  "## 🎯 Key Findings\n" ++
  "\n" ++
  "Based on the latest benchmark results:\n" ++
  "\n"

/-- Fixed closing sections of the report, up to the generation time. -/
def readmeTail : String :=
  "\n" ++
  "- **🔍 Consistency**: All frameworks maintain stable performance across different endpoint types\n" ++
  "- **💾 Memory Usage**: Measured during peak load conditions\n" ++
  "- **🌡️ Latency**: P99 latencies remain reasonable under high load\n" ++
  "\n" ++
  "## 🔄 Continuous Integration\n" ++
  "\n" ++
  "This benchmark runs automatically:\n" ++
  "- ✅ On every commit to main branch\n" ++
  "- ✅ On every pull request\n" ++
  "- ✅ Monthly scheduled runs\n" ++
  "- 📊 Results are automatically updated in this README\n" ++
  "\n" ++
  "## 📚 Technical Notes\n" ++
  "\n" ++
  "### Methodology\n" ++
  "- Each server runs on the same hardware configuration\n" ++
  "- Servers are warmed up before benchmarking begins\n" ++
  "- Multiple endpoints tested to simulate real-world usage\n" ++
  "- Latency percentiles captured for detailed analysis\n" ++
  "\n" ++
  "### Environment\n" ++
  "- **OS**: macOS/Linux\n" ++
  "- **CPU**: Multi-core (threads configurable)\n" ++
  "- **Memory**: Sufficient RAM allocated per server\n" ++
  "- **Network**: Local loopback (eliminates network latency)\n" ++
  "\n" ++
  "## 🤝 Contributing\n" ++
  "\n" ++
  "Feel free to:\n" ++
  "- Add new frameworks to benchmark\n" ++
  "- Improve existing server implementations\n" ++
  "- Suggest additional test scenarios\n" ++
  "- Report issues or inconsistencies\n" ++
  "\n" ++
  "## 📜 License\n" ++
  "\n" ++
  "MIT License - feel free to use this benchmark suite for your own comparisons.\n" ++
  "\n" ++
  "---\n" ++
  "\n" ++
  "*Generated automatically by benchmark suite. Last updated: "

/-- Text after the generation time. -/
def readmeEnd : String :=
  "*\n"

/-- The document returned for an absent or empty snapshot. -/
def placeholder : String :=
  "# Benchmark Results\n\nNo benchmark data available. " ++
  "Run `./scripts/benchmark.sh` to generate results."

/-- The line that names the winner. -/
def winnerLine (h : Host) (winner : FrameworkData) : String :=
  "- **🏆 Highest Throughput**: " ++ displayName h winner.Name ++ " with " ++
    formatNumber (sprintfF 0 winner.RPS) ++ " requests/second\n"

/-- The value `performanceDiff`, present when the gap line is written: more than one
framework is ranked and the last one has a throughput above zero. -/
def performanceDiff : List FrameworkData → Option F64
  | [] => none
  | winner :: rest =>
    match rest.getLast? with
    | none => none
    | some slowest =>
      if F64.gt slowest.RPS (F64.ofNat 0) then
        some (F64.mul (F64.div (F64.sub winner.RPS slowest.RPS) slowest.RPS) (F64.ofNat 100))
      else none

/-- The text of the gap line for a value of `performanceDiff`. -/
def gapText (performanceDiff : F64) : String :=
  "- **📊 Performance Gap**: Up to " ++ sprintfF 1 performanceDiff ++
    "% difference between fastest and slowest\n"

/-- The gap line, when it is written. -/
def gapLine (frameworks : List FrameworkData) : Option String :=
  (performanceDiff frameworks).map gapText

/-- The lines that `generateREADME` adds after the template: the winner and the gap. -/
def keyFindings (h : Host) (frameworks : List FrameworkData) : String :=
  match frameworks with
  | [] => ""
  | winner :: _ => winnerLine h winner ++ (gapLine frameworks).getD ""

/-- The report for a snapshot with frameworks, given its chart and the time of the run. -/
def report (h : Host) (now : String) (results : BenchmarkResults) (chart : String) : String :=
  readmePart0 ++ createPerformanceTable h results.Results ++
  readmePart1 ++ chart ++
  readmePart2 ++ createEndpointComparison h results.Results ++
  readmePart3 ++ toString results.Configuration.Duration ++
  readmePart4 ++ toString results.Configuration.Connections ++
  readmePart5 ++ toString results.Configuration.Threads ++
  readmePart6 ++ toString results.Configuration.WarmupTime ++
  readmePart7 ++ results.Timestamp ++
  readmePart8 ++ keyFindings h (rankedRPS results.Results) ++
  readmeTail ++ now ++ readmeEnd

/-- The function `generateREADME` in the run in which every loop visits the map in the
order of `Results` and no more than twelve frameworks are ranked; `results` is `none` for the
nil pointer, `now` is the formatted `time.Now()`, and the result is `none` when the chart
panics. `generateREADMEBy`, below, is the function in any run, each loop with its own
visiting order, and with the library's sort at every length. -/
def generateREADME (h : Host) (now : String) (results : Option BenchmarkResults) :
    Option String :=
  match results with
  | none => some placeholder
  | some r =>
    if r.Results.length = 0 then some placeholder
    else (createASCIIChart h r.Results).map (report h now r)

/-! ## Notions used in the statements -/

/-- A comparison behaves as a strict weak order on the elements that satisfy `p`. -/
structure WeakOrderOn {α : Type} (less : α → α → Bool) (p : α → Prop) : Prop where
  asymm : ∀ a b, p a → p b → less a b = true → less b a = false
  negTrans : ∀ a b c, p a → p b → p c → less a b = false → less b c = false → less a c = false

/-- A linearly ordered key of a float that is not NaN: whether it is an infinity (`-1`, `0`,
`1`), then its signed number of units. -/
def F64.key : F64 → ℤ × ℤ
  | F64.nan => (0, 0)
  | F64.inf true => (-1, 0)
  | F64.inf false => (1, 0)
  | F64.fin true k => (0, -(k : ℤ))
  | F64.fin false k => (0, (k : ℤ))

/-- The number written by a list of decimal digits. -/
def digitsValue (ds : List Char) : ℕ := ds.foldl (fun a c => a * 10 + digitVal c) 0

/-- All characters of the list are decimal digits. -/
def AllDigits (ds : List Char) : Prop := ∀ c ∈ ds, isDigit c = true

instance (ds : List Char) : Decidable (AllDigits ds) := by
  unfold AllDigits
  infer_instance

/-- The text of a decimal numeral with the integer digits `ip` and the fraction digits
`fp`; the point is written when there are fraction digits. -/
def numeralText (ip fp : List Char) : List Char :=
  ip ++ (if fp = [] then [] else '.' :: fp)

/-- The `ParseFloat` result for a float that came from a finite literal: an infinity is a
range error. -/
def finiteOrError : F64 → Option F64
  | F64.fin neg k => some (F64.fin neg k)
  | _ => none

/-- What may stand after a numeral: nothing, or one of the suffixes `k` and `M`. -/
def Stops (rest : List Char) : Prop :=
  rest = [] ∨ rest = ['k'] ∨ rest = ['M']

/-- The text of a signed decimal numeral: a minus sign when `neg`, then the numeral. -/
def signedText (neg : Bool) (ip fp : List Char) : List Char :=
  (if neg then ['-'] else []) ++ numeralText ip fp

/-- A number of units that a finite binary64 can hold: at most 53 significant bits. -/
def Representable (k : ℕ) : Prop := ∃ m s, m < 2 ^ 53 ∧ k = m * 2 ^ s

/-- The float rounded to an integer, ties to even, as the verb `%.0f` prints it. -/
def F64.roundToInt : F64 → F64
  | F64.fin neg k => F64.fin neg (divHalfEven k (2 ^ unitExp) * 2 ^ unitExp)
  | x => x

/-- A float that arithmetic can produce: a finite one has at most 53 significant bits and
lies below the overflow threshold. -/
def F64.Valid : F64 → Prop
  | F64.fin _ k => Representable k ∧ k < overflowUnits
  | _ => True

/-- The string takes a suffix branch: without its commas it ends in `k` or `M`, and the text
before the suffix parses. -/
def usesSuffix (s : String) : Bool :=
  (hasSuffixChar (removeCommas s) 'k' || hasSuffixChar (removeCommas s) 'M') &&
    (parseFloat (dropSuffixChar (removeCommas s))).isSome

/-- The parse of `s` fails: without its commas, `s` is not accepted by `ParseFloat`, and
when it ends in `k` or `M` the text before that suffix is not accepted either. -/
def ParseFails (s : String) : Prop :=
  parseFloat (removeCommas s) = none ∧
  (hasSuffixChar (removeCommas s) 'k' = true ∨ hasSuffixChar (removeCommas s) 'M' = true →
    parseFloat (dropSuffixChar (removeCommas s)) = none)

instance (s : String) : Decidable (ParseFails s) := by
  unfold ParseFails
  infer_instance

/-- The value that `formatNumber` renders for a string that parses: `parseRPS` of the
string, rounded to an integer when the string takes a suffix branch. -/
def renderedValue (s : String) : F64 :=
  if usesSuffix s then (parseRPS s).roundToInt else parseRPS s

/-- The unit in which `render` writes a value: 1000000 with `M`, 1000 with `k`, or 1. -/
def renderUnit (v : F64) : ℕ :=
  if F64.ge v (F64.ofNat 1000000) then 1000000 else if F64.ge v (F64.ofNat 1000) then 1000 else 1

/-- The float that `render` prints with two decimals: the value divided by its unit. -/
def renderQuotient (v : F64) : F64 :=
  if F64.ge v (F64.ofNat 1000000) then F64.div v (F64.ofNat 1000000)
  else if F64.ge v (F64.ofNat 1000) then F64.div v (F64.ofNat 1000)
  else v

/-- A finite float that is not below zero: a float `+ units * 2^-1074`, or the zero with the
minus sign. -/
def F64.FiniteNonneg : F64 → Prop
  | F64.fin neg k => neg = true → k = 0
  | _ => False

instance (x : F64) : Decidable x.FiniteNonneg := by
  cases x <;> unfold F64.FiniteNonneg <;> infer_instance

/-- The text of a chart line for a framework whose bar has `bar` blocks. -/
def chartRow (fw : FrameworkData) (bar : ℤ) : String :=
  padRight 12 fw.Name ++ " │" ++ padRight 50 (String.mk (List.replicate bar.toNat '█')) ++ " " ++
    formatNumber (sprintfF 0 fw.RPS) ++ " req/s\n"

/-! ## A run of the program: its visiting orders and its sort -/

/-- What `sort.Slice` does to a slice of `FrameworkData` with a given `less`. -/
abbrev Sorter : Type :=
  (FrameworkData → FrameworkData → Bool) → List FrameworkData → List FrameworkData

/-- What holds of the library's `sort.Slice` at every length and whatever its method: it
only swaps elements, so that the result is a permutation of the input; and when `less` is a
strict weak order on the elements, no element of the result is `less` than an earlier
one. The insertion sort `sortSlice` is one such sort. -/
structure SortContract (sort : Sorter) : Prop where
  perm : ∀ less data, (sort less data).Perm data
  sorted : ∀ less (p : FrameworkData → Prop) data, WeakOrderOn less p → (∀ a ∈ data, p a) →
    (sort less data).Pairwise (fun a b => less b a = false)

/-- The orders in which the loops of one run visit the map `Results`. Go fixes no order for
a `range` over a map, and each loop may meet another one: the loop of
`createPerformanceTable`, the loop of `createASCIIChart`, the loop of
`createEndpointComparison` for each label, and the loop of the key findings in
`generateREADME`. -/
structure Visits where
  table : List (String × List EndpointResult)
  chart : List (String × List EndpointResult)
  comparison : String → List (String × List EndpointResult)
  findings : List (String × List EndpointResult)

/-- Every loop visits each entry of the map once. -/
def Visits.Of (v : Visits) (results : List (String × List EndpointResult)) : Prop :=
  v.table.Perm results ∧ v.chart.Perm results ∧ (∀ l, (v.comparison l).Perm results) ∧
    v.findings.Perm results

/-- The run in which every loop visits the map in the order `results`. -/
def Visits.same (results : List (String × List EndpointResult)) : Visits :=
  ⟨results, results, fun _ => results, results⟩

/-- The ranked list for a label in a run: collected in the order of the visit, then sorted. -/
def rankedBy (sort : Sorter) (endpointName : String)
    (visit : List (String × List EndpointResult)) : List FrameworkData :=
  sort byRPS (collect endpointName visit)

/-- The ranked list of `createASCIIChart` and `generateREADME` in a run. -/
def rankedRPSBy (sort : Sorter) (visit : List (String × List EndpointResult)) :
    List FrameworkData :=
  sort byRPS (collectRPS visit)

/-- The function `createPerformanceTable` in a run. -/
def createPerformanceTableBy (h : Host) (sort : Sorter)
    (visit : List (String × List EndpointResult)) : String :=
  performanceHeader ++ String.join ((rankedBy sort "Root endpoint" visit).map (performanceRow h))

/-- The function `createEndpointComparison` in a run: one loop over the map for each label. -/
def createEndpointComparisonBy (h : Host) (sort : Sorter)
    (visit : String → List (String × List EndpointResult)) : String :=
  String.join (endpointsToCompare.map (fun endpointName =>
    comparisonHeader endpointName ++
      String.join ((rankedBy sort endpointName (visit endpointName)).map (comparisonRow h))))

/-- The function `createASCIIChart` in a run; `none` when it panics. -/
def createASCIIChartBy (h : Host) (sort : Sorter)
    (visit : List (String × List EndpointResult)) : Option String :=
  let rpsData := rankedRPSBy sort visit
  let body : Option String :=
    match rpsData with
    | [] => some ""
    | top :: _ => chartLines h top.RPS rpsData
  body.map (fun lines => "\n```\nRequests per Second Comparison:\n\n" ++ lines ++ "```\n")

/-- The function `generateREADME` in a run with the visiting orders `v` and the sort `sort`;
`results` is `none` for the nil pointer, `now` is the formatted `time.Now()`, and the result
is `none` when the chart panics. -/
def generateREADMEBy (h : Host) (sort : Sorter) (now : String) (v : Visits)
    (results : Option BenchmarkResults) : Option String :=
  match results with
  | none => some placeholder
  | some r =>
    if r.Results.length = 0 then some placeholder
    else (createASCIIChartBy h sort v.chart).map (fun chart =>
      readmePart0 ++ createPerformanceTableBy h sort v.table ++
      readmePart1 ++ chart ++
      readmePart2 ++ createEndpointComparisonBy h sort v.comparison ++
      readmePart3 ++ toString r.Configuration.Duration ++
      readmePart4 ++ toString r.Configuration.Connections ++
      readmePart5 ++ toString r.Configuration.Threads ++
      readmePart6 ++ toString r.Configuration.WarmupTime ++
      readmePart7 ++ r.Timestamp ++
      readmePart8 ++ keyFindings h (rankedRPSBy sort v.findings) ++
      readmeTail ++ now ++ readmeEnd)

/-! ## Sample data -/

/-- A host whose `strings.Title` leaves names alone and whose `int(f)` of a float outside
the range of `int` is the smallest `int`. -/
def sampleHost : Host := ⟨id, fun _ => -(2 : ℤ) ^ 63⟩

/-- An entry with the given label and throughput. -/
def sampleEntry (endpoint rps : String) : EndpointResult :=
  ⟨endpoint, "http://localhost:3000/", rps, "1.23ms", "1.5MB", ⟨"1ms", "2ms", "3ms", "4ms"⟩, ""⟩

/-- The snapshot of the ranking example of the specification: A with `10k`, B with `25,000`,
C without an entry for the root endpoint. -/
def sampleResults : List (String × List EndpointResult) :=
  [("A", [sampleEntry "Root endpoint" "10k", sampleEntry "Root endpoint" "99k"]),
   ("B", [sampleEntry "Health check" "7", sampleEntry "Root endpoint" "25,000"]),
   ("C", [sampleEntry "Health check" "30k", sampleEntry "Root endpoint" ""])]

/-- A snapshot in which one root throughput is the text `NaN`, listed in an order in which
a `range` over the map may visit it. -/
def nanResults : List (String × List EndpointResult) :=
  [("A", [sampleEntry "Root endpoint" "1"]),
   ("B", [sampleEntry "Root endpoint" "NaN"]),
   ("C", [sampleEntry "Root endpoint" "2"])]

/-- A snapshot with the root throughputs `5` and `-5`. -/
def negativeSnapshot : BenchmarkResults :=
  ⟨"2024-01-01T00:00:00Z", ⟨30, 100, 4, 5⟩,
   [("go-fiber", [sampleEntry "Root endpoint" "5"]),
    ("hono-bun", [sampleEntry "Root endpoint" "-5"])]⟩

/-- A snapshot with the root throughputs `100` and `50`. -/
def gapSnapshot : BenchmarkResults :=
  ⟨"2024-01-01T00:00:00Z", ⟨30, 100, 4, 5⟩,
   [("go-fiber", [sampleEntry "Root endpoint" "50"]),
    ("hono-bun", [sampleEntry "Root endpoint" "100"])]⟩

/-- A snapshot with one framework. -/
def singleSnapshot : BenchmarkResults :=
  ⟨"2024-01-01T00:00:00Z", ⟨30, 100, 4, 5⟩,
   [("go-fiber", [sampleEntry "Root endpoint" "12.5k"])]⟩

/-- A snapshot with the root throughputs `-1` and `-5`. -/
def belowZeroSnapshot : BenchmarkResults :=
  ⟨"2024-01-01T00:00:00Z", ⟨30, 100, 4, 5⟩,
   [("go-fiber", [sampleEntry "Root endpoint" "-1"]),
    ("hono-bun", [sampleEntry "Root endpoint" "-5"])]⟩

/-- The numeral `1` followed by 309 zeros, the number `10^309`. -/
def hugeNumeral : String := String.mk ('1' :: List.replicate 309 '0')

/-- A host whose `int(f)` saturates: NaN gives 0, and a float outside the range of `int`
gives the nearest end of the range. -/
def saturatingHost : Host :=
  ⟨id, fun x => match x with
    | F64.nan => 0
    | F64.inf true => -(2 : ℤ) ^ 63
    | F64.inf false => (2 : ℤ) ^ 63 - 1
    | F64.fin true _ => -(2 : ℤ) ^ 63
    | F64.fin false _ => (2 : ℤ) ^ 63 - 1⟩

/-- The root throughputs `50` and `29`. -/
def fiftyResults : List (String × List EndpointResult) :=
  [("go-fiber", [sampleEntry "Root endpoint" "50"]),
   ("hono-bun", [sampleEntry "Root endpoint" "29"])]

/-- One framework with the root throughput `inf`. -/
def infiniteResults : List (String × List EndpointResult) :=
  [("go-fiber", [sampleEntry "Root endpoint" "inf"])]

/-- The root throughputs `0` and `0.0`. -/
def zeroResults : List (String × List EndpointResult) :=
  [("go-fiber", [sampleEntry "Root endpoint" "0"]),
   ("hono-bun", [sampleEntry "Root endpoint" "0.0"])]

/-- A snapshot with the root throughputs `5` and `NaN`. -/
def nanSnapshot : BenchmarkResults :=
  ⟨"2024-01-01T00:00:00Z", ⟨30, 100, 4, 5⟩,
   [("go-fiber", [sampleEntry "Root endpoint" "5"]),
    ("hono-bun", [sampleEntry "Root endpoint" "NaN"])]⟩

/-- A run on `gapSnapshot` whose loops visit the map in different orders. -/
def mixedVisits : Visits :=
  ⟨gapSnapshot.Results, gapSnapshot.Results.reverse, fun _ => gapSnapshot.Results,
   gapSnapshot.Results.reverse⟩

/-! ## Sorting -/

theorem insertDown_perm {α : Type} (less : α → α → Bool) (x : α) (l : List α) :
    (insertDown less x l).Perm (x :: l) := by
  induction l with
  | nil => simp [insertDown]
  | cons y ys ih =>
    simp only [insertDown]
    split
    · exact (List.Perm.cons y ih).trans (List.Perm.swap x y ys)
    · exact List.Perm.refl _

theorem foldl_insertDown_perm {α : Type} (less : α → α → Bool) (data acc : List α) :
    (data.foldl (fun sorted x => insertDown less x sorted) acc).Perm (data ++ acc) := by
  induction data generalizing acc with
  | nil => simp
  | cons x xs ih =>
    simp only [List.foldl_cons]
    refine (ih _).trans ?_
    refine (List.Perm.append_left xs (insertDown_perm less x acc)).trans ?_
    exact List.perm_middle

theorem sortSlice_perm {α : Type} (less : α → α → Bool) (data : List α) :
    (sortSlice less data).Perm data := by
  unfold sortSlice
  refine (List.reverse_perm _).trans ?_
  simpa using foldl_insertDown_perm less data []

theorem insertDown_sorted {α : Type} {less : α → α → Bool} {p : α → Prop}
    (hw : WeakOrderOn less p) (x : α) (hx : p x) (l : List α) (hl : ∀ a ∈ l, p a)
    (hs : l.Pairwise (fun a b => less a b = false)) :
    (insertDown less x l).Pairwise (fun a b => less a b = false) := by
  induction l with
  | nil => simp [insertDown]
  | cons y ys ih =>
    have hy : p y := hl y (List.mem_cons_self _ _)
    have hys : ∀ a ∈ ys, p a := fun a ha => hl a (List.mem_cons_of_mem _ ha)
    rw [List.pairwise_cons] at hs
    simp only [insertDown]
    split
    · rename_i hxy
      rw [List.pairwise_cons]
      refine ⟨?_, ih hys hs.2⟩
      intro a ha
      rcases (List.mem_cons.1 ((insertDown_perm less x ys).mem_iff.1 ha)) with rfl | ha
      · exact hw.asymm _ _ hx hy hxy
      · exact hs.1 a ha
    · rename_i hxy
      have hxy : less x y = false := by simpa using hxy
      rw [List.pairwise_cons]
      refine ⟨?_, List.pairwise_cons.2 hs⟩
      intro a ha
      rcases List.mem_cons.1 ha with rfl | ha
      · exact hxy
      · exact hw.negTrans _ _ _ hx hy (hys a ha) hxy (hs.1 a ha)

theorem foldl_insertDown_sorted {α : Type} {less : α → α → Bool} {p : α → Prop}
    (hw : WeakOrderOn less p) (data acc : List α) (hd : ∀ a ∈ data, p a)
    (ha : ∀ a ∈ acc, p a) (hs : acc.Pairwise (fun a b => less a b = false)) :
    (data.foldl (fun sorted x => insertDown less x sorted) acc).Pairwise
      (fun a b => less a b = false) := by
  induction data generalizing acc with
  | nil => exact hs
  | cons x xs ih =>
    simp only [List.foldl_cons]
    have hx : p x := hd x (List.mem_cons_self _ _)
    refine ih _ (fun a h => hd a (List.mem_cons_of_mem _ h)) ?_ (insertDown_sorted hw x hx acc ha hs)
    intro a h
    rcases List.mem_cons.1 ((insertDown_perm less x acc).mem_iff.1 h) with rfl | h
    · exact hx
    · exact ha a h

/-- On elements where `less` is a strict weak order, no element of the sorted slice is
`less` than an earlier one. -/
theorem sortSlice_sorted {α : Type} {less : α → α → Bool} {p : α → Prop}
    (hw : WeakOrderOn less p) (data : List α) (hd : ∀ a ∈ data, p a) :
    (sortSlice less data).Pairwise (fun a b => less b a = false) := by
  unfold sortSlice
  rw [List.pairwise_reverse]
  exact foldl_insertDown_sorted hw data [] hd (by simp) List.Pairwise.nil

/-! ## Order of floats -/

theorem F64.lt_iff_key (a b : F64) (ha : a ≠ F64.nan) (hb : b ≠ F64.nan) :
    F64.lt a b = true ↔ toLex (F64.key a) < toLex (F64.key b) := by
  rcases a with _ | x | ⟨x, k⟩ <;> rcases b with _ | y | ⟨y, l⟩ <;>
    first
    | exact absurd rfl ha
    | exact absurd rfl hb
    | (cases x <;> cases y <;> simp [F64.lt, F64.key, Prod.Lex.lt_iff] <;> omega)

theorem F64.gt_weakOrder : WeakOrderOn (fun a b : F64 => F64.gt a b) (fun a => a ≠ F64.nan) := by
  constructor
  · intro a b ha hb h
    have h1 := (F64.lt_iff_key b a hb ha).1 h
    cases h2 : F64.gt b a
    · rfl
    · exact absurd ((F64.lt_iff_key a b ha hb).1 h2) (lt_asymm h1)
  · intro a b c ha hb hc h1 h2
    cases h3 : F64.gt a c
    · rfl
    · have k3 := (F64.lt_iff_key c a hc ha).1 h3
      have k1 : ¬ toLex (F64.key b) < toLex (F64.key a) := fun h =>
        by simp [F64.gt, (F64.lt_iff_key b a hb ha).2 h] at h1
      have k2 : ¬ toLex (F64.key c) < toLex (F64.key b) := fun h =>
        by simp [F64.gt, (F64.lt_iff_key c b hc hb).2 h] at h2
      exact absurd (lt_of_lt_of_le k3 (not_lt.1 k1)) k2

/-- For floats that are not NaN, `a >= b` holds exactly when `a < b` does not. -/
theorem F64.ge_iff_not_lt (a b : F64) (ha : a ≠ F64.nan) (hb : b ≠ F64.nan) :
    F64.ge a b = true ↔ F64.lt a b = false := by
  rcases a with _ | x | ⟨x, k⟩ <;> rcases b with _ | y | ⟨y, l⟩ <;>
    first
    | exact absurd rfl ha
    | exact absurd rfl hb
    | (cases x <;> cases y <;> simp [F64.ge, F64.gt, F64.eq, F64.lt] <;> omega)

/-! ## Ranking -/

theorem mem_collect (l : String) (results : List (String × List EndpointResult))
    (fw : FrameworkData) :
    fw ∈ collect l results ↔
      ∃ eps, (fw.Name, eps) ∈ results ∧ firstMatch l eps = some fw.Data ∧
        fw.RPS = parseRPS fw.Data.RequestsPerSec := by
  induction results with
  | nil => simp [collect]
  | cons p rest ih =>
    obtain ⟨name, eps⟩ := p
    simp only [collect]
    cases hfm : firstMatch l eps with
    | none =>
      simp only [ih, List.mem_cons]
      constructor
      · rintro ⟨eps', h1, h2, h3⟩
        exact ⟨eps', Or.inr h1, h2, h3⟩
      · rintro ⟨eps', h1 | h1, h2, h3⟩
        · cases h1; simp [hfm] at h2
        · exact ⟨eps', h1, h2, h3⟩
    | some e =>
      simp only [List.mem_cons, ih]
      constructor
      · rintro (h | ⟨eps', h1, h2, h3⟩)
        · subst h; exact ⟨eps, Or.inl rfl, hfm, rfl⟩
        · exact ⟨eps', Or.inr h1, h2, h3⟩
      · rintro ⟨eps', h1 | h1, h2, h3⟩
        · cases h1
          left
          rw [hfm] at h2
          cases fw; simp_all
        · exact Or.inr ⟨eps', h1, h2, h3⟩

theorem ranked_perm (l : String) (results : List (String × List EndpointResult)) :
    (ranked l results).Perm (collect l results) := sortSlice_perm _ _
/-! ## C1: membership of the ranking -/

theorem ranked_rps (l : String) (results : List (String × List EndpointResult))
    (fw : FrameworkData) (h : fw ∈ ranked l results) :
    fw.RPS = parseRPS fw.Data.RequestsPerSec := by
  obtain ⟨_, _, _, h3⟩ := (mem_collect l results fw).1 ((ranked_perm l results).mem_iff.1 h)
  exact h3

/-- C2, as stated, fails: with the root throughputs `1`, `NaN`, `2` visited in that order
the sort leaves the rows where they are, and the row with `1` precedes the row with `2`. -/
theorem ranking_order_fails_on_nan :
    (ranked "Root endpoint" nanResults).map (fun fw => fw.Data.RequestsPerSec) =
      ["1", "NaN", "2"] ∧
    F64.ge (parseRPS "1") (parseRPS "2") = false ∧
    ¬ (ranked "Root endpoint" nanResults).Pairwise (fun a b =>
        F64.ge (parseRPS a.Data.RequestsPerSec) (parseRPS b.Data.RequestsPerSec) = true) := by
  refine ⟨by decide, by decide, ?_⟩
  have h : ranked "Root endpoint" nanResults =
      [⟨"A", parseRPS "1", sampleEntry "Root endpoint" "1"⟩,
       ⟨"B", parseRPS "NaN", sampleEntry "Root endpoint" "NaN"⟩,
       ⟨"C", parseRPS "2", sampleEntry "Root endpoint" "2"⟩] := by decide
  rw [h]
  intro hp
  have h12 := (List.pairwise_cons.1 hp).1 _ (List.mem_cons_of_mem _ (List.mem_cons_self _ _))
  revert h12
  decide

/-- C2, amended. For every snapshot and label for which no ranked throughput is NaN, the
rows of the table are in non-increasing order of `parseRPS` of their `RequestsPerSec`. -/
theorem ranking_order (results : List (String × List EndpointResult)) (endpointName : String)
    (hnan : ∀ fw ∈ ranked endpointName results, parseRPS fw.Data.RequestsPerSec ≠ F64.nan) :
    (ranked endpointName results).Pairwise (fun a b =>
      F64.ge (parseRPS a.Data.RequestsPerSec) (parseRPS b.Data.RequestsPerSec) = true) := by
  have hmem : ∀ fw ∈ collect endpointName results, fw.RPS ≠ F64.nan := by
    intro fw hfw
    have h1 := (ranked_perm endpointName results).mem_iff.2 hfw
    rw [ranked_rps _ _ _ h1]
    exact hnan fw h1
  have hw : WeakOrderOn byRPS (fun fw : FrameworkData => fw.RPS ≠ F64.nan) :=
    ⟨fun a b ha hb h => F64.gt_weakOrder.asymm a.RPS b.RPS ha hb h,
     fun a b c ha hb hc h1 h2 => F64.gt_weakOrder.negTrans a.RPS b.RPS c.RPS ha hb hc h1 h2⟩
  have hs := sortSlice_sorted hw (collect endpointName results) hmem
  have hs2 : (ranked endpointName results).Pairwise
      (fun a b => a ∈ ranked endpointName results ∧ b ∈ ranked endpointName results ∧
        byRPS b a = false) := by
    rw [List.pairwise_iff_forall_sublist] at hs ⊢
    intro a b hab
    exact ⟨hab.subset (by simp), hab.subset (by simp), hs hab⟩
  refine hs2.imp ?_
  rintro a b ⟨ha, hb, hab⟩
  rw [← ranked_rps _ _ _ ha, ← ranked_rps _ _ _ hb]
  have ha' : a.RPS ≠ F64.nan := by rw [ranked_rps _ _ _ ha]; exact hnan a ha
  have hb' : b.RPS ≠ F64.nan := by rw [ranked_rps _ _ _ hb]; exact hnan b hb
  exact (F64.ge_iff_not_lt a.RPS b.RPS ha' hb').2 hab

/-- Witness of C2 on the ranking example: B, with `25,000`, stands above A, with `10k`, and
C is left out. -/
theorem ranking_order_witness :
    (∀ fw ∈ ranked "Root endpoint" sampleResults,
        parseRPS fw.Data.RequestsPerSec ≠ F64.nan) ∧
    (ranked "Root endpoint" sampleResults).map (fun fw => fw.Name) = ["B", "A"] ∧
    (ranked "Root endpoint" sampleResults).Pairwise (fun a b =>
      F64.ge (parseRPS a.Data.RequestsPerSec) (parseRPS b.Data.RequestsPerSec) = true) :=
  ⟨by decide, by decide, ranking_order sampleResults "Root endpoint" (by decide)⟩
/-! ## C6 and C7: strings that do not parse -/

theorem rescale_of_fails (s : String) (h : ParseFails s) :
    rescale (removeCommas s) = removeCommas s := by
  unfold rescale
  split
  · rename_i hk
    rw [h.2 (Or.inl hk)]
  · split
    · rename_i hM
      rw [h.2 (Or.inr hM)]
    · rfl

/-- C6. For every string whose parse fails, `formatNumber` returns the string itself,
commas included. -/
theorem formatNumber_fallback (s : String) (h : ParseFails s) : formatNumber s = s := by
  unfold formatNumber
  simp only [rescale_of_fails s h, h.1]

/-- Witness of C6: `not-a-number`, and a text with commas that does not parse. -/
theorem formatNumber_fallback_witness :
    ParseFails "not-a-number" ∧ formatNumber "not-a-number" = "not-a-number" ∧
    formatNumber "1,2,x" = "1,2,x" :=
  ⟨by decide, formatNumber_fallback "not-a-number" (by decide),
    formatNumber_fallback "1,2,x" (by decide)⟩

/-- C7. `parseRPS` is a total function, and for every string whose parse fails its value
is the float zero. -/
theorem parseRPS_zero_on_failure (s : String) (h : ParseFails s) :
    parseRPS s = F64.fin false 0 := by
  unfold parseRPS
  have h2 : (if hasSuffixChar (removeCommas s) 'k' = true then
        (parseFloat (dropSuffixChar (removeCommas s))).map
          (fun num => F64.mul num (F64.ofNat 1000))
      else if hasSuffixChar (removeCommas s) 'M' = true then
        (parseFloat (dropSuffixChar (removeCommas s))).map
          (fun num => F64.mul num (F64.ofNat 1000000))
      else none) = none := by
    split
    · rename_i hk
      rw [h.2 (Or.inl hk)]; rfl
    · split
      · rename_i hM
        rw [h.2 (Or.inr hM)]; rfl
      · rfl
  simp only [h2, h.1]

/-- Witness of C7: the five strings named by the claim. -/
theorem parseRPS_zero_on_failure_witness :
    ParseFails "5kk" ∧
    parseRPS "" = F64.fin false 0 ∧ parseRPS "abc" = F64.fin false 0 ∧
    parseRPS "k" = F64.fin false 0 ∧ parseRPS "12x" = F64.fin false 0 ∧
    parseRPS "5kk" = F64.fin false 0 :=
  ⟨by decide, parseRPS_zero_on_failure "" (by decide),
    parseRPS_zero_on_failure "abc" (by decide), parseRPS_zero_on_failure "k" (by decide),
    parseRPS_zero_on_failure "12x" (by decide), parseRPS_zero_on_failure "5kk" (by decide)⟩
/-! ## C10: the placeholder -/

theorem take_three_append (s t : String) (h : 3 ≤ s.data.length) :
    (s ++ t).data.take 3 = s.data.take 3 := by
  rw [String.data_append, List.take_append_of_le_length h]

theorem report_starts (h : Host) (now : String) (r : BenchmarkResults) (chart : String) :
    (report h now r chart).data.take 3 = ['#', ' ', 'J'] := by
  have h0 : 3 ≤ readmePart0.data.length := by decide
  simp only [report, String.append_assoc]
  rw [take_three_append _ _ h0]
  decide

theorem report_ne_placeholder (h : Host) (now : String) (r : BenchmarkResults)
    (chart : String) : report h now r chart ≠ placeholder := by
  intro heq
  have h1 := report_starts h now r chart
  rw [heq] at h1
  revert h1
  decide

/-- The part of C10 that holds: `generateREADME` returns the placeholder exactly for the
absent snapshot and for a snapshot without frameworks, whatever its time stamp and
configuration; the placeholder has no table; and a snapshot with frameworks whose chart is
drawn gives the report. -/
theorem generateREADME_placeholder_iff (h : Host) (now : String)
    (results : Option BenchmarkResults) :
    (generateREADME h now results = some placeholder ↔
      (results = none ∨ ∃ r, results = some r ∧ r.Results = [])) ∧
    '|' ∉ placeholder.data ∧
    (∀ r chart, results = some r → r.Results ≠ [] → createASCIIChart h r.Results = some chart →
      generateREADME h now results = some (report h now r chart)) := by
  refine ⟨?_, by decide, ?_⟩
  · cases results with
    | none => simp [generateREADME]
    | some r =>
      simp only [generateREADME, List.length_eq_zero]
      by_cases hr : r.Results = []
      · simp [hr]
      · simp only [hr, if_false]
        cases hc : createASCIIChart h r.Results with
        | none => simpa using hr
        | some chart =>
          simp only [Option.map_some', Option.some.injEq]
          constructor
          · intro h1; exact absurd h1 (report_ne_placeholder h now r chart)
          · rintro (h1 | ⟨x, h1, h2⟩)
            · cases h1
            · cases h1; exact absurd h2 hr
  · intro r chart hr hne hc
    subst hr
    simp [generateREADME, hne, hc]
theorem toInt_of_small (h : Host) (neg : Bool) (k : ℕ) (hk : k / 2 ^ unitExp < 2 ^ 63) :
    toInt h (F64.fin neg k) =
      if neg then -((k / 2 ^ unitExp : ℕ) : ℤ) else ((k / 2 ^ unitExp : ℕ) : ℤ) := by
  have h1 : ((k / 2 ^ unitExp : ℕ) : ℤ) < (2 : ℤ) ^ 63 := by exact_mod_cast hk
  have h2 : (0 : ℤ) ≤ ((k / 2 ^ unitExp : ℕ) : ℤ) := Int.natCast_nonneg _
  unfold toInt
  cases neg
  · simp only [Bool.false_eq_true, if_false]
    rw [if_pos ⟨by omega, h1⟩]
  · simp only [if_true]
    rw [if_pos ⟨by omega, by omega⟩]

theorem chartLines_eq_none (h : Host) (maxRPS : F64) (data : List FrameworkData)
    (fw : FrameworkData) (hm : fw ∈ data)
    (hb : repeatBlock (barLength h fw.RPS maxRPS) = none) : chartLines h maxRPS data = none := by
  induction data with
  | nil => simp at hm
  | cons x xs ih =>
    simp only [chartLines]
    rcases List.mem_cons.1 hm with rfl | hm
    · simp [chartLine, hb]
    · cases chartLine h maxRPS x with
      | none => rfl
      | some line => simp [ih hm]

/-- C10 fails on a snapshot with the root throughputs `5` and `-5`: the bar of the second
framework has the length `-50`, `strings.Repeat` panics, and no report is produced. -/
theorem generateREADME_panics_on_negative (h : Host) (now : String) :
    negativeSnapshot.Results ≠ [] ∧
    barLength h (parseRPS "-5") (parseRPS "5") = -50 ∧
    generateREADME h now (some negativeSnapshot) = none := by
  have hb : barLength h (parseRPS "-5") (parseRPS "5") = -50 := by
    have e1 : F64.eq (parseRPS "5") (F64.ofNat 0) = false := by decide
    have e2 : F64.mul (F64.div (parseRPS "-5") (parseRPS "5")) (F64.ofNat 50) =
        F64.fin true (50 * 2 ^ unitExp) := by decide
    unfold barLength
    rw [e1, e2, toInt_of_small h true _ (by decide)]
    decide
  refine ⟨by decide, hb, ?_⟩
  have hr : rankedRPS negativeSnapshot.Results =
      [⟨"go-fiber", parseRPS "5", EndpointResult.zero⟩,
       ⟨"hono-bun", parseRPS "-5", EndpointResult.zero⟩] := by decide
  have hchart : createASCIIChart h negativeSnapshot.Results = none := by
    unfold createASCIIChart
    rw [hr]
    simp only
    rw [chartLines_eq_none h (parseRPS "5") _ ⟨"hono-bun", parseRPS "-5", EndpointResult.zero⟩
      (by simp) (by rw [hb]; decide)]
    rfl
  have hne : negativeSnapshot.Results.length ≠ 0 := by decide
  simp only [generateREADME, hne, if_false, hchart, Option.map_none']
/-! ## C9: the performance gap -/

theorem rankedRPS_sorted (results : List (String × List EndpointResult))
    (hnan : ∀ fw ∈ rankedRPS results, fw.RPS ≠ F64.nan) :
    (rankedRPS results).Pairwise (fun a b => F64.ge a.RPS b.RPS = true) := by
  have hperm : (rankedRPS results).Perm (collectRPS results) := sortSlice_perm _ _
  have hw : WeakOrderOn byRPS (fun fw : FrameworkData => fw.RPS ≠ F64.nan) :=
    ⟨fun a b ha hb h => F64.gt_weakOrder.asymm a.RPS b.RPS ha hb h,
     fun a b c ha hb hc h1 h2 => F64.gt_weakOrder.negTrans a.RPS b.RPS c.RPS ha hb hc h1 h2⟩
  have hs : (rankedRPS results).Pairwise (fun a b => byRPS b a = false) :=
    sortSlice_sorted hw (collectRPS results) (fun a ha => hnan a (hperm.mem_iff.2 ha))
  have hs2 : (rankedRPS results).Pairwise
      (fun a b => a ∈ rankedRPS results ∧ b ∈ rankedRPS results ∧ byRPS b a = false) := by
    rw [List.pairwise_iff_forall_sublist] at hs ⊢
    intro a b hab
    exact ⟨hab.subset (by simp), hab.subset (by simp), hs hab⟩
  refine hs2.imp ?_
  rintro a b ⟨ha, hb, hab⟩
  exact (F64.ge_iff_not_lt a.RPS b.RPS (hnan a ha) (hnan b hb)).2 hab

theorem performanceDiff_eq_some (fs : List FrameworkData) (d : F64) :
    performanceDiff fs = some d ↔
      ∃ winner slowest, fs.head? = some winner ∧ fs.getLast? = some slowest ∧
        2 ≤ fs.length ∧ F64.gt slowest.RPS (F64.ofNat 0) = true ∧
        d = F64.mul (F64.div (F64.sub winner.RPS slowest.RPS) slowest.RPS) (F64.ofNat 100) := by
  cases fs with
  | nil => simp [performanceDiff]
  | cons w rest =>
    cases rest with
    | nil => simp [performanceDiff]
    | cons x xs =>
      have hl : (w :: x :: xs).getLast? = (x :: xs).getLast? := by
        simp [List.getLast?_cons_cons]
      simp only [performanceDiff, List.head?_cons, hl, List.length_cons, Option.some.injEq]
      cases hx : (x :: xs).getLast? with
      | none => simp
      | some s =>
        by_cases hg : F64.gt s.RPS (F64.ofNat 0) = true
        · simp only [hg, if_true, Option.some.injEq]
          constructor
          · intro hd
            exact ⟨w, s, rfl, rfl, by omega, hg, hd.symm⟩
          · rintro ⟨w', s', h1, h2, _, _, h5⟩
            cases h1; cases h2; exact h5.symm
        · simp only [hg, if_false]
          constructor
          · intro hd; cases hd
          · rintro ⟨w', s', h1, h2, _, h4, _⟩
            cases h2; exact absurd h4 hg

/-- The insertion sort meets the contract of `sort.Slice`. -/
theorem sortSlice_contract : SortContract sortSlice :=
  ⟨fun less data => sortSlice_perm less data,
   fun _ _ data hw hd => sortSlice_sorted hw data hd⟩

/-- The function `generateREADME` above is the run in which every loop visits the map in the
same order and the sort is the insertion sort. -/
theorem generateREADME_eq_run (h : Host) (now : String) (r : BenchmarkResults) :
    generateREADME h now (some r) =
      generateREADMEBy h sortSlice now (Visits.same r.Results) (some r) := rfl

theorem collect_eq_filterMap (l : String) (results : List (String × List EndpointResult)) :
    collect l results = results.filterMap (fun fe =>
      (firstMatch l fe.2).map (fun e => (⟨fe.1, parseRPS e.RequestsPerSec, e⟩ : FrameworkData))) := by
  induction results with
  | nil => rfl
  | cons x xs ih =>
    obtain ⟨f, eps⟩ := x
    simp only [collect, List.filterMap_cons]
    cases hm : firstMatch l eps <;> simp [ih]

/-- The frameworks collected by a loop are the same in every visiting order, up to their
order. -/
theorem collectRPS_perm {a b : List (String × List EndpointResult)} (hab : a.Perm b) :
    (collectRPS a).Perm (collectRPS b) := by
  unfold collectRPS
  rw [collect_eq_filterMap, collect_eq_filterMap]
  exact (hab.filterMap _).map _

theorem F64.ge_iff_key (a b : F64) (ha : a ≠ F64.nan) (hb : b ≠ F64.nan) :
    F64.ge a b = true ↔ toLex (F64.key b) ≤ toLex (F64.key a) := by
  rw [F64.ge_iff_not_lt a b ha hb, ← not_lt, ← F64.lt_iff_key a b ha hb]
  simp

theorem F64.eq_of_key (a b : F64) (ha : a ≠ F64.nan) (hb : b ≠ F64.nan)
    (hk : F64.key a = F64.key b) (hpos : F64.gt a (F64.ofNat 0) = true) : a = b := by
  have h0 : F64.ofNat 0 = F64.fin false 0 := by decide
  rw [h0] at hpos
  rcases a with _ | x | ⟨x, k⟩ <;> rcases b with _ | y | ⟨y, l⟩ <;>
    first
    | exact absurd rfl ha
    | exact absurd rfl hb
    | (cases x <;> cases y <;> simp [F64.key, F64.gt, F64.lt] at hk hpos ⊢ <;> omega)
/-- In every run, when no ranked root throughput is NaN, the ranking of the key findings
holds the frameworks with a root entry, none before one with a higher throughput. -/
theorem run_ranking (sort : Sorter) (hsort : SortContract sort)
    (results visit : List (String × List EndpointResult)) (hv : visit.Perm results)
    (hnan : ∀ fw ∈ collectRPS results, fw.RPS ≠ F64.nan) :
    (rankedRPSBy sort visit).Perm (collectRPS results) ∧
      (rankedRPSBy sort visit).Pairwise (fun a b => F64.ge a.RPS b.RPS = true) := by
  have hperm : (rankedRPSBy sort visit).Perm (collectRPS results) :=
    (hsort.perm _ _).trans (collectRPS_perm hv)
  have hn : ∀ fw ∈ collectRPS visit, fw.RPS ≠ F64.nan := fun fw hfw =>
    hnan fw ((collectRPS_perm hv).mem_iff.1 hfw)
  have hw : WeakOrderOn byRPS (fun fw : FrameworkData => fw.RPS ≠ F64.nan) :=
    ⟨fun a b ha hb h => F64.gt_weakOrder.asymm a.RPS b.RPS ha hb h,
     fun a b c ha hb hc h1 h2 => F64.gt_weakOrder.negTrans a.RPS b.RPS c.RPS ha hb hc h1 h2⟩
  have hs : (rankedRPSBy sort visit).Pairwise (fun a b => byRPS b a = false) :=
    hsort.sorted byRPS _ (collectRPS visit) hw hn
  have hs2 : (rankedRPSBy sort visit).Pairwise
      (fun a b => a ∈ rankedRPSBy sort visit ∧ b ∈ rankedRPSBy sort visit ∧
        byRPS b a = false) := by
    rw [List.pairwise_iff_forall_sublist] at hs ⊢
    intro a b hab
    exact ⟨hab.subset (by simp), hab.subset (by simp), hs hab⟩
  refine ⟨hperm, hs2.imp ?_⟩
  rintro a b ⟨ha, hb, hab⟩
  exact (F64.ge_iff_not_lt a.RPS b.RPS (hnan a (hperm.mem_iff.1 ha))
    (hnan b (hperm.mem_iff.1 hb))).2 hab

theorem sorted_head_last (fs : List FrameworkData)
    (hnan : ∀ fw ∈ fs, fw.RPS ≠ F64.nan)
    (hs : fs.Pairwise (fun a b => F64.ge a.RPS b.RPS = true))
    (w s : FrameworkData) (hw : fs.head? = some w) (hl : fs.getLast? = some s) :
    w ∈ fs ∧ s ∈ fs ∧ (∀ fw ∈ fs, F64.ge w.RPS fw.RPS = true) ∧
      (∀ fw ∈ fs, F64.ge fw.RPS s.RPS = true) := by
  have hwm : w ∈ fs := List.mem_of_mem_head? hw
  have hsm : s ∈ fs := List.mem_of_mem_getLast? hl
  have hrefl : ∀ fw ∈ fs, F64.ge fw.RPS fw.RPS = true := fun fw hfw =>
    (F64.ge_iff_key _ _ (hnan fw hfw) (hnan fw hfw)).2 le_rfl
  refine ⟨hwm, hsm, ?_, ?_⟩
  · cases fs with
    | nil => simp at hw
    | cons x xs =>
      simp only [List.head?_cons, Option.some.injEq] at hw
      subst hw
      intro fw hfw
      rcases List.mem_cons.1 hfw with rfl | hfw
      · exact hrefl _ hwm
      · exact (List.pairwise_cons.1 hs).1 fw hfw
  · obtain ⟨ys, rfl⟩ := List.getLast?_eq_some_iff.1 hl
    intro fw hfw
    rcases List.mem_append.1 hfw with hfw | hfw
    · exact (List.pairwise_append.1 hs).2.2 fw hfw s (by simp)
    · simp only [List.mem_singleton] at hfw
      subst hfw
      exact hrefl _ hsm

/-- Two highest and two lowest elements of a list without NaN are above zero together, and
have the same throughputs when the lowest is above zero. -/
theorem extremes_unique (fs : List FrameworkData) (hnan : ∀ fw ∈ fs, fw.RPS ≠ F64.nan)
    (w s hi lo : FrameworkData) (hw : w ∈ fs) (hs : s ∈ fs) (hhi : hi ∈ fs) (hlo : lo ∈ fs)
    (hwmax : ∀ fw ∈ fs, F64.ge w.RPS fw.RPS = true)
    (hsmin : ∀ fw ∈ fs, F64.ge fw.RPS s.RPS = true)
    (hmax : ∀ fw ∈ fs, F64.ge hi.RPS fw.RPS = true)
    (hmin : ∀ fw ∈ fs, F64.ge fw.RPS lo.RPS = true) :
    (F64.gt s.RPS (F64.ofNat 0) = true ↔ F64.gt lo.RPS (F64.ofNat 0) = true) ∧
    (F64.gt lo.RPS (F64.ofNat 0) = true → w.RPS = hi.RPS ∧ s.RPS = lo.RPS) := by
  have h0 : F64.ofNat 0 ≠ F64.nan := by decide
  have ks : F64.key s.RPS = F64.key lo.RPS := by
    have h1 := (F64.ge_iff_key _ _ (hnan _ hlo) (hnan _ hs)).1 (hsmin lo hlo)
    have h2 := (F64.ge_iff_key _ _ (hnan _ hs) (hnan _ hlo)).1 (hmin s hs)
    exact toLex.injective (le_antisymm h1 h2)
  have kw : F64.key w.RPS = F64.key hi.RPS := by
    have h1 := (F64.ge_iff_key _ _ (hnan _ hw) (hnan _ hhi)).1 (hwmax hi hhi)
    have h2 := (F64.ge_iff_key _ _ (hnan _ hhi) (hnan _ hw)).1 (hmax w hw)
    exact toLex.injective (le_antisymm h2 h1)
  have hgt : ∀ a : F64, a ≠ F64.nan →
      (F64.gt a (F64.ofNat 0) = true ↔ toLex (F64.key (F64.ofNat 0)) < toLex (F64.key a)) :=
    fun a ha => F64.lt_iff_key (F64.ofNat 0) a h0 ha
  refine ⟨?_, ?_⟩
  · rw [hgt _ (hnan _ hs), hgt _ (hnan _ hlo), ks]
  · intro hpos
    have hspos : F64.gt s.RPS (F64.ofNat 0) = true := by
      rw [hgt _ (hnan _ hs), ks, ← hgt _ (hnan _ hlo)]; exact hpos
    have hwpos : F64.gt w.RPS (F64.ofNat 0) = true := by
      rw [hgt _ (hnan _ hw)]
      exact lt_of_lt_of_le ((hgt _ (hnan _ hs)).1 hspos)
        ((F64.ge_iff_key _ _ (hnan _ hw) (hnan _ hs)).1 (hwmax s hs))
    exact ⟨F64.eq_of_key _ _ (hnan _ hw) (hnan _ hhi) kw hwpos,
      F64.eq_of_key _ _ (hnan _ hs) (hnan _ hlo) ks hspos⟩

/-- C9, as stated, fails: with the root throughputs `-1` and `-5` the report is produced,
two frameworks are ranked and the lowest throughput, `-5`, is not zero, yet no gap line is
written. Nor is it with the root throughputs `5` and `NaN` on a host whose `int(NaN)` is 0:
the report is produced, two frameworks are ranked and the last one, with NaN, has a
throughput that is not zero. -/
theorem gap_line_absent_below_zero :
    (generateREADME sampleHost "2024-01-02 03:04:05" (some belowZeroSnapshot)).isSome = true ∧
    (rankedRPS belowZeroSnapshot.Results).map (fun fw => fw.RPS) =
      [parseRPS "-1", parseRPS "-5"] ∧
    F64.eq (parseRPS "-5") (F64.ofNat 0) = false ∧
    gapLine (rankedRPS belowZeroSnapshot.Results) = none ∧
    (generateREADME saturatingHost "2024-01-02 03:04:05" (some nanSnapshot)).isSome = true ∧
    (rankedRPS nanSnapshot.Results).map (fun fw => fw.RPS) = [parseRPS "5", F64.nan] ∧
    F64.eq F64.nan (F64.ofNat 0) = false ∧
    gapLine (rankedRPS nanSnapshot.Results) = none := by
  refine ⟨by decide, by decide, by decide, by decide, by decide, by decide, by decide,
    by decide⟩

/-- C9, amended. Take any run of `generateREADME` on a snapshot with frameworks in which no
ranked root throughput is NaN: each loop visits the map in an order of its own, and the
sort is any that meets the contract of `sort.Slice`. If the run produces a document, the
document is the template followed by the key findings, and the gap line stands in them
exactly when at least two frameworks are ranked for the root endpoint and the lowest ranked
throughput is above zero; the line then shows `(highest - lowest) / lowest * 100` with one
decimal, computed in binary64 from the highest and the lowest ranked throughput, which are
those of the first and the last framework of the ranking. -/
theorem performance_gap (h : Host) (sort : Sorter) (hsort : SortContract sort)
    (now out : String) (r : BenchmarkResults) (v : Visits) (hv : v.Of r.Results)
    (hne : r.Results ≠ [])
    (hnan : ∀ fw ∈ collectRPS r.Results, fw.RPS ≠ F64.nan)
    (hout : generateREADMEBy h sort now v (some r) = some out) :
    (∃ chart, createASCIIChartBy h sort v.chart = some chart ∧
      out = readmePart0 ++ createPerformanceTableBy h sort v.table ++
        readmePart1 ++ chart ++
        readmePart2 ++ createEndpointComparisonBy h sort v.comparison ++
        readmePart3 ++ toString r.Configuration.Duration ++
        readmePart4 ++ toString r.Configuration.Connections ++
        readmePart5 ++ toString r.Configuration.Threads ++
        readmePart6 ++ toString r.Configuration.WarmupTime ++
        readmePart7 ++ r.Timestamp ++
        readmePart8 ++
        (match rankedRPSBy sort v.findings with
         | [] => ""
         | winner :: _ =>
           winnerLine h winner ++ (gapLine (rankedRPSBy sort v.findings)).getD "") ++
        readmeTail ++ now ++ readmeEnd) ∧
    (∀ line, gapLine (rankedRPSBy sort v.findings) = some line ↔
      2 ≤ (collectRPS r.Results).length ∧
      ∃ highest lowest, highest ∈ collectRPS r.Results ∧ lowest ∈ collectRPS r.Results ∧
        (∀ fw ∈ collectRPS r.Results, F64.ge highest.RPS fw.RPS = true) ∧
        (∀ fw ∈ collectRPS r.Results, F64.ge fw.RPS lowest.RPS = true) ∧
        F64.gt lowest.RPS (F64.ofNat 0) = true ∧
        line = "- **📊 Performance Gap**: Up to " ++
          sprintfF 1 (F64.mul (F64.div (F64.sub highest.RPS lowest.RPS) lowest.RPS)
            (F64.ofNat 100)) ++
          "% difference between fastest and slowest\n") ∧
    (rankedRPSBy sort v.findings).Perm (collectRPS r.Results) ∧
    (rankedRPSBy sort v.findings).Pairwise (fun a b => F64.ge a.RPS b.RPS = true) ∧
    (∀ winner slowest, (rankedRPSBy sort v.findings).head? = some winner →
      (rankedRPSBy sort v.findings).getLast? = some slowest →
      (∀ fw ∈ collectRPS r.Results, F64.ge winner.RPS fw.RPS = true) ∧
      (∀ fw ∈ collectRPS r.Results, F64.ge fw.RPS slowest.RPS = true)) := by
  obtain ⟨hperm, hsorted⟩ := run_ranking sort hsort r.Results v.findings hv.2.2.2 hnan
  have hn : ∀ fw ∈ rankedRPSBy sort v.findings, fw.RPS ≠ F64.nan := fun fw hfw =>
    hnan fw (hperm.mem_iff.1 hfw)
  refine ⟨?_, ?_, hperm, hsorted, ?_⟩
  · have hl : r.Results.length ≠ 0 := by
      rw [Ne, List.length_eq_zero]; exact hne
    simp only [generateREADMEBy, hl, if_false] at hout
    cases hc : createASCIIChartBy h sort v.chart with
    | none => simp [hc] at hout
    | some chart =>
      simp only [hc, Option.map_some', Option.some.injEq] at hout
      refine ⟨chart, rfl, ?_⟩
      rw [← hout]
      unfold keyFindings
      rfl
  · intro line
    unfold gapLine
    rw [Option.map_eq_some']
    constructor
    · rintro ⟨d, hd, rfl⟩
      obtain ⟨w, s, h1, h2, h3, h4, h5⟩ := (performanceDiff_eq_some _ d).1 hd
      obtain ⟨hwm, hsm, hmax, hmin⟩ := sorted_head_last _ hn hsorted w s h1 h2
      refine ⟨by rw [← hperm.length_eq]; exact h3, w, s, hperm.mem_iff.1 hwm,
        hperm.mem_iff.1 hsm, fun fw hfw => hmax fw (hperm.mem_iff.2 hfw),
        fun fw hfw => hmin fw (hperm.mem_iff.2 hfw), h4, by rw [h5]; rfl⟩
    · rintro ⟨hlen, hi, lo, hhi, hlo, hmax, hmin, hpos, rfl⟩
      have hlen2 : 2 ≤ (rankedRPSBy sort v.findings).length := by
        rw [hperm.length_eq]; exact hlen
      obtain ⟨w, hw⟩ : ∃ w, (rankedRPSBy sort v.findings).head? = some w := by
        cases hfs : rankedRPSBy sort v.findings with
        | nil => rw [hfs] at hlen2; simp at hlen2
        | cons x xs => exact ⟨x, rfl⟩
      obtain ⟨s, hs⟩ : ∃ s, (rankedRPSBy sort v.findings).getLast? = some s := by
        cases hfs : (rankedRPSBy sort v.findings).getLast? with
        | none =>
          rw [List.getLast?_eq_none_iff] at hfs
          rw [hfs] at hlen2; simp at hlen2
        | some s => exact ⟨s, rfl⟩
      obtain ⟨hwm, hsm, hwmax, hsmin⟩ := sorted_head_last _ hn hsorted w s hw hs
      obtain ⟨hiff, heq⟩ := extremes_unique _ hn w s hi lo hwm hsm (hperm.mem_iff.2 hhi)
        (hperm.mem_iff.2 hlo) hwmax hsmin (fun fw hfw => hmax fw (hperm.mem_iff.1 hfw))
        (fun fw hfw => hmin fw (hperm.mem_iff.1 hfw))
      obtain ⟨e1, e2⟩ := heq hpos
      refine ⟨_, (performanceDiff_eq_some _ _).2 ⟨w, s, hw, hs, hlen2, hiff.2 hpos, rfl⟩, ?_⟩
      rw [e1, e2]; rfl
  · intro w s hw hs
    obtain ⟨_, _, hwmax, hsmin⟩ := sorted_head_last _ hn hsorted w s hw hs
    exact ⟨fun fw hfw => hwmax fw (hperm.mem_iff.2 hfw),
      fun fw hfw => hsmin fw (hperm.mem_iff.2 hfw)⟩

/-- Witness of C9: in a run whose loops visit the map in different orders, the throughputs
`100` and `50` give the gap `100.0%`; a snapshot with one framework has no gap line. -/
theorem performance_gap_witness :
    SortContract sortSlice ∧ mixedVisits.Of gapSnapshot.Results ∧ gapSnapshot.Results ≠ [] ∧
    (∀ fw ∈ collectRPS gapSnapshot.Results, fw.RPS ≠ F64.nan) ∧
    (∃ out, generateREADMEBy sampleHost sortSlice "2024-01-02 03:04:05" mixedVisits
        (some gapSnapshot) = some out ∧
      (rankedRPSBy sortSlice mixedVisits.findings).Perm (collectRPS gapSnapshot.Results) ∧
      (rankedRPSBy sortSlice mixedVisits.findings).Pairwise
        (fun a b => F64.ge a.RPS b.RPS = true)) ∧
    gapLine (rankedRPSBy sortSlice mixedVisits.findings) =
      some "- **📊 Performance Gap**: Up to 100.0% difference between fastest and slowest\n" ∧
    gapLine (rankedRPSBy sortSlice singleSnapshot.Results) = none := by
  have hv : mixedVisits.Of gapSnapshot.Results :=
    ⟨List.Perm.refl _, List.reverse_perm _, fun _ => List.Perm.refl _, List.reverse_perm _⟩
  have hnan : ∀ fw ∈ collectRPS gapSnapshot.Results, fw.RPS ≠ F64.nan := by decide
  have hc : (generateREADMEBy sampleHost sortSlice "2024-01-02 03:04:05" mixedVisits
      (some gapSnapshot)).isSome = true := by decide
  obtain ⟨out, hout⟩ := Option.isSome_iff_exists.1 hc
  have hthm := performance_gap sampleHost sortSlice sortSlice_contract "2024-01-02 03:04:05"
    out gapSnapshot mixedVisits hv (by decide) hnan hout
  exact ⟨sortSlice_contract, hv, by decide, hnan, ⟨out, hout, hthm.2.2.1, hthm.2.2.2.1⟩,
    by decide, by decide⟩

/-! ## Rounding -/

theorem bitLenBy_spec (w : ℕ) (hw : 0 < w) (fuel n : ℕ) (hn : n ≤ fuel) :
    n / 2 ^ bitLenBy w fuel n < 2 ^ w ∧ (0 < n → 0 < n / 2 ^ bitLenBy w fuel n) := by
  induction fuel generalizing n with
  | zero =>
    have : n = 0 := by omega
    subst this
    simp [bitLenBy]
  | succ fuel ih =>
    simp only [bitLenBy]
    split
    · rename_i h
      simpa using h
    · rename_i h
      have h2 : 2 ^ w ≤ n := by omega
      have hpos : 0 < 2 ^ w := Nat.pow_pos (by norm_num)
      have hlt : n / 2 ^ w < n := by
        apply Nat.div_lt_self (by omega)
        calc 1 < 2 ^ 1 := by norm_num
          _ ≤ 2 ^ w := Nat.pow_le_pow_right (by norm_num) hw
      have hq : 0 < n / 2 ^ w := Nat.div_pos h2 hpos
      have := ih (n / 2 ^ w) (by omega)
      rw [Nat.add_comm, pow_add, ← Nat.div_div_eq_div_mul]
      exact ⟨this.1, fun _ => this.2 hq⟩

theorem bitLen_zero : bitLen 0 = 0 := by decide

theorem bitLen_spec (n : ℕ) (hn : 0 < n) :
    2 ^ (bitLen n - 1) ≤ n ∧ n < 2 ^ bitLen n ∧ 0 < bitLen n := by
  have ha := bitLenBy_spec 256 (by norm_num) n n le_rfl
  have hb := bitLenBy_spec 16 (by norm_num) (n / 2 ^ bitLenBy 256 n n) _ le_rfl
  have hc := bitLenBy_spec 1 (by norm_num)
    (n / 2 ^ bitLenBy 256 n n / 2 ^ bitLenBy 16 (n / 2 ^ bitLenBy 256 n n)
      (n / 2 ^ bitLenBy 256 n n)) _ le_rfl
  have h1 := ha.2 hn
  have h2 := hb.2 h1
  have h3 := hc.2 h2
  have h4 := hc.1
  unfold bitLen
  simp only []
  generalize bitLenBy 256 n n = a at *
  generalize bitLenBy 16 (n / 2 ^ a) (n / 2 ^ a) = b at *
  generalize bitLenBy 1 (n / 2 ^ a / 2 ^ b) (n / 2 ^ a / 2 ^ b) = c at *
  have hone : n / 2 ^ a / 2 ^ b / 2 ^ c = 1 := by omega
  rw [hone]
  rw [Nat.div_div_eq_div_mul, Nat.div_div_eq_div_mul, ← pow_add, ← pow_add, ← add_assoc] at hone
  simp only [one_ne_zero, if_false, Nat.add_sub_cancel]
  have hp : 0 < 2 ^ (a + b + c) := Nat.pow_pos (by norm_num)
  have hd := Nat.div_add_mod n (2 ^ (a + b + c))
  have hm := Nat.mod_lt n hp
  rw [hone] at hd
  refine ⟨by omega, ?_, by omega⟩
  rw [pow_succ]; omega
theorem divHalfEven_exact (m d : ℕ) (hd : 0 < d) : divHalfEven (m * d) d = m := by
  unfold divHalfEven
  simp [Nat.mul_div_cancel _ hd, hd]

theorem divHalfEven_near (n d : ℕ) (hd : 0 < d) :
    2 * (divHalfEven n d * d) ≤ 2 * n + d ∧ 2 * n ≤ 2 * (divHalfEven n d * d) + d := by
  have h1 := Nat.div_add_mod n d
  have h2 := Nat.mod_lt n hd
  have h3 : d * (n / d) = n / d * d := Nat.mul_comm _ _
  unfold divHalfEven
  simp only []
  split
  · constructor <;> omega
  · split
    · rw [Nat.add_mul]; constructor <;> omega
    · split
      · constructor <;> omega
      · rw [Nat.add_mul]; constructor <;> omega

theorem divHalfEven_ge (n d m : ℕ) (hd : 0 < d) (h : m * d ≤ n) : m ≤ divHalfEven n d := by
  have hm : m ≤ n / d := (Nat.le_div_iff_mul_le hd).2 h
  unfold divHalfEven
  simp only []
  split
  · exact hm
  · split
    · omega
    · split <;> omega

theorem divHalfEven_le (n d m : ℕ) (hd : 0 < d) (h : n ≤ m * d) : divHalfEven n d ≤ m := by
  have h1 := Nat.div_add_mod n d
  have h2 := Nat.mod_lt n hd
  have hq : n / d ≤ m := by
    calc n / d ≤ m * d / d := Nat.div_le_div_right h
      _ = m := Nat.mul_div_cancel _ hd
  rcases Nat.eq_or_lt_of_le hq with heq | hlt
  · have hr : n % d = 0 := by
      have : d * (n / d) = m * d := by rw [heq, Nat.mul_comm]
      omega
    unfold divHalfEven
    simp [hr, hd, heq]
  · unfold divHalfEven
    simp only []
    split
    · omega
    · split
      · omega
      · split <;> omega
theorem divHalfEven_mono (n n' d : ℕ) (hd : 0 < d) (h : n ≤ n') :
    divHalfEven n d ≤ divHalfEven n' d := by
  have h1 := Nat.div_add_mod n d
  have h2 := Nat.mod_lt n hd
  have h1' := Nat.div_add_mod n' d
  have h2' := Nat.mod_lt n' hd
  have hq : n / d ≤ n' / d := Nat.div_le_div_right h
  rcases Nat.eq_or_lt_of_le hq with heq | hlt
  · rw [← heq] at h1'
    have hr : n % d ≤ n' % d := by omega
    unfold divHalfEven
    simp only [← heq]
    split <;> split <;> (try split) <;> (try split) <;> (try split) <;> omega
  · have ha : divHalfEven n d ≤ n / d + 1 := by
      unfold divHalfEven
      simp only []
      split <;> (try split) <;> (try split) <;> omega
    have hb : n' / d ≤ divHalfEven n' d := by
      unfold divHalfEven
      simp only []
      split <;> (try split) <;> (try split) <;> omega
    omega

theorem bitLen_mono (a b : ℕ) (h : a ≤ b) : bitLen a ≤ bitLen b := by
  rcases Nat.eq_zero_or_pos a with rfl | ha
  · simp [bitLen_zero]
  · have hb : 0 < b := by omega
    have sa := bitLen_spec a ha
    have sb := bitLen_spec b hb
    by_contra hlt
    have h1 : bitLen b ≤ bitLen a - 1 := by omega
    have h2 : 2 ^ bitLen b ≤ 2 ^ (bitLen a - 1) := Nat.pow_le_pow_right (by norm_num) h1
    omega

theorem bitLen_le_of_lt_pow (n e : ℕ) (h : n < 2 ^ e) : bitLen n ≤ e := by
  rcases Nat.eq_zero_or_pos n with rfl | hn
  · simp [bitLen_zero]
  · have s := bitLen_spec n hn
    by_contra hlt
    have h2 : 2 ^ e ≤ 2 ^ (bitLen n - 1) := Nat.pow_le_pow_right (by norm_num) (by omega)
    omega

theorem lt_bitLen_of_pow_le (n e : ℕ) (h : 2 ^ e ≤ n) : e < bitLen n := by
  have hn : 0 < n := lt_of_lt_of_le (Nat.pow_pos (by norm_num)) h
  have s := bitLen_spec n hn
  by_contra hlt
  have h2 : 2 ^ bitLen n ≤ 2 ^ e := Nat.pow_le_pow_right (by norm_num) (by omega)
  omega

/-- The rounded value does not exceed the power of two above the quotient. -/
theorem roundUnits_le_pow (num den : ℕ) (hden : 0 < den) :
    roundUnits num den ≤ 2 ^ bitLen (num * 2 ^ unitExp / den) := by
  unfold roundUnits
  simp only []
  generalize hS : num * 2 ^ unitExp = S
  generalize hL : bitLen (S / den) = L
  have hlt : S / den < 2 ^ L := by
    rcases Nat.eq_zero_or_pos (S / den) with h0 | hpos
    · rw [h0]; exact Nat.pow_pos (by norm_num)
    · rw [← hL]; exact (bitLen_spec _ hpos).2.1
  have hS2 : S < 2 ^ L * den := (Nat.div_lt_iff_lt_mul hden).1 hlt
  have hsplit : 2 ^ L = 2 ^ (L - (L - 53)) * 2 ^ (L - 53) := by
    rw [← pow_add]; congr 1; omega
  have hpos : 0 < den * 2 ^ (L - 53) := Nat.mul_pos hden (Nat.pow_pos (by norm_num))
  have := divHalfEven_le S (den * 2 ^ (L - 53)) (2 ^ (L - (L - 53))) hpos (by
    calc S ≤ 2 ^ L * den := hS2.le
      _ = 2 ^ (L - (L - 53)) * (den * 2 ^ (L - 53)) := by rw [hsplit]; ring)
  calc divHalfEven S (den * 2 ^ (L - 53)) * 2 ^ (L - 53)
      ≤ 2 ^ (L - (L - 53)) * 2 ^ (L - 53) := Nat.mul_le_mul_right _ this
    _ = 2 ^ L := hsplit.symm

/-- The rounded value is at least the power of two below the quotient. -/
theorem roundUnits_ge_pow (num den : ℕ) (hden : 0 < den) (hq : 0 < num * 2 ^ unitExp / den) :
    2 ^ (bitLen (num * 2 ^ unitExp / den) - 1) ≤ roundUnits num den := by
  unfold roundUnits
  simp only []
  generalize hS : num * 2 ^ unitExp = S at *
  generalize hL : bitLen (S / den) = L
  have hle : 2 ^ (L - 1) ≤ S / den := by rw [← hL]; exact (bitLen_spec _ hq).1
  have hLpos : 0 < L := by rw [← hL]; exact (bitLen_spec _ hq).2.2
  have hS2 : 2 ^ (L - 1) * den ≤ S := (Nat.le_div_iff_mul_le hden).1 hle
  have hsplit : 2 ^ (L - 1) = 2 ^ (L - 1 - (L - 53)) * 2 ^ (L - 53) := by
    rw [← pow_add]; congr 1; omega
  have hpos : 0 < den * 2 ^ (L - 53) := Nat.mul_pos hden (Nat.pow_pos (by norm_num))
  have := divHalfEven_ge S (den * 2 ^ (L - 53)) (2 ^ (L - 1 - (L - 53))) hpos (by
    calc 2 ^ (L - 1 - (L - 53)) * (den * 2 ^ (L - 53))
        = 2 ^ (L - 1) * den := by rw [hsplit]; ring
      _ ≤ S := hS2)
  calc 2 ^ (L - 1) = 2 ^ (L - 1 - (L - 53)) * 2 ^ (L - 53) := hsplit
    _ ≤ divHalfEven S (den * 2 ^ (L - 53)) * 2 ^ (L - 53) := Nat.mul_le_mul_right _ this
/-- Rounding is monotone in the numerator. -/
theorem roundUnits_mono (a b den : ℕ) (hden : 0 < den) (h : a ≤ b) :
    roundUnits a den ≤ roundUnits b den := by
  have hS : a * 2 ^ unitExp ≤ b * 2 ^ unitExp := Nat.mul_le_mul_right _ h
  have hq : a * 2 ^ unitExp / den ≤ b * 2 ^ unitExp / den := Nat.div_le_div_right hS
  have hL := bitLen_mono _ _ hq
  rcases Nat.eq_or_lt_of_le hL with heq | hlt
  · unfold roundUnits
    simp only [heq]
    exact Nat.mul_le_mul_right _
      (divHalfEven_mono _ _ _ (Nat.mul_pos hden (Nat.pow_pos (by norm_num))) hS)
  · have hbpos : 0 < b * 2 ^ unitExp / den := by
      rcases Nat.eq_zero_or_pos (b * 2 ^ unitExp / den) with h0 | hp
      · rw [h0, bitLen_zero] at hlt; omega
      · exact hp
    calc roundUnits a den ≤ 2 ^ bitLen (a * 2 ^ unitExp / den) := roundUnits_le_pow a den hden
      _ ≤ 2 ^ (bitLen (b * 2 ^ unitExp / den) - 1) :=
          Nat.pow_le_pow_right (by norm_num) (by omega)
      _ ≤ roundUnits b den := roundUnits_ge_pow b den hden hbpos

/-- A number of units with at most 53 significant bits is its own rounding. -/
theorem roundUnits_exact (num den m s : ℕ) (hden : 0 < den) (hm : m < 2 ^ 53)
    (h : num * 2 ^ unitExp = m * 2 ^ s * den) : roundUnits num den = m * 2 ^ s := by
  unfold roundUnits
  simp only []
  rw [h, Nat.mul_div_cancel _ hden]
  have hlt : m * 2 ^ s < 2 ^ (53 + s) := by
    rw [pow_add]; exact Nat.mul_lt_mul_of_pos_right hm (Nat.pow_pos (by norm_num))
  have hL : bitLen (m * 2 ^ s) - 53 ≤ s := by
    have := bitLen_le_of_lt_pow _ _ hlt
    omega
  generalize bitLen (m * 2 ^ s) - 53 = t at hL
  have hsplit : (2 : ℕ) ^ s = 2 ^ (s - t) * 2 ^ t := by
    rw [← pow_add]; congr 1; omega
  have hpos : 0 < den * 2 ^ t := Nat.mul_pos hden (Nat.pow_pos (by norm_num))
  have e : m * 2 ^ s * den = (m * 2 ^ (s - t)) * (den * 2 ^ t) := by rw [hsplit]; ring
  rw [e, divHalfEven_exact _ _ hpos, hsplit]
  ring

/-- A natural number below `2^53` is represented exactly. -/
theorem roundUnits_nat (n : ℕ) (hn : n < 2 ^ 53) : roundUnits n 1 = n * 2 ^ unitExp := by
  exact roundUnits_exact n 1 n unitExp (by norm_num) hn (by ring)

/-! ## Decimal digits -/

theorem isDigit_ne (c d : Char) (hc : isDigit c = true) (hd : isDigit d = false) : c ≠ d := by
  rintro rfl
  rw [hc] at hd
  cases hd

theorem digitChar_spec (k : ℕ) (hk : k < 10) :
    isDigit (Nat.digitChar k) = true ∧ digitVal (Nat.digitChar k) = k := by
  interval_cases k <;> decide

theorem foldl_digits_append (ds : List Char) (a : ℕ) :
    ds.foldl (fun a c => a * 10 + digitVal c) a = a * 10 ^ ds.length + digitsValue ds := by
  unfold digitsValue
  induction ds using List.reverseRecOn with
  | nil => simp
  | append_singleton xs x ih =>
    simp only [List.foldl_append, List.foldl_cons, List.foldl_nil, List.length_append,
      List.length_singleton, ih]
    ring

theorem digitsValue_append (xs ys : List Char) :
    digitsValue (xs ++ ys) = digitsValue xs * 10 ^ ys.length + digitsValue ys := by
  conv_lhs => unfold digitsValue
  rw [List.foldl_append, foldl_digits_append]
  rfl

theorem toDigitsCore_spec (fuel n : ℕ) (ds : List Char) (h : n < fuel) :
    ∃ pre, Nat.toDigitsCore 10 fuel n ds = pre ++ ds ∧ AllDigits pre ∧ pre ≠ [] ∧
      digitsValue pre = n := by
  induction fuel generalizing n ds with
  | zero => omega
  | succ fuel ih =>
    have hd := digitChar_spec (n % 10) (Nat.mod_lt _ (by norm_num))
    simp only [Nat.toDigitsCore]
    split
    · rename_i h0
      refine ⟨[Nat.digitChar (n % 10)], rfl, ?_, by simp, ?_⟩
      · intro c hc
        rw [List.mem_singleton] at hc
        rw [hc]; exact hd.1
      · simp only [digitsValue, List.foldl_cons, List.foldl_nil, hd.2]
        omega
    · rename_i h0
      obtain ⟨pre, h1, h2, h3, h4⟩ := ih (n / 10) (Nat.digitChar (n % 10) :: ds) (by omega)
      refine ⟨pre ++ [Nat.digitChar (n % 10)], by simp [h1], ?_, by simp, ?_⟩
      · intro c hc
        rcases List.mem_append.1 hc with hc | hc
        · exact h2 c hc
        · rw [List.mem_singleton] at hc
          rw [hc]; exact hd.1
      · rw [digitsValue_append, h4]
        simp only [digitsValue, List.foldl_cons, List.foldl_nil, hd.2, List.length_singleton]
        omega

/-- The decimal digits of `n` are digits, there is at least one, and they write `n`. -/
theorem toDigits_spec (n : ℕ) :
    AllDigits (Nat.toDigits 10 n) ∧ Nat.toDigits 10 n ≠ [] ∧
      digitsValue (Nat.toDigits 10 n) = n := by
  obtain ⟨pre, h1, h2, h3, h4⟩ := toDigitsCore_spec (n + 1) n [] (by omega)
  unfold Nat.toDigits
  rw [h1, List.append_nil]
  exact ⟨h2, h3, h4⟩
/-! ## Parsing a decimal numeral -/

theorem scanMantissa_digits (ds rest : List Char) (m : Mant) (h : AllDigits ds) :
    scanMantissa false (ds ++ rest) m =
      scanMantissa false rest
        ⟨m.digits * 10 ^ ds.length + digitsValue ds,
         if m.sawdot then m.frac + ds.length else m.frac,
         m.sawdot, m.sawdigits || !ds.isEmpty, m.underscores⟩ := by
  induction ds generalizing m with
  | nil => cases m; simp [digitsValue]
  | cons c cs ih =>
    have hc : isDigit c = true := h c (List.mem_cons_self _ _)
    have hcs : AllDigits cs := fun x hx => h x (List.mem_cons_of_mem _ hx)
    have h1 : c ≠ '_' := isDigit_ne c '_' hc (by decide)
    have h2 : c ≠ '.' := isDigit_ne c '.' hc (by decide)
    simp only [List.cons_append, scanMantissa, h1, h2, hc, if_false, if_true, Bool.false_eq_true]
    rw [show cs.append rest = cs ++ rest from rfl, ih _ hcs]
    congr 1
    have e : digitsValue (c :: cs) = digitVal c * 10 ^ cs.length + digitsValue cs := by
      have := digitsValue_append [c] cs
      simpa [digitsValue] using this
    simp only [Mant.push, Mant.mk.injEq, e, List.length_cons, List.isEmpty_cons,
      Bool.not_false, Bool.or_true, Bool.true_or, and_true, pow_succ]
    refine ⟨by ring, ?_⟩
    cases m.sawdot
    · simp
    · simp; omega

theorem splitSign_digit (c : Char) (t : List Char) (hc : isDigit c = true) :
    splitSign (c :: t) = (false, c :: t) := by
  have h1 : c ≠ '+' := isDigit_ne c '+' hc (by decide)
  have h2 : c ≠ '-' := isDigit_ne c '-' hc (by decide)
  simp [splitSign, h1, h2]

theorem splitHexPrefix_plain (t : List Char) (h : ∀ c ∈ t, c ≠ 'x' ∧ c ≠ 'X') :
    splitHexPrefix t = (false, t) := by
  unfold splitHexPrefix
  split
  · rename_i c0 c1 c2 r
    have := h c1 (by simp)
    simp [this.1, this.2]
  · rfl

theorem special_digit (c : Char) (t : List Char) (hc : isDigit c = true) :
    special (c :: t) = none := by
  have h1 : c ≠ '+' := isDigit_ne c '+' hc (by decide)
  have h2 : c ≠ '-' := isDigit_ne c '-' hc (by decide)
  have h3 : c ≠ 'i' := isDigit_ne c 'i' hc (by decide)
  have h4 : c ≠ 'I' := isDigit_ne c 'I' hc (by decide)
  have h5 : c ≠ 'n' := isDigit_ne c 'n' hc (by decide)
  have h6 : c ≠ 'N' := isDigit_ne c 'N' hc (by decide)
  simp [special, h1, h2, h3, h4, h5, h6]

theorem readExponent_nil : readExponent false [] = some (false, 0, false, []) := rfl

theorem scanMantissa_stops (rest : List Char) (m : Mant) (h : Stops rest) :
    scanMantissa false rest m = (m, rest) := by
  rcases h with rfl | rfl | rfl
  · rfl
  · simp [scanMantissa, isDigit]
  · simp [scanMantissa, isDigit]

theorem readExponent_stops (rest : List Char) (h : Stops rest) :
    readExponent false rest = some (false, 0, false, rest) := by
  rcases h with rfl | rfl | rfl
  · rfl
  · simp [readExponent]
  · simp [readExponent]

theorem readMagnitude_numeral (neg : Bool) (s ip fp rest : List Char) (hip : AllDigits ip)
    (hne : ip ≠ []) (hfp : AllDigits fp) (hrest : Stops rest) :
    readMagnitude neg s (numeralText ip fp ++ rest) =
      some (F64.ofRatio neg (digitsValue (ip ++ fp)) (10 ^ fp.length), rest) := by
  obtain ⟨c, t, rfl⟩ := List.exists_cons_of_ne_nil hne
  have hc : isDigit c = true := hip c (List.mem_cons_self _ _)
  have hx : ∀ d ∈ numeralText (c :: t) fp ++ rest, d ≠ 'x' ∧ d ≠ 'X' := by
    intro d hd
    have hcases : isDigit d = true ∨ d = '.' ∨ d ∈ rest := by
      unfold numeralText at hd
      rcases List.mem_append.1 hd with h | h
      · rcases List.mem_append.1 h with h | h
        · exact Or.inl (hip d h)
        · split at h
          · simp at h
          · rcases List.mem_cons.1 h with h | h
            · exact Or.inr (Or.inl h)
            · exact Or.inl (hfp d h)
      · exact Or.inr (Or.inr h)
    rcases hcases with h | h | h
    · exact ⟨isDigit_ne d 'x' h (by decide), isDigit_ne d 'X' h (by decide)⟩
    · subst h; decide
    · rcases hrest with rfl | rfl | rfl
      · simp at h
      · simp at h; subst h; decide
      · simp at h; subst h; decide
  have hscan : scanMantissa false (numeralText (c :: t) fp ++ rest) Mant.init =
      (⟨digitsValue ((c :: t) ++ fp), fp.length, !fp.isEmpty, true, false⟩, rest) := by
    unfold numeralText
    rw [List.append_assoc, scanMantissa_digits _ _ _ hip]
    by_cases hf : fp = []
    · subst hf
      simp [scanMantissa_stops _ _ hrest, Mant.init]
    · simp only [hf, if_false, List.cons_append, scanMantissa, Mant.init]
      have e := scanMantissa_digits fp rest ⟨0 * 10 ^ (c :: t).length + digitsValue (c :: t), 0,
        true, true, false⟩ hfp
      simp only [show ('.' : Char) ≠ '_' by decide, if_false, if_true, Bool.false_eq_true]
      simp only [List.isEmpty_cons, Bool.not_false, Bool.or_true, Bool.false_or]
      rw [e, scanMantissa_stops _ _ hrest]
      simp only [if_true, zero_mul, zero_add, Bool.true_or]
      have hv : digitsValue (c :: (t ++ fp)) =
          digitsValue (c :: t) * 10 ^ fp.length + digitsValue fp := digitsValue_append (c :: t) fp
      cases fp with
      | nil => exact absurd rfl hf
      | cons x xs => simp [hv]
  unfold readMagnitude
  simp only [splitHexPrefix_plain _ hx, hscan, Bool.not_true, Bool.false_eq_true,
    if_false, readExponent_stops _ hrest, Bool.or_false, Bool.false_and]
  unfold literalRatio
  by_cases hf : fp.length = 0
  · simp [hf]
  · simp [hf]

theorem readFloat_numeral (ip fp rest : List Char) (hip : AllDigits ip) (hne : ip ≠ [])
    (hfp : AllDigits fp) (hrest : Stops rest) :
    readFloat (numeralText ip fp ++ rest) =
      some (F64.ofRatio false (digitsValue (ip ++ fp)) (10 ^ fp.length), rest) := by
  obtain ⟨c, t, rfl⟩ := List.exists_cons_of_ne_nil hne
  have hc : isDigit c = true := hip c (List.mem_cons_self _ _)
  have hs : splitSign (numeralText (c :: t) fp ++ rest) =
      (false, numeralText (c :: t) fp ++ rest) := splitSign_digit c _ hc
  unfold readFloat
  rw [hs]
  exact readMagnitude_numeral false _ (c :: t) fp rest hip hne hfp hrest

/-- `ParseFloat` on a decimal numeral: the float nearest to its value, or a range error. -/
theorem parseFloat_numeral (ip fp : List Char) (hip : AllDigits ip) (hne : ip ≠ [])
    (hfp : AllDigits fp) :
    parseFloat (String.mk (numeralText ip fp)) =
      finiteOrError (F64.ofRatio false (digitsValue (ip ++ fp)) (10 ^ fp.length)) := by
  obtain ⟨c, t, rfl⟩ := List.exists_cons_of_ne_nil hne
  have hc : isDigit c = true := hip c (List.mem_cons_self _ _)
  have hparse := readFloat_numeral (c :: t) fp [] hip hne hfp (Or.inl rfl)
  rw [List.append_nil] at hparse
  unfold parseFloat
  have hsp : special (numeralText (c :: t) fp) = none := special_digit c _ hc
  simp only [hsp, hparse]
  cases F64.ofRatio false (digitsValue ((c :: t) ++ fp)) (10 ^ fp.length) <;> rfl

/-- A numeral followed by `k` or `M` is not accepted by `ParseFloat`. -/
theorem parseFloat_numeral_suffix (ip fp : List Char) (hip : AllDigits ip) (hne : ip ≠ [])
    (hfp : AllDigits fp) (c : Char) (hc : c = 'k' ∨ c = 'M') :
    parseFloat (String.mk (numeralText ip fp ++ [c])) = none := by
  obtain ⟨d, t, rfl⟩ := List.exists_cons_of_ne_nil hne
  have hd : isDigit d = true := hip d (List.mem_cons_self _ _)
  have hstop : Stops [c] := by
    rcases hc with rfl | rfl
    · exact Or.inr (Or.inl rfl)
    · exact Or.inr (Or.inr rfl)
  have hparse := readFloat_numeral (d :: t) fp [c] hip hne hfp hstop
  unfold parseFloat
  have hsp : special (numeralText (d :: t) fp ++ [c]) = none := special_digit d _ hd
  simp only [hsp, hparse]
  cases F64.ofRatio false (digitsValue ((d :: t) ++ fp)) (10 ^ fp.length) <;> rfl
theorem numeralText_ne_nil (ip fp : List Char) (hne : ip ≠ []) : numeralText ip fp ≠ [] := by
  unfold numeralText
  simp [hne]

theorem numeralText_getLast (ip fp : List Char) (hip : AllDigits ip) (hne : ip ≠ [])
    (hfp : AllDigits fp) :
    ∃ c, (numeralText ip fp).getLast? = some c ∧ isDigit c = true := by
  unfold numeralText
  by_cases hf : fp = []
  · subst hf
    simp only [if_true, List.append_nil]
    refine ⟨ip.getLast hne, List.getLast?_eq_getLast _ hne, hip _ (List.getLast_mem hne)⟩
  · simp only [hf, if_false]
    refine ⟨fp.getLast hf, ?_, hfp _ (List.getLast_mem hf)⟩
    rw [List.getLast?_append_of_ne_nil _ (by simp)]
    obtain ⟨x, xs, rfl⟩ := List.exists_cons_of_ne_nil hf
    rw [List.getLast?_cons_cons]
    exact List.getLast?_eq_getLast _ _

theorem hasSuffixChar_numeral (ip fp : List Char) (hip : AllDigits ip) (hne : ip ≠ [])
    (hfp : AllDigits fp) (c : Char) (hc : isDigit c = false) :
    hasSuffixChar (String.mk (numeralText ip fp)) c = false := by
  obtain ⟨d, h1, h2⟩ := numeralText_getLast ip fp hip hne hfp
  unfold hasSuffixChar
  simp only [h1]
  have := isDigit_ne d c h2 hc
  simpa using this

theorem removeCommas_append_char (s : String) (c : Char) (hc : c ≠ ',') :
    removeCommas (s ++ String.mk [c]) = String.mk ((removeCommas s).data ++ [c]) := by
  unfold removeCommas
  simp [String.data_append, List.filter_append, hc]

theorem hasSuffixChar_append (l : List Char) (c : Char) :
    hasSuffixChar (String.mk (l ++ [c])) c = true := by
  simp [hasSuffixChar]

theorem hasSuffixChar_append_ne (l : List Char) (c d : Char) (h : c ≠ d) :
    hasSuffixChar (String.mk (l ++ [c])) d = false := by
  simp [hasSuffixChar, h]

theorem dropSuffixChar_append (l : List Char) (c : Char) :
    dropSuffixChar (String.mk (l ++ [c])) = String.mk l := by
  simp [dropSuffixChar]


/-! ## `parseRPS` on decimal numerals -/

theorem parseRPS_numeral_eq (s : String) (ip fp : List Char) (hip : AllDigits ip)
    (hne : ip ≠ []) (hfp : AllDigits fp)
    (hs : removeCommas s = String.mk (numeralText ip fp)) :
    parseRPS s =
      (finiteOrError (F64.ofRatio false (digitsValue (ip ++ fp)) (10 ^ fp.length))).getD
        (F64.fin false 0) := by
  unfold parseRPS
  simp only [hs, hasSuffixChar_numeral ip fp hip hne hfp 'k' (by decide),
    hasSuffixChar_numeral ip fp hip hne hfp 'M' (by decide), Bool.false_eq_true, if_false,
    parseFloat_numeral ip fp hip hne hfp]
  cases finiteOrError (F64.ofRatio false (digitsValue (ip ++ fp)) (10 ^ fp.length)) <;> rfl

theorem parseRPS_numeral_k (s : String) (ip fp : List Char) (hip : AllDigits ip)
    (hne : ip ≠ []) (hfp : AllDigits fp)
    (hs : removeCommas s = String.mk (numeralText ip fp)) :
    parseRPS (s ++ "k") =
      ((finiteOrError (F64.ofRatio false (digitsValue (ip ++ fp)) (10 ^ fp.length))).map
        (fun num => F64.mul num (F64.ofNat 1000))).getD (F64.fin false 0) := by
  have hk : ("k" : String) = String.mk ['k'] := rfl
  unfold parseRPS
  rw [hk, removeCommas_append_char s 'k' (by decide), hs]
  simp only [hasSuffixChar_append, if_true, dropSuffixChar_append,
    parseFloat_numeral ip fp hip hne hfp,
    parseFloat_numeral_suffix ip fp hip hne hfp 'k' (Or.inl rfl)]
  cases finiteOrError (F64.ofRatio false (digitsValue (ip ++ fp)) (10 ^ fp.length)) <;> rfl

theorem parseRPS_numeral_M (s : String) (ip fp : List Char) (hip : AllDigits ip)
    (hne : ip ≠ []) (hfp : AllDigits fp)
    (hs : removeCommas s = String.mk (numeralText ip fp)) :
    parseRPS (s ++ "M") =
      ((finiteOrError (F64.ofRatio false (digitsValue (ip ++ fp)) (10 ^ fp.length))).map
        (fun num => F64.mul num (F64.ofNat 1000000))).getD (F64.fin false 0) := by
  have hM : ("M" : String) = String.mk ['M'] := rfl
  unfold parseRPS
  rw [hM, removeCommas_append_char s 'M' (by decide), hs]
  simp only [hasSuffixChar_append, if_true, dropSuffixChar_append,
    hasSuffixChar_append_ne _ 'M' 'k' (by decide), Bool.false_eq_true, if_false,
    parseFloat_numeral ip fp hip hne hfp,
    parseFloat_numeral_suffix ip fp hip hne hfp 'M' (Or.inr rfl)]
  cases finiteOrError (F64.ofRatio false (digitsValue (ip ++ fp)) (10 ^ fp.length)) <;> rfl

theorem divHalfEven_le_of_lt (n d m : ℕ) (hd : 0 < d) (h : 2 * n < (2 * m + 1) * d) :
    divHalfEven n d ≤ m := by
  have h1 := Nat.div_add_mod n d
  have h2 := Nat.mod_lt n hd
  have hq : n / d ≤ m := by
    by_contra hlt
    have h3 : (m + 1) * d ≤ n / d * d := Nat.mul_le_mul_right _ (by omega)
    have h4 : n / d * d ≤ n := Nat.div_mul_le_self n d
    have h5 : (2 * m + 1) * d = 2 * (m * d) + d := by ring
    have h6 : (m + 1) * d = m * d + d := by ring
    omega
  rcases Nat.eq_or_lt_of_le hq with heq | hlt
  · have h5 : (2 * m + 1) * d = 2 * (d * m) + d := by ring
    rw [heq] at h1
    have hr : 2 * (n % d) < d := by omega
    unfold divHalfEven
    simp [hr, heq]
  · unfold divHalfEven
    simp only []
    split
    · omega
    · split
      · omega
      · split <;> omega

/-- A quotient below `2^1024 - 2^970` rounds to a finite float. -/
theorem roundUnits_lt_overflow (num den : ℕ) (hden : 0 < den)
    (h : num < (2 ^ 1024 - 2 ^ 970) * den) : roundUnits num den < overflowUnits := by
  have hS : num * 2 ^ unitExp < (2 ^ 2098 - 2 ^ 2044) * den := by
    have e : (2 ^ 2098 - 2 ^ 2044 : ℕ) = (2 ^ 1024 - 2 ^ 970) * 2 ^ unitExp := by
      unfold unitExp; norm_num
    rw [e]
    calc num * 2 ^ unitExp < (2 ^ 1024 - 2 ^ 970) * den * 2 ^ unitExp :=
          Nat.mul_lt_mul_of_pos_right h (Nat.pow_pos (by norm_num))
      _ = (2 ^ 1024 - 2 ^ 970) * 2 ^ unitExp * den := by ring
  have hq : num * 2 ^ unitExp / den < 2 ^ 2098 := by
    rw [Nat.div_lt_iff_lt_mul hden]
    calc num * 2 ^ unitExp < (2 ^ 2098 - 2 ^ 2044) * den := hS
      _ ≤ 2 ^ 2098 * den := Nat.mul_le_mul_right _ (by norm_num)
  have hL := bitLen_le_of_lt_pow _ _ hq
  rcases Nat.lt_or_ge (bitLen (num * 2 ^ unitExp / den)) 2098 with hlt | hge
  · calc roundUnits num den ≤ 2 ^ bitLen (num * 2 ^ unitExp / den) :=
          roundUnits_le_pow num den hden
      _ ≤ 2 ^ 2097 := Nat.pow_le_pow_right (by norm_num) (by omega)
      _ < overflowUnits := by unfold overflowUnits; norm_num
  · have hLeq : bitLen (num * 2 ^ unitExp / den) = 2098 := by omega
    unfold roundUnits
    simp only [hLeq]
    have hpos : 0 < den * 2 ^ (2098 - 53) := Nat.mul_pos hden (Nat.pow_pos (by norm_num))
    have hm := divHalfEven_le_of_lt (num * 2 ^ unitExp) (den * 2 ^ (2098 - 53)) (2 ^ 53 - 1)
      hpos (by
        calc 2 * (num * 2 ^ unitExp) < 2 * ((2 ^ 2098 - 2 ^ 2044) * den) := by omega
          _ = (2 * (2 ^ 53 - 1) + 1) * (den * 2 ^ (2098 - 53)) := by
            have e2 : (2 * (2 ^ 2098 - 2 ^ 2044) : ℕ) = (2 * (2 ^ 53 - 1) + 1) * 2 ^ (2098 - 53) := by
              norm_num
            calc 2 * ((2 ^ 2098 - 2 ^ 2044) * den) = 2 * (2 ^ 2098 - 2 ^ 2044) * den := by ring
              _ = (2 * (2 ^ 53 - 1) + 1) * 2 ^ (2098 - 53) * den := by rw [e2]
              _ = _ := by ring)
    calc divHalfEven (num * 2 ^ unitExp) (den * 2 ^ (2098 - 53)) * 2 ^ (2098 - 53)
        ≤ (2 ^ 53 - 1) * 2 ^ (2098 - 53) := Nat.mul_le_mul_right _ hm
      _ < overflowUnits := by unfold overflowUnits; norm_num

set_option maxRecDepth 2000 in
/-- The rounded number of units differs from the exact quotient by at most half a unit, or
by at most the quotient times `2^-53`. -/
theorem roundUnits_near (num den : ℕ) (hden : 0 < den) :
    |(roundUnits num den : ℚ) - (num : ℚ) * 2 ^ unitExp / den| ≤
      max (1 / 2) ((num : ℚ) * 2 ^ unitExp / den / 2 ^ 53) := by
  have hdq : (0 : ℚ) < den := by exact_mod_cast hden
  generalize hS : num * 2 ^ unitExp = S
  have hSq : (num : ℚ) * 2 ^ unitExp = (S : ℚ) := by rw [← hS]; push_cast; ring
  rw [hSq]
  unfold roundUnits
  simp only [hS]
  generalize hL : bitLen (S / den) = L
  have hpos : 0 < den * 2 ^ (L - 53) := Nat.mul_pos hden (Nat.pow_pos (by norm_num))
  obtain ⟨hA, hB⟩ := divHalfEven_near S (den * 2 ^ (L - 53)) hpos
  generalize divHalfEven S (den * 2 ^ (L - 53)) = m at hA hB
  have hA' : (2 : ℚ) * (m * (den * 2 ^ (L - 53))) ≤ 2 * S + den * 2 ^ (L - 53) := by
    exact_mod_cast hA
  have hB' : (2 : ℚ) * S ≤ 2 * (m * (den * 2 ^ (L - 53))) + den * 2 ^ (L - 53) := by
    exact_mod_cast hB
  have hp : (0 : ℚ) < 2 ^ (L - 53) := by positivity
  have hC : (2 : ℚ) ^ (L - 53) ≤ max 1 ((S : ℚ) / den / 2 ^ 52) := by
    rcases Nat.lt_or_ge 53 L with hgt | hle
    · apply le_max_of_le_right
      have hq : 0 < S / den := by
        rcases Nat.eq_zero_or_pos (S / den) with h0 | hp0
        · rw [h0, bitLen_zero] at hL; omega
        · exact hp0
      have h1 : 2 ^ (L - 1) ≤ S / den := by rw [← hL]; exact (bitLen_spec _ hq).1
      have h2 : 2 ^ (L - 1) * den ≤ S := (Nat.le_div_iff_mul_le hden).1 h1
      have h3 : (2 : ℚ) ^ (L - 1) * den ≤ S := by exact_mod_cast h2
      have h4 : (2 : ℚ) ^ (L - 1) = 2 ^ (L - 53) * 2 ^ 52 := by
        rw [← pow_add]; congr 1; omega
      rw [le_div_iff₀ (by positivity), le_div_iff₀ hdq, ← h4]
      exact h3
    · apply le_max_of_le_left
      have : L - 53 = 0 := by omega
      rw [this]; norm_num
  have hcast : ((m * 2 ^ (L - 53) : ℕ) : ℚ) = (m : ℚ) * 2 ^ (L - 53) := by push_cast; ring
  rw [hcast]
  have hbound : |(m : ℚ) * 2 ^ (L - 53) - S / den| ≤ 2 ^ (L - 53) / 2 := by
    rw [abs_le]
    have e : (m : ℚ) * 2 ^ (L - 53) - S / den = (m * (den * 2 ^ (L - 53)) - S) / den := by
      field_simp
      ring
    have e2 : (2 : ℚ) ^ (L - 53) / 2 * den = (den * 2 ^ (L - 53)) / 2 := by ring
    rw [e]
    constructor
    · rw [le_div_iff₀ hdq, neg_mul, e2]; linarith
    · rw [div_le_iff₀ hdq, e2]; linarith
  calc |(m : ℚ) * 2 ^ (L - 53) - S / den| ≤ 2 ^ (L - 53) / 2 := hbound
    _ ≤ max 1 ((S : ℚ) / den / 2 ^ 52) / 2 := by
        apply div_le_div_of_nonneg_right hC (by norm_num)
    _ = max (1 / 2) ((S : ℚ) / den / 2 ^ 53) := by
        rw [← max_div_div_right (by norm_num : (0 : ℚ) ≤ 2)]
        congr 1
        rw [div_div]; norm_num

/-! ## C3: suffixes and commas -/

/-- C3, as stated, fails: the numeral `1` followed by 309 zeros is a decimal numeral with the
value `10^309`, `ParseFloat` reports a range error for it, and `parseRPS` returns zero. -/
theorem parseRPS_huge_numeral :
    AllDigits hugeNumeral.data ∧ digitsValue hugeNumeral.data = 10 ^ 309 ∧
    parseRPS hugeNumeral = F64.fin false 0 ∧
    (parseRPS hugeNumeral).toRat ≠ some ((10 : ℚ) ^ 309) := by
  refine ⟨by decide, by decide, by decide, ?_⟩
  have h : parseRPS hugeNumeral = F64.fin false 0 := by decide
  rw [h]
  simp only [F64.toRat, Bool.false_eq_true, if_false, Nat.cast_zero, mul_zero, zero_div, ne_eq,
    Option.some.injEq]
  exact (pow_pos (by norm_num : (0 : ℚ) < 10) 309).ne

set_option maxRecDepth 2000 in
/-- C3, amended. For every decimal numeral (digits `ip`, optionally a point and digits `fp`)
with a value below `2^1024 - 2^970`, and every string `s` that is the numeral with commas
inserted anywhere: `parseRPS s` is the binary64 nearest to the value of the numeral, which
differs from it by at most `2^-1075` or by at most the value times `2^-53`; `parseRPS` of
`s` followed by `k` is that float times 1000, and followed by `M` that float times
1000000, both in binary64. -/
theorem parseRPS_numeral (s : String) (ip fp : List Char) (hip : AllDigits ip)
    (hne : ip ≠ []) (hfp : AllDigits fp)
    (hs : (removeCommas s).data = numeralText ip fp)
    (hfin : digitsValue (ip ++ fp) < (2 ^ 1024 - 2 ^ 970) * 10 ^ fp.length) :
    parseRPS s = F64.ofRatio false (digitsValue (ip ++ fp)) (10 ^ fp.length) ∧
    (∃ q : ℚ, (parseRPS s).toRat = some q ∧
      |q - (digitsValue (ip ++ fp) : ℚ) / 10 ^ fp.length| ≤
        max (1 / 2 ^ 1075) ((digitsValue (ip ++ fp) : ℚ) / 10 ^ fp.length / 2 ^ 53)) ∧
    parseRPS (s ++ "k") = F64.mul (parseRPS s) (F64.ofNat 1000) ∧
    parseRPS (s ++ "M") = F64.mul (parseRPS s) (F64.ofNat 1000000) := by
  have hs' : removeCommas s = String.mk (numeralText ip fp) := by
    rw [← hs]
  have hden : 0 < 10 ^ fp.length := Nat.pow_pos (by norm_num)
  have hlt := roundUnits_lt_overflow _ _ hden hfin
  have hv : F64.ofRatio false (digitsValue (ip ++ fp)) (10 ^ fp.length) =
      F64.fin false (roundUnits (digitsValue (ip ++ fp)) (10 ^ fp.length)) := by
    unfold F64.ofRatio
    simp only [hlt, if_true]
  have h1 := parseRPS_numeral_eq s ip fp hip hne hfp hs'
  have h2 := parseRPS_numeral_k s ip fp hip hne hfp hs'
  have h3 := parseRPS_numeral_M s ip fp hip hne hfp hs'
  rw [hv] at h1 h2 h3 ⊢
  simp only [finiteOrError, Option.getD_some, Option.map_some'] at h1 h2 h3
  refine ⟨h1, ?_, by rw [h2, h1], by rw [h3, h1]⟩
  rw [h1]
  refine ⟨_, rfl, ?_⟩
  have hn := roundUnits_near (digitsValue (ip ++ fp)) (10 ^ fp.length) hden
  have hU : (0 : ℚ) < 2 ^ unitExp := by positivity
  generalize (roundUnits (digitsValue (ip ++ fp)) (10 ^ fp.length) : ℚ) = k at hn ⊢
  generalize ((digitsValue (ip ++ fp) : ℕ) : ℚ) = V at hn ⊢
  have hD : (0 : ℚ) < ((10 ^ fp.length : ℕ) : ℚ) := by exact_mod_cast hden
  have hDe : ((10 ^ fp.length : ℕ) : ℚ) = (10 : ℚ) ^ fp.length := by push_cast; rfl
  rw [hDe] at hn hD
  generalize (10 : ℚ) ^ fp.length = D at hn hD ⊢
  have e1 : (if false = true then (-1 : ℚ) else 1) * k / 2 ^ unitExp - V / D =
      (k - V * 2 ^ unitExp / D) / 2 ^ unitExp := by
    simp only [Bool.false_eq_true, if_false]
    field_simp
    ring
  have e3 : (1 / 2 ^ 1075 : ℚ) = 1 / 2 / 2 ^ unitExp := by
    rw [div_div, show unitExp = 1074 from rfl, ← pow_succ']
  have e4 : V / D / 2 ^ 53 = V * 2 ^ unitExp / D / 2 ^ 53 / 2 ^ unitExp := by
    field_simp
    ring
  have e2 : max (1 / 2 ^ 1075 : ℚ) (V / D / 2 ^ 53) =
      max (1 / 2) (V * 2 ^ unitExp / D / 2 ^ 53) / 2 ^ unitExp := by
    rw [← max_div_div_right hU.le, ← e3, ← e4]
  rw [e1, e2, abs_div, abs_of_pos hU]
  exact div_le_div_of_nonneg_right hn hU.le

set_option maxRecDepth 2000 in
/-- The float of a natural number below `2^53` has that number as its value. -/
theorem ofNat_toRat (n : ℕ) (hn : n < 2 ^ 53) : (F64.ofNat n).toRat = some (n : ℚ) := by
  have hlt : n * 2 ^ unitExp < overflowUnits := by
    have h1 : n * 2 ^ unitExp < 2 ^ 53 * 2 ^ unitExp :=
      Nat.mul_lt_mul_of_pos_right hn (Nat.pow_pos (by norm_num))
    have h2 : (2 : ℕ) ^ 53 * 2 ^ unitExp ≤ overflowUnits := by
      unfold overflowUnits
      rw [← pow_add]
      exact Nat.pow_le_pow_right (by norm_num) (by unfold unitExp; norm_num)
    omega
  unfold F64.ofNat F64.ofRatio
  simp only [roundUnits_nat n hn, hlt, if_true, F64.toRat, Bool.false_eq_true, if_false]
  have hU : (0 : ℚ) < 2 ^ unitExp := by positivity
  rw [Option.some.injEq, Nat.cast_mul, Nat.cast_pow, one_mul]
  exact mul_div_cancel_right₀ _ hU.ne'

/-- Witness of C3: the numeral `1234` written `1,234`, and the five values named by the
claim. -/
theorem parseRPS_numeral_witness :
    (AllDigits "1234".data ∧ "1234".data ≠ [] ∧ AllDigits "".data ∧
      (removeCommas "1,234").data = numeralText "1234".data "".data ∧
      digitsValue ("1234".data ++ "".data) < (2 ^ 1024 - 2 ^ 970) * 10 ^ "".data.length) ∧
    parseRPS ("1,234" ++ "k") = F64.mul (parseRPS "1,234") (F64.ofNat 1000) ∧
    parseRPS "1234" = F64.ofNat 1234 ∧ parseRPS "12.5k" = F64.ofNat 12500 ∧
    parseRPS "3.2M" = F64.ofNat 3200000 ∧ parseRPS "1,234" = F64.ofNat 1234 ∧
    parseRPS "1,234k" = F64.ofNat 1234000 ∧
    (F64.ofNat 1234).toRat = some 1234 ∧ (F64.ofNat 12500).toRat = some 12500 ∧
    (F64.ofNat 3200000).toRat = some 3200000 ∧ (F64.ofNat 1234000).toRat = some 1234000 :=
  ⟨⟨by decide, by decide, by decide, by decide, by decide⟩,
    (parseRPS_numeral "1,234" "1234".data "".data (by decide) (by decide) (by decide)
      (by decide) (by decide)).2.2.1,
    by decide, by decide, by decide, by decide, by decide,
    by simpa using ofNat_toRat 1234 (by norm_num),
    by simpa using ofNat_toRat 12500 (by norm_num),
    by simpa using ofNat_toRat 3200000 (by norm_num),
    by simpa using ofNat_toRat 1234000 (by norm_num)⟩

/-! ## C5: scale boundaries -/

theorem removeCommas_digits (ds : List Char) (h : AllDigits ds) :
    removeCommas (String.mk ds) = String.mk ds := by
  unfold removeCommas
  congr 1
  rw [List.filter_eq_self]
  intro c hc
  simpa using isDigit_ne c ',' (h c hc) (by decide)

theorem ge_fin_iff (k l : ℕ) : F64.ge (F64.fin false k) (F64.fin false l) = true ↔ l ≤ k := by
  have h := F64.ge_iff_not_lt (F64.fin false k) (F64.fin false l) (by simp) (by simp)
  rw [h]
  simp [F64.lt]

theorem ofNat_small (n : ℕ) (hn : n < 2 ^ 53) : F64.ofNat n = F64.fin false (n * 2 ^ unitExp) := by
  have hlt : n * 2 ^ unitExp < overflowUnits := by
    have h1 : n * 2 ^ unitExp < 2 ^ 53 * 2 ^ unitExp :=
      Nat.mul_lt_mul_of_pos_right hn (Nat.pow_pos (by norm_num))
    have h2 : (2 : ℕ) ^ 53 * 2 ^ unitExp ≤ overflowUnits := by
      unfold overflowUnits
      rw [← pow_add]
      exact Nat.pow_le_pow_right (by norm_num) (by unfold unitExp; norm_num)
    omega
  unfold F64.ofNat F64.ofRatio
  simp only [roundUnits_nat n hn, hlt, if_true]

/-- Comparison of a rounded natural number with a threshold below `2^53`. -/
theorem threshold_le_roundUnits (n t : ℕ) (ht : t < 2 ^ 53) :
    t * 2 ^ unitExp ≤ roundUnits n 1 ↔ t ≤ n := by
  constructor
  · intro h
    by_contra hlt
    have hn : n < 2 ^ 53 := by omega
    rw [roundUnits_nat n hn] at h
    have := Nat.le_of_mul_le_mul_right h (Nat.pow_pos (by norm_num))
    omega
  · intro h
    rw [← roundUnits_nat t ht]
    exact roundUnits_mono t n 1 (by norm_num) h

theorem parseFloat_toDigits (n : ℕ) :
    parseFloat (String.mk (Nat.toDigits 10 n)) = finiteOrError (F64.ofNat n) := by
  obtain ⟨h1, h2, h3⟩ := toDigits_spec n
  have := parseFloat_numeral (Nat.toDigits 10 n) [] h1 h2 (by intro c hc; simp at hc)
  simpa [numeralText, h3, F64.ofNat] using this

theorem rescale_toDigits (n : ℕ) :
    rescale (String.mk (Nat.toDigits 10 n)) = String.mk (Nat.toDigits 10 n) := by
  obtain ⟨h1, h2, h3⟩ := toDigits_spec n
  have hk := hasSuffixChar_numeral (Nat.toDigits 10 n) [] h1 h2 (by intro c hc; simp at hc) 'k'
    (by decide)
  have hM := hasSuffixChar_numeral (Nat.toDigits 10 n) [] h1 h2 (by intro c hc; simp at hc) 'M'
    (by decide)
  simp only [numeralText, if_true, List.append_nil] at hk hM
  unfold rescale
  simp only [hk, hM, Bool.false_eq_true, if_false]

theorem fixedDigits_two_nat (n : ℕ) :
    fixedDigits 2 (n * 2 ^ unitExp) = Nat.toDigits 10 n ++ ['.', '0', '0'] := by
  have hU : 0 < 2 ^ unitExp := Nat.pow_pos (by norm_num)
  have e : n * 2 ^ unitExp * 10 ^ 2 = (n * 100) * 2 ^ unitExp := by ring
  unfold fixedDigits
  simp only [e, divHalfEven_exact _ _ hU]
  have h1 : n * 100 / 10 ^ 2 = n := by omega
  have h2 : n * 100 % 10 ^ 2 = 0 := by omega
  rw [h1, h2]
  rfl

theorem toString_nat (n : ℕ) : toString n = String.mk (Nat.toDigits 10 n) := rfl

/-- C5, as stated, fails: `10^309` written as a plain decimal string is at least 1000000, but
`ParseFloat` reports a range error and `formatNumber` returns the string as it is, without
the suffix `M`. -/
theorem formatNumber_huge_integer :
    toString (10 ^ 309 : ℕ) = hugeNumeral ∧ 1000000 ≤ 10 ^ 309 ∧
    formatNumber (toString (10 ^ 309 : ℕ)) = toString (10 ^ 309 : ℕ) ∧
    hasSuffixChar (formatNumber (toString (10 ^ 309 : ℕ))) 'M' = false := by
  have h : toString (10 ^ 309 : ℕ) = hugeNumeral := by decide
  rw [h]
  refine ⟨rfl, by norm_num, by decide, by decide⟩

set_option maxRecDepth 2000 in
/-- C5, amended. For every natural number `n` below `2^1024 - 2^970` written as a plain
decimal string, `formatNumber` returns `n` followed by `.00` when `n < 1000`, the binary64
quotient `n / 1000` with two decimals followed by `k` when `1000 <= n < 1000000`, and the
binary64 quotient `n / 1000000` with two decimals followed by `M` when `n >= 1000000`. -/
theorem formatNumber_plain_integer (n : ℕ) (hn : n < 2 ^ 1024 - 2 ^ 970) :
    formatNumber (toString n) =
      if n < 1000 then toString n ++ ".00"
      else if n < 1000000 then sprintfF 2 (F64.div (F64.ofNat n) (F64.ofNat 1000)) ++ "k"
      else sprintfF 2 (F64.div (F64.ofNat n) (F64.ofNat 1000000)) ++ "M" := by
  have hfin : roundUnits n 1 < overflowUnits :=
    roundUnits_lt_overflow n 1 (by norm_num) (by omega)
  have hv : F64.ofNat n = F64.fin false (roundUnits n 1) := by
    unfold F64.ofNat F64.ofRatio
    simp only [hfin, if_true]
  have hM : F64.ofNat 1000000 = F64.fin false (1000000 * 2 ^ unitExp) :=
    ofNat_small _ (by norm_num)
  have hk : F64.ofNat 1000 = F64.fin false (1000 * 2 ^ unitExp) := ofNat_small _ (by norm_num)
  have hparse : parseFloat (String.mk (Nat.toDigits 10 n)) = some (F64.ofNat n) := by
    rw [parseFloat_toDigits, hv]; rfl
  rw [toString_nat]
  unfold formatNumber
  simp only [removeCommas_digits _ (toDigits_spec n).1, rescale_toDigits, hparse]
  unfold render
  by_cases h1 : n < 1000
  · have hge1 : F64.ge (F64.ofNat n) (F64.ofNat 1000000) = false := by
      rw [hv, hM, Bool.eq_false_iff, Ne, ge_fin_iff, threshold_le_roundUnits _ _ (by norm_num)]
      omega
    have hge2 : F64.ge (F64.ofNat n) (F64.ofNat 1000) = false := by
      rw [hv, hk, Bool.eq_false_iff, Ne, ge_fin_iff, threshold_le_roundUnits _ _ (by norm_num)]
      omega
    simp only [hge1, hge2, Bool.false_eq_true, if_false, h1, if_true]
    rw [ofNat_small n (by omega)]
    simp only [sprintfF, fixedDigits_two_nat, if_false, Bool.false_eq_true, List.nil_append]
    rfl
  · by_cases h2 : n < 1000000
    · have hge1 : F64.ge (F64.ofNat n) (F64.ofNat 1000000) = false := by
        rw [hv, hM, Bool.eq_false_iff, Ne, ge_fin_iff,
          threshold_le_roundUnits _ _ (by norm_num)]
        omega
      have hge2 : F64.ge (F64.ofNat n) (F64.ofNat 1000) = true := by
        rw [hv, hk, ge_fin_iff, threshold_le_roundUnits _ _ (by norm_num)]
        omega
      simp only [hge1, hge2, Bool.false_eq_true, if_false, h1, h2, if_true]
    · have hge1 : F64.ge (F64.ofNat n) (F64.ofNat 1000000) = true := by
        rw [hv, hM, ge_fin_iff, threshold_le_roundUnits _ _ (by norm_num)]
        omega
      simp only [hge1, h1, h2, if_false, if_true]

/-- Witness of C5: the three boundary values named by the claim. -/
theorem formatNumber_plain_integer_witness :
    (999 : ℕ) < 2 ^ 1024 - 2 ^ 970 ∧
    formatNumber "999" = "999.00" ∧ formatNumber "1000" = "1.00k" ∧
    formatNumber "1000000" = "1.00M" ∧ formatNumber "999999" = "1000.00k" := by
  have h1 := formatNumber_plain_integer 999 (by norm_num)
  have h2 := formatNumber_plain_integer 1000 (by norm_num)
  have h3 := formatNumber_plain_integer 1000000 (by norm_num)
  exact ⟨by norm_num, by rw [show ("999" : String) = toString (999 : ℕ) from rfl, h1]; decide,
    by rw [show ("1000" : String) = toString (1000 : ℕ) from rfl, h2]; decide,
    by rw [show ("1000000" : String) = toString (1000000 : ℕ) from rfl, h3]; decide, by decide⟩

/-! ## Parsing a signed numeral -/

theorem special_minus_digit (c : Char) (t : List Char) (hc : isDigit c = true) :
    special ('-' :: c :: t) = none := by
  have h : lowerAscii c ≠ 'i' := by
    unfold lowerAscii
    split
    · rename_i h
      exfalso
      have h1 : isDigit c = false := by
        unfold isDigit
        simp only [decide_eq_false_iff_not, not_and]
        intro _ h9
        exact absurd (le_trans h.1 h9) (by decide)
      rw [hc] at h1
      cases h1
    · exact isDigit_ne c 'i' hc (by decide)
  simp [special, specialInf, commonPrefixLenIgnoreCase, h]

theorem parseFloat_signed (neg : Bool) (ip fp rest : List Char) (hip : AllDigits ip)
    (hne : ip ≠ []) (hfp : AllDigits fp) (hrest : Stops rest) :
    parseFloat (String.mk (signedText neg ip fp ++ rest)) =
      if rest = [] then
        finiteOrError (F64.ofRatio neg (digitsValue (ip ++ fp)) (10 ^ fp.length))
      else none := by
  obtain ⟨c, t, rfl⟩ := List.exists_cons_of_ne_nil hne
  have hc : isDigit c = true := hip c (List.mem_cons_self _ _)
  have hread : readFloat (signedText neg (c :: t) fp ++ rest) =
      some (F64.ofRatio neg (digitsValue ((c :: t) ++ fp)) (10 ^ fp.length), rest) := by
    cases neg with
    | false =>
      simpa [signedText] using readFloat_numeral (c :: t) fp rest hip hne hfp hrest
    | true =>
      have hs : splitSign (signedText true (c :: t) fp ++ rest) =
          (true, numeralText (c :: t) fp ++ rest) := by
        simp [signedText, splitSign]
      unfold readFloat
      rw [hs]
      exact readMagnitude_numeral true _ (c :: t) fp rest hip hne hfp hrest
  have hsp : special (signedText neg (c :: t) fp ++ rest) = none := by
    cases neg with
    | false => exact special_digit c _ hc
    | true => exact special_minus_digit c _ hc
  unfold parseFloat
  simp only [hsp, hread]
  rcases hrest with rfl | rfl | rfl
  · simp only [if_true]
    cases F64.ofRatio neg (digitsValue ((c :: t) ++ fp)) (10 ^ fp.length) <;> rfl
  · simp only [List.cons_ne_nil, if_false]
    cases F64.ofRatio neg (digitsValue ((c :: t) ++ fp)) (10 ^ fp.length) <;> rfl
  · simp only [List.cons_ne_nil, if_false]
    cases F64.ofRatio neg (digitsValue ((c :: t) ++ fp)) (10 ^ fp.length) <;> rfl

theorem signedText_no_comma (neg : Bool) (ip fp : List Char) (hip : AllDigits ip)
    (hfp : AllDigits fp) : ∀ c ∈ signedText neg ip fp, c ≠ ',' := by
  intro c hc
  unfold signedText numeralText at hc
  rcases List.mem_append.1 hc with h | h
  · cases neg
    · simp at h
    · simp at h; subst h; decide
  · rcases List.mem_append.1 h with h | h
    · exact isDigit_ne c ',' (hip c h) (by decide)
    · split at h
      · simp at h
      · rcases List.mem_cons.1 h with h | h
        · subst h; decide
        · exact isDigit_ne c ',' (hfp c h) (by decide)

theorem removeCommas_signed (neg : Bool) (ip fp rest : List Char) (hip : AllDigits ip)
    (hfp : AllDigits fp) (hrest : Stops rest) :
    removeCommas (String.mk (signedText neg ip fp ++ rest)) =
      String.mk (signedText neg ip fp ++ rest) := by
  unfold removeCommas
  congr 1
  rw [List.filter_eq_self]
  intro c hc
  rcases List.mem_append.1 hc with h | h
  · simpa using signedText_no_comma neg ip fp hip hfp c h
  · rcases hrest with rfl | rfl | rfl
    · simp at h
    · simp at h; subst h; decide
    · simp at h; subst h; decide

theorem hasSuffixChar_signed (neg : Bool) (ip fp : List Char) (hip : AllDigits ip)
    (hne : ip ≠ []) (hfp : AllDigits fp) (c : Char) (hc : isDigit c = false) :
    hasSuffixChar (String.mk (signedText neg ip fp)) c = false := by
  obtain ⟨d, h1, h2⟩ := numeralText_getLast ip fp hip hne hfp
  unfold hasSuffixChar signedText
  simp only
  rw [List.getLast?_append_of_ne_nil _ (numeralText_ne_nil ip fp hne), h1]
  have := isDigit_ne d c h2 hc
  simpa using this

theorem parseRPS_signed (neg : Bool) (ip fp : List Char) (hip : AllDigits ip)
    (hne : ip ≠ []) (hfp : AllDigits fp) :
    parseRPS (String.mk (signedText neg ip fp)) =
      (finiteOrError (F64.ofRatio neg (digitsValue (ip ++ fp)) (10 ^ fp.length))).getD
        (F64.fin false 0) := by
  have hp := parseFloat_signed neg ip fp [] hip hne hfp (Or.inl rfl)
  have hr := removeCommas_signed neg ip fp [] hip hfp (Or.inl rfl)
  simp only [List.append_nil, if_true] at hp hr
  unfold parseRPS
  simp only [hr, hasSuffixChar_signed neg ip fp hip hne hfp 'k' (by decide),
    hasSuffixChar_signed neg ip fp hip hne hfp 'M' (by decide), Bool.false_eq_true, if_false, hp]
  cases finiteOrError (F64.ofRatio neg (digitsValue (ip ++ fp)) (10 ^ fp.length)) <;> rfl

theorem parseRPS_signed_k (neg : Bool) (ip fp : List Char) (hip : AllDigits ip)
    (hne : ip ≠ []) (hfp : AllDigits fp) :
    parseRPS (String.mk (signedText neg ip fp ++ ['k'])) =
      ((finiteOrError (F64.ofRatio neg (digitsValue (ip ++ fp)) (10 ^ fp.length))).map
        (fun num => F64.mul num (F64.ofNat 1000))).getD (F64.fin false 0) := by
  have hp := parseFloat_signed neg ip fp [] hip hne hfp (Or.inl rfl)
  have hp2 := parseFloat_signed neg ip fp ['k'] hip hne hfp (Or.inr (Or.inl rfl))
  have hr := removeCommas_signed neg ip fp ['k'] hip hfp (Or.inr (Or.inl rfl))
  simp only [List.append_nil, if_true, List.cons_ne_nil, if_false] at hp hp2
  unfold parseRPS
  simp only [hr, hasSuffixChar_append, if_true, dropSuffixChar_append, hp, hp2]
  cases finiteOrError (F64.ofRatio neg (digitsValue (ip ++ fp)) (10 ^ fp.length)) <;> rfl

theorem parseRPS_signed_M (neg : Bool) (ip fp : List Char) (hip : AllDigits ip)
    (hne : ip ≠ []) (hfp : AllDigits fp) :
    parseRPS (String.mk (signedText neg ip fp ++ ['M'])) =
      ((finiteOrError (F64.ofRatio neg (digitsValue (ip ++ fp)) (10 ^ fp.length))).map
        (fun num => F64.mul num (F64.ofNat 1000000))).getD (F64.fin false 0) := by
  have hp := parseFloat_signed neg ip fp [] hip hne hfp (Or.inl rfl)
  have hp2 := parseFloat_signed neg ip fp ['M'] hip hne hfp (Or.inr (Or.inr rfl))
  have hr := removeCommas_signed neg ip fp ['M'] hip hfp (Or.inr (Or.inr rfl))
  simp only [List.append_nil, if_true, List.cons_ne_nil, if_false] at hp hp2
  unfold parseRPS
  simp only [hr, hasSuffixChar_append, hasSuffixChar_append_ne _ 'M' 'k' (by decide),
    Bool.false_eq_true, if_false, if_true, dropSuffixChar_append, hp, hp2]
  cases finiteOrError (F64.ofRatio neg (digitsValue (ip ++ fp)) (10 ^ fp.length)) <;> rfl

/-! ## Printing with a fixed number of decimals -/

theorem padDigits_two (r : ℕ) (hr : r < 100) :
    AllDigits (padDigits 2 r) ∧ (padDigits 2 r).length = 2 ∧ digitsValue (padDigits 2 r) = r := by
  have h : ∀ r < 100, AllDigits (padDigits 2 r) ∧ (padDigits 2 r).length = 2 ∧
      digitsValue (padDigits 2 r) = r := by decide
  exact h r hr

/-- The text of `%.2f` for a finite float: a signed numeral with two fraction digits that
writes `n / 100`, where `n` is the number of hundredths nearest to the value. -/
theorem sprintfF_two (neg : Bool) (k : ℕ) :
    ∃ ip fp, AllDigits ip ∧ ip ≠ [] ∧ AllDigits fp ∧ fp.length = 2 ∧
      digitsValue (ip ++ fp) = divHalfEven (k * 100) (2 ^ unitExp) ∧
      sprintfF 2 (F64.fin neg k) = String.mk (signedText neg ip fp) := by
  generalize hn : divHalfEven (k * 100) (2 ^ unitExp) = n
  obtain ⟨h1, h2, h3⟩ := toDigits_spec (n / 100)
  obtain ⟨h4, h5, h6⟩ := padDigits_two (n % 100) (Nat.mod_lt _ (by norm_num))
  refine ⟨Nat.toDigits 10 (n / 100), padDigits 2 (n % 100), h1, h2, h4, h5, ?_, ?_⟩
  · rw [digitsValue_append, h3, h5, h6]
    omega
  · have hne : padDigits 2 (n % 100) ≠ [] := by
      intro h0
      rw [h0] at h5
      simp at h5
    simp only [sprintfF, fixedDigits, signedText, numeralText, hne, if_false,
      show (2 : ℕ) ≠ 0 by norm_num, show (10 : ℕ) ^ 2 = 100 by norm_num, hn]

/-- The text of `%.0f` for a finite float: a signed numeral without fraction that writes the
integer nearest to the value. -/
theorem sprintfF_zero (neg : Bool) (k : ℕ) :
    sprintfF 0 (F64.fin neg k) =
      String.mk (signedText neg (Nat.toDigits 10 (divHalfEven k (2 ^ unitExp))) []) := by
  simp only [sprintfF, fixedDigits, signedText, numeralText, if_true, pow_zero, mul_one,
    List.append_nil]

/-! ## Representable numbers of units -/

theorem roundUnits_representable (num den : ℕ) (hden : 0 < den) :
    Representable (roundUnits num den) := by
  unfold roundUnits
  simp only []
  generalize hS : num * 2 ^ unitExp = S
  generalize hL : bitLen (S / den) = L
  have hlt : S / den < 2 ^ L := by
    rcases Nat.eq_zero_or_pos (S / den) with h0 | hpos
    · rw [h0]; exact Nat.pow_pos (by norm_num)
    · rw [← hL]; exact (bitLen_spec _ hpos).2.1
  have hS2 : S < 2 ^ L * den := (Nat.div_lt_iff_lt_mul hden).1 hlt
  have hsplit : 2 ^ L = 2 ^ (L - (L - 53)) * 2 ^ (L - 53) := by
    rw [← pow_add]; congr 1; omega
  have hpos : 0 < den * 2 ^ (L - 53) := Nat.mul_pos hden (Nat.pow_pos (by norm_num))
  have hm := divHalfEven_le S (den * 2 ^ (L - 53)) (2 ^ (L - (L - 53))) hpos (by
    calc S ≤ 2 ^ L * den := hS2.le
      _ = 2 ^ (L - (L - 53)) * (den * 2 ^ (L - 53)) := by rw [hsplit]; ring)
  have h53 : 2 ^ (L - (L - 53)) ≤ 2 ^ 53 := Nat.pow_le_pow_right (by norm_num) (by omega)
  generalize divHalfEven S (den * 2 ^ (L - 53)) = m at hm
  rcases Nat.lt_or_ge m (2 ^ 53) with h | h
  · exact ⟨m, L - 53, h, rfl⟩
  · have hm53 : m = 2 ^ 53 := by omega
    refine ⟨2 ^ 52, L - 53 + 1, by norm_num, ?_⟩
    rw [hm53, pow_succ]
    ring

theorem representable_large (k : ℕ) (hk : Representable k) (hge : 2 ^ 53 * 2 ^ unitExp ≤ k) :
    ∃ m s, m < 2 ^ 53 ∧ k = m * 2 ^ s ∧ unitExp < s := by
  obtain ⟨m, s, hm, rfl⟩ := hk
  refine ⟨m, s, hm, rfl, ?_⟩
  by_contra hs
  have h1 : 2 ^ s ≤ 2 ^ unitExp := Nat.pow_le_pow_right (by norm_num) (by omega)
  have h2 : m * 2 ^ s < 2 ^ 53 * 2 ^ unitExp :=
    calc m * 2 ^ s ≤ m * 2 ^ unitExp := Nat.mul_le_mul_left _ h1
      _ < 2 ^ 53 * 2 ^ unitExp := Nat.mul_lt_mul_of_pos_right hm (Nat.pow_pos (by norm_num))
  omega

set_option maxRecDepth 2000 in
/-- The integer nearest to a finite float is a float. -/
theorem roundUnits_of_rounded (k : ℕ) (hk : Representable k) (hfin : k < overflowUnits) :
    roundUnits (divHalfEven k (2 ^ unitExp)) 1 = divHalfEven k (2 ^ unitExp) * 2 ^ unitExp ∧
    divHalfEven k (2 ^ unitExp) * 2 ^ unitExp < overflowUnits := by
  have hU : 0 < 2 ^ unitExp := Nat.pow_pos (by norm_num)
  have hov : 2 ^ 53 * 2 ^ unitExp < overflowUnits := by
    unfold overflowUnits
    rw [← pow_add]
    exact Nat.pow_lt_pow_right (by norm_num) (by unfold unitExp; norm_num)
  rcases Nat.lt_or_ge k (2 ^ 53 * 2 ^ unitExp) with hlt | hge
  · have hN : divHalfEven k (2 ^ unitExp) ≤ 2 ^ 53 := divHalfEven_le _ _ _ hU hlt.le
    rcases Nat.lt_or_ge (divHalfEven k (2 ^ unitExp)) (2 ^ 53) with h | h
    · refine ⟨roundUnits_nat _ h, ?_⟩
      calc divHalfEven k (2 ^ unitExp) * 2 ^ unitExp ≤ 2 ^ 53 * 2 ^ unitExp :=
            Nat.mul_le_mul_right _ hN
        _ < overflowUnits := hov
    · have hN53 : divHalfEven k (2 ^ unitExp) = 2 ^ 53 := by omega
      rw [hN53]
      refine ⟨?_, hov⟩
      have := roundUnits_exact (2 ^ 53) 1 (2 ^ 52) (unitExp + 1) (by norm_num) (by norm_num)
        (by rw [pow_succ]; ring)
      rw [this, pow_succ]; ring
  · obtain ⟨m, s, hm, rfl, hs⟩ := representable_large k hk hge
    have hsplit : (2 : ℕ) ^ s = 2 ^ (s - unitExp) * 2 ^ unitExp := by
      rw [← pow_add]; congr 1; omega
    have hN : divHalfEven (m * 2 ^ s) (2 ^ unitExp) = m * 2 ^ (s - unitExp) := by
      rw [hsplit, ← Nat.mul_assoc]
      exact divHalfEven_exact _ _ hU
    rw [hN]
    have e : m * 2 ^ (s - unitExp) * 2 ^ unitExp = m * 2 ^ s := by rw [hsplit]; ring
    rw [e]
    exact ⟨roundUnits_exact _ 1 m s (by norm_num) hm (by rw [e]; ring), hfin⟩

/-! ## Valid floats -/

theorem ofRatio_valid (neg : Bool) (num den : ℕ) (hden : 0 < den) :
    (F64.ofRatio neg num den).Valid := by
  unfold F64.ofRatio
  simp only []
  split
  · rename_i h
    exact ⟨roundUnits_representable num den hden, h⟩
  · trivial

theorem mul_valid (x y : F64) : (F64.mul x y).Valid := by
  have hU : 0 < 2 ^ unitExp * 2 ^ unitExp :=
    Nat.mul_pos (Nat.pow_pos (by norm_num)) (Nat.pow_pos (by norm_num))
  cases x <;> cases y <;> simp only [F64.mul] <;>
    first
    | trivial
    | exact ofRatio_valid _ _ _ hU
    | (split <;> trivial)

theorem literalRatio_pos (hex : Bool) (digits frac : ℕ) (eneg : Bool) (e : ℕ) :
    0 < (literalRatio hex digits frac eneg e).2 := by
  unfold literalRatio
  simp only []
  split_ifs <;> simp

theorem specialInf_valid (neg : Bool) (nsign : ℕ) (s : List Char) (f : F64) (n : ℕ)
    (h : specialInf neg nsign s = some (f, n)) : f.Valid := by
  unfold specialInf at h
  simp only [] at h
  split_ifs at h <;>
    (simp only [Option.some.injEq, Prod.mk.injEq] at h; rw [← h.1]; trivial)

theorem special_valid (s : List Char) (f : F64) (n : ℕ) (h : special s = some (f, n)) :
    f.Valid := by
  unfold special at h
  split at h
  · cases h
  · split_ifs at h
    · exact specialInf_valid _ _ _ _ _ h
    · exact specialInf_valid _ _ _ _ _ h
    · simp only [Option.some.injEq, Prod.mk.injEq] at h; rw [← h.1]; trivial

theorem readMagnitude_valid (neg : Bool) (s t : List Char) (v : F64) (rest : List Char)
    (h : readMagnitude neg s t = some (v, rest)) : v.Valid := by
  unfold readMagnitude at h
  simp only [] at h
  split at h
  · cases h
  · split at h
    · cases h
    · split at h
      · cases h
      · simp only [Option.some.injEq, Prod.mk.injEq] at h
        rw [← h.1]
        exact ofRatio_valid _ _ _ (literalRatio_pos _ _ _ _ _)

theorem parseFloat_valid (s : String) (v : F64) (h : parseFloat s = some v) : v.Valid := by
  unfold parseFloat at h
  split at h
  · rename_i f n hsp
    split at h
    · simp only [Option.some.injEq] at h
      subst h
      exact special_valid _ _ _ hsp
    · cases h
  · split at h
    · rename_i neg k hr
      simp only [Option.some.injEq] at h
      subst h
      exact readMagnitude_valid _ _ _ _ _ hr
    · cases h

/-! ## C4: formatting and parsing -/

/-- Printing a float with no decimals and parsing the text gives the float rounded to an
integer. -/
theorem parseFloat_sprintfF_zero (v : F64) (hv : v.Valid) :
    parseFloat (sprintfF 0 v) = some v.roundToInt := by
  cases v with
  | nan => decide
  | inf neg => cases neg <;> decide
  | fin neg k =>
    obtain ⟨h1, h2, h3⟩ := toDigits_spec (divHalfEven k (2 ^ unitExp))
    obtain ⟨h4, h5⟩ := roundUnits_of_rounded k hv.1 hv.2
    have hp := parseFloat_signed neg (Nat.toDigits 10 (divHalfEven k (2 ^ unitExp))) [] []
      h1 h2 (by intro c hc; simp at hc) (Or.inl rfl)
    simp only [List.append_nil, if_true, h3, List.length_nil, pow_zero] at hp
    rw [sprintfF_zero, hp]
    unfold F64.ofRatio
    simp only [h4, h5, if_true, finiteOrError, F64.roundToInt]

theorem not_parseFails_cases (s : String) (h : ¬ ParseFails s) :
    (usesSuffix s = true ∧ ∃ num, parseFloat (dropSuffixChar (removeCommas s)) = some num) ∨
    (usesSuffix s = false ∧ ∃ v, parseFloat (removeCommas s) = some v) := by
  cases hu : usesSuffix s
  · right
    refine ⟨rfl, ?_⟩
    cases hp : parseFloat (removeCommas s) with
    | some v => exact ⟨v, rfl⟩
    | none =>
      exfalso
      apply h
      refine ⟨hp, fun hsuf => ?_⟩
      unfold usesSuffix at hu
      cases hq : parseFloat (dropSuffixChar (removeCommas s)) with
      | none => rfl
      | some num =>
        rcases hsuf with hk | hM
        · simp [hk, hq] at hu
        · simp [hM, hq] at hu
  · left
    refine ⟨rfl, ?_⟩
    unfold usesSuffix at hu
    cases hq : parseFloat (dropSuffixChar (removeCommas s)) with
    | none => simp [hq] at hu
    | some num => exact ⟨num, rfl⟩

theorem hasSuffixChar_unique (s : String) (hk : hasSuffixChar s 'k' = true) :
    hasSuffixChar s 'M' = false := by
  unfold hasSuffixChar at *
  cases h : s.data.getLast? with
  | none => simp
  | some c =>
    rw [h] at hk
    have : c = 'k' := by simpa using hk
    subst this
    decide

/-- The value that `formatNumber` renders, in terms of `parseRPS`. -/
theorem formatNumber_eq_render (s : String) (h : ¬ ParseFails s) :
    formatNumber s =
      render (if usesSuffix s then (parseRPS s).roundToInt else parseRPS s) := by
  rcases not_parseFails_cases s h with ⟨hu, num, hnum⟩ | ⟨hu, v, hv⟩
  · have hsuf : hasSuffixChar (removeCommas s) 'k' = true ∨
        hasSuffixChar (removeCommas s) 'M' = true := by
      unfold usesSuffix at hu
      simp only [Bool.and_eq_true, Bool.or_eq_true] at hu
      exact hu.1
    simp only [hu, if_true]
    by_cases hk : hasSuffixChar (removeCommas s) 'k' = true
    · have hR : parseRPS s = F64.mul num (F64.ofNat 1000) := by
        unfold parseRPS
        simp only [hk, if_true, hnum, Option.map_some']
      have hre : rescale (removeCommas s) = sprintfF 0 (F64.mul num (F64.ofNat 1000)) := by
        unfold rescale
        simp only [hk, if_true, hnum]
      unfold formatNumber
      simp only [hre, parseFloat_sprintfF_zero _ (mul_valid _ _), hR]
    · have hM : hasSuffixChar (removeCommas s) 'M' = true := by
        rcases hsuf with h1 | h1
        · exact absurd h1 hk
        · exact h1
      have hk' : hasSuffixChar (removeCommas s) 'k' = false := by simpa using hk
      have hR : parseRPS s = F64.mul num (F64.ofNat 1000000) := by
        unfold parseRPS
        simp only [hk', hM, Bool.false_eq_true, if_false, if_true, hnum, Option.map_some']
      have hre : rescale (removeCommas s) = sprintfF 0 (F64.mul num (F64.ofNat 1000000)) := by
        unfold rescale
        simp only [hk', hM, Bool.false_eq_true, if_false, if_true, hnum]
      unfold formatNumber
      simp only [hre, parseFloat_sprintfF_zero _ (mul_valid _ _), hR]
  · have hnone : parseFloat (dropSuffixChar (removeCommas s)) = none ∨
        (hasSuffixChar (removeCommas s) 'k' = false ∧
          hasSuffixChar (removeCommas s) 'M' = false) := by
      unfold usesSuffix at hu
      cases hq : parseFloat (dropSuffixChar (removeCommas s)) with
      | none => exact Or.inl rfl
      | some num =>
        right
        simpa [hq] using hu
    have hre : rescale (removeCommas s) = removeCommas s := by
      unfold rescale
      rcases hnone with h1 | ⟨h1, h2⟩
      · simp only [h1]
        split_ifs <;> rfl
      · simp only [h1, h2, Bool.false_eq_true, if_false]
    have hR : parseRPS s = v := by
      unfold parseRPS
      rcases hnone with h1 | ⟨h1, h2⟩
      · simp only [h1, Option.map_none', hv]
        split_ifs <;> rfl
      · simp only [h1, h2, Bool.false_eq_true, if_false, hv]
    unfold formatNumber
    simp only [hre, hv, hR, hu, Bool.false_eq_true, if_false]

/-- C4, as stated, fails: `0.0005k` parses to the same value as `0.5`, one half, whose
rendering is `0.50`; but `formatNumber` first prints the scaled number with no decimals, so
it renders zero. -/
theorem formatNumber_suffix_rounds :
    ¬ ParseFails "0.0005k" ∧ ¬ ParseFails "0.5" ∧
    parseRPS "0.0005k" = parseRPS "0.5" ∧
    render (parseRPS "0.0005k") = "0.50" ∧
    formatNumber "0.0005k" = "0.00" ∧ formatNumber "0.5" = "0.50" := by
  refine ⟨by decide, by decide, by decide, by decide, by decide, by decide⟩

/-- C4, amended. For every string that parses, `formatNumber` returns the rendering of a
value `v`: `v / 1000000` with two decimals and `M` when `v >= 1000000`, `v / 1000` with two
decimals and `k` when `v >= 1000`, and `v` with two decimals otherwise. For a string without
a `k` or `M` suffix `v` is `parseRPS` of the string; for a string with such a suffix `v` is
`parseRPS` of the string rounded to an integer, ties to even. Two strings that parse to the
same value format to the same text when both have a suffix or neither has. -/
theorem formatNumber_rendering (s : String) (hs : ¬ ParseFails s) :
    (∀ v, v = (if usesSuffix s then (parseRPS s).roundToInt else parseRPS s) →
      formatNumber s =
        if F64.ge v (F64.ofNat 1000000) then
          sprintfF 2 (F64.div v (F64.ofNat 1000000)) ++ "M"
        else if F64.ge v (F64.ofNat 1000) then sprintfF 2 (F64.div v (F64.ofNat 1000)) ++ "k"
        else sprintfF 2 v) ∧
    (∀ t, ¬ ParseFails t → usesSuffix t = usesSuffix s → parseRPS t = parseRPS s →
      formatNumber t = formatNumber s) := by
  constructor
  · intro v hv
    rw [formatNumber_eq_render s hs, ← hv]
    rfl
  · intro t ht hu hp
    rw [formatNumber_eq_render s hs, formatNumber_eq_render t ht, hu, hp]

/-- Witness of C4: a string with a suffix and two strings without one that parse to the
same value. -/
theorem formatNumber_rendering_witness :
    ¬ ParseFails "12.5k" ∧ usesSuffix "12.5k" = true ∧
    formatNumber "12.5k" = "12.50k" ∧
    (¬ ParseFails "1,250" → usesSuffix "1,250" = usesSuffix "1250.0" →
      parseRPS "1,250" = parseRPS "1250.0" → formatNumber "1,250" = formatNumber "1250.0") ∧
    formatNumber "1,250" = "1.25k" := by
  have h1 := (formatNumber_rendering "12.5k" (by decide)).1 _ rfl
  have h2 := (formatNumber_rendering "1250.0" (by decide)).2 "1,250"
  exact ⟨by decide, by decide, by rw [h1]; decide, h2, by decide⟩

/-! ## C8: formatting, then parsing -/

theorem representable_zero : Representable 0 := ⟨0, 0, by norm_num, by norm_num⟩

theorem parseRPS_valid (s : String) : (parseRPS s).Valid := by
  unfold parseRPS
  simp only []
  split
  · rename_i r hr
    split_ifs at hr
    · cases hq : parseFloat (dropSuffixChar (removeCommas s)) with
      | none => simp [hq] at hr
      | some num =>
        simp only [hq, Option.map_some', Option.some.injEq] at hr
        rw [← hr]; exact mul_valid _ _
    · cases hq : parseFloat (dropSuffixChar (removeCommas s)) with
      | none => simp [hq] at hr
      | some num =>
        simp only [hq, Option.map_some', Option.some.injEq] at hr
        rw [← hr]; exact mul_valid _ _
  · split
    · rename_i num hnum
      exact parseFloat_valid _ _ hnum
    · exact ⟨representable_zero, by unfold overflowUnits; positivity⟩

theorem roundToInt_valid (v : F64) (hv : v.Valid) : v.roundToInt.Valid := by
  cases v with
  | nan => trivial
  | inf neg => trivial
  | fin neg k =>
    obtain ⟨h1, h2⟩ := roundUnits_of_rounded k hv.1 hv.2
    refine ⟨?_, h2⟩
    rw [← h1]
    exact roundUnits_representable _ _ (by norm_num)

theorem renderedValue_valid (s : String) : (renderedValue s).Valid := by
  unfold renderedValue
  split
  · exact roundToInt_valid _ (parseRPS_valid s)
  · exact parseRPS_valid s

set_option maxRecDepth 2000 in
/-- The number of hundredths nearest to a finite float rounds to a finite float. -/
theorem reround_hundredths (k : ℕ) (hk : Representable k) (hfin : k < overflowUnits) :
    roundUnits (divHalfEven (k * 100) (2 ^ unitExp)) 100 < overflowUnits := by
  have hU : 0 < 2 ^ unitExp := Nat.pow_pos (by norm_num)
  rcases Nat.lt_or_ge k (2 ^ 53 * 2 ^ unitExp) with hlt | hge
  · have hN : divHalfEven (k * 100) (2 ^ unitExp) ≤ 2 ^ 53 * 100 :=
      divHalfEven_le _ _ _ hU (by
        calc k * 100 ≤ 2 ^ 53 * 2 ^ unitExp * 100 := Nat.mul_le_mul_right _ hlt.le
          _ = 2 ^ 53 * 100 * 2 ^ unitExp := by ring)
    apply roundUnits_lt_overflow _ _ (by norm_num)
    calc divHalfEven (k * 100) (2 ^ unitExp) ≤ 2 ^ 53 * 100 := hN
      _ < (2 ^ 1024 - 2 ^ 970) * 100 := by norm_num
  · obtain ⟨m, s, hm, rfl, hs⟩ := representable_large k hk hge
    have hsplit : (2 : ℕ) ^ s = 2 ^ (s - unitExp) * 2 ^ unitExp := by
      rw [← pow_add]; congr 1; omega
    have hN : divHalfEven (m * 2 ^ s * 100) (2 ^ unitExp) = m * 2 ^ (s - unitExp) * 100 := by
      have e : m * 2 ^ s * 100 = (m * 2 ^ (s - unitExp) * 100) * 2 ^ unitExp := by
        rw [hsplit]; ring
      rw [e]
      exact divHalfEven_exact _ _ hU
    rw [hN]
    have e2 : m * 2 ^ (s - unitExp) * 100 * 2 ^ unitExp = m * 2 ^ s * 100 := by
      rw [hsplit]; ring
    rw [roundUnits_exact _ 100 m s (by norm_num) hm e2]
    exact hfin

set_option maxRecDepth 2000 in
theorem div_ofNat (neg : Bool) (k t : ℕ) (hk : k < overflowUnits) (ht : t < 2 ^ 53)
    (ht2 : 2 ≤ t) :
    F64.div (F64.fin neg k) (F64.ofNat t) = F64.fin neg (roundUnits k (t * 2 ^ unitExp)) ∧
    Representable (roundUnits k (t * 2 ^ unitExp)) ∧
    roundUnits k (t * 2 ^ unitExp) < overflowUnits := by
  have hU : 0 < 2 ^ unitExp := Nat.pow_pos (by norm_num)
  have hden : 0 < t * 2 ^ unitExp := Nat.mul_pos (by omega) hU
  have hlt : roundUnits k (t * 2 ^ unitExp) < overflowUnits := by
    apply roundUnits_lt_overflow _ _ hden
    have e : overflowUnits = 2 ^ 1024 * 2 ^ unitExp := by
      unfold overflowUnits unitExp; rw [← pow_add]
    have h1 : (2 : ℕ) ^ 1024 ≤ (2 ^ 1024 - 2 ^ 970) * t := by
      calc (2 : ℕ) ^ 1024 ≤ (2 ^ 1024 - 2 ^ 970) * 2 := by norm_num
        _ ≤ (2 ^ 1024 - 2 ^ 970) * t := Nat.mul_le_mul_left _ ht2
    calc k < 2 ^ 1024 * 2 ^ unitExp := by rw [← e]; exact hk
      _ ≤ (2 ^ 1024 - 2 ^ 970) * t * 2 ^ unitExp := Nat.mul_le_mul_right _ h1
      _ = (2 ^ 1024 - 2 ^ 970) * (t * 2 ^ unitExp) := by ring
  refine ⟨?_, roundUnits_representable _ _ hden, hlt⟩
  rw [ofNat_small t ht]
  simp only [F64.div, hden.ne', if_false, Bool.xor_false, F64.ofRatio, hlt, if_true]

theorem append_suffix (l : List Char) (c : Char) :
    String.mk l ++ String.mk [c] = String.mk (l ++ [c]) := rfl

set_option maxRecDepth 2000 in
/-- Parsing the rendering of a finite float. -/
theorem parseRPS_render (neg : Bool) (k : ℕ) (hk : Representable k) (hfin : k < overflowUnits) :
    ∃ ky n, renderQuotient (F64.fin neg k) = F64.fin neg ky ∧
      n = divHalfEven (ky * 100) (2 ^ unitExp) ∧
      roundUnits n 100 < overflowUnits ∧
      parseRPS (render (F64.fin neg k)) =
        if renderUnit (F64.fin neg k) = 1 then F64.ofRatio neg n 100
        else F64.mul (F64.ofRatio neg n 100) (F64.ofNat (renderUnit (F64.fin neg k))) := by
  have key : ∀ ky, Representable ky → ky < overflowUnits →
      roundUnits (divHalfEven (ky * 100) (2 ^ unitExp)) 100 < overflowUnits ∧
      parseRPS (sprintfF 2 (F64.fin neg ky)) =
        F64.ofRatio neg (divHalfEven (ky * 100) (2 ^ unitExp)) 100 ∧
      parseRPS (sprintfF 2 (F64.fin neg ky) ++ "k") =
        F64.mul (F64.ofRatio neg (divHalfEven (ky * 100) (2 ^ unitExp)) 100) (F64.ofNat 1000) ∧
      parseRPS (sprintfF 2 (F64.fin neg ky) ++ "M") =
        F64.mul (F64.ofRatio neg (divHalfEven (ky * 100) (2 ^ unitExp)) 100)
          (F64.ofNat 1000000) := by
    intro ky h1 h2
    obtain ⟨ip, fp, hip, hne, hfp, hlen, hval, htext⟩ := sprintfF_two neg ky
    have hr := reround_hundredths ky h1 h2
    have hof : F64.ofRatio neg (digitsValue (ip ++ fp)) (10 ^ fp.length) =
        F64.fin neg (roundUnits (divHalfEven (ky * 100) (2 ^ unitExp)) 100) := by
      rw [hval, hlen]
      unfold F64.ofRatio
      simp only [show (10 : ℕ) ^ 2 = 100 by norm_num, hr, if_true]
    have hof2 : F64.ofRatio neg (divHalfEven (ky * 100) (2 ^ unitExp)) 100 =
        F64.fin neg (roundUnits (divHalfEven (ky * 100) (2 ^ unitExp)) 100) := by
      unfold F64.ofRatio
      simp only [hr, if_true]
    refine ⟨hr, ?_, ?_, ?_⟩
    · rw [htext, parseRPS_signed neg ip fp hip hne hfp, hof, hof2]; rfl
    · rw [htext, show ("k" : String) = String.mk ['k'] from rfl, append_suffix,
        parseRPS_signed_k neg ip fp hip hne hfp, hof, hof2]; rfl
    · rw [htext, show ("M" : String) = String.mk ['M'] from rfl, append_suffix,
        parseRPS_signed_M neg ip fp hip hne hfp, hof, hof2]; rfl
  unfold renderQuotient renderUnit render
  cases h1 : F64.ge (F64.fin neg k) (F64.ofNat 1000000)
  · cases h2 : F64.ge (F64.fin neg k) (F64.ofNat 1000)
    · obtain ⟨k1, k2, k3, k4⟩ := key k hk hfin
      refine ⟨k, _, ?_, rfl, k1, ?_⟩
      · simp only [Bool.false_eq_true, if_false]
      · simp only [Bool.false_eq_true, if_false, k2, if_true]
    · obtain ⟨d1, d2, d3⟩ := div_ofNat neg k 1000 hfin (by norm_num) (by norm_num)
      obtain ⟨k1, k2, k3, k4⟩ := key _ d2 d3
      refine ⟨_, _, ?_, rfl, k1, ?_⟩
      · simp only [Bool.false_eq_true, if_true, if_false]; exact d1
      · simp only [Bool.false_eq_true, if_true, if_false, d1, k3,
          show ¬ ((1000 : ℕ) = 1) by norm_num]
  · obtain ⟨d1, d2, d3⟩ := div_ofNat neg k 1000000 hfin (by norm_num) (by norm_num)
    obtain ⟨k1, k2, k3, k4⟩ := key _ d2 d3
    refine ⟨_, _, ?_, rfl, k1, ?_⟩
    · simp only [if_true]; exact d1
    · simp only [if_true, d1, k4, show ¬ ((1000000 : ℕ) = 1) by norm_num, if_false]

/-- C8, as stated, fails: `0.0004k` parses to four tenths, `formatNumber` renders it as
`0.00`, without suffix, which parses to zero; the difference is above 0.005. -/
theorem round_trip_loses_fraction :
    ¬ ParseFails "0.0004k" ∧ formatNumber "0.0004k" = "0.00" ∧
    parseRPS (formatNumber "0.0004k") = F64.fin false 0 ∧
    parseRPS "0.0004k" = F64.ofRatio false 4 10 ∧
    F64.le (F64.sub (parseRPS "0.0004k") (parseRPS (formatNumber "0.0004k")))
      (F64.ofRatio false 5 1000) = false := by
  refine ⟨by decide, by decide, by decide, by decide, by decide⟩

set_option maxRecDepth 2000 in
/-- C8, amended. For every string `x` that parses and whose rendered value `v` (`parseRPS x`,
rounded to an integer when `x` has a `k` or `M` suffix) is finite: `formatNumber x` prints a
number of hundredths `n / 100` that differs by at most 0.005 from the binary64 quotient of
`v` by the unit of the rendering (1, 1000 with `k`, 1000000 with `M`), and
`parseRPS (formatNumber x)` is the binary64 nearest to `n / 100`, with the sign of `v`,
multiplied in binary64 by that unit. -/
theorem format_then_parse (x : String) (hx : ¬ ParseFails x) (neg : Bool) (k : ℕ)
    (hv : renderedValue x = F64.fin neg k) :
    ∃ ky n : ℕ,
      renderQuotient (renderedValue x) = F64.fin neg ky ∧
      |(n : ℚ) / 100 - (ky : ℚ) / 2 ^ unitExp| ≤ 1 / 200 ∧
      F64.ofRatio neg n 100 = F64.fin neg (roundUnits n 100) ∧
      parseRPS (formatNumber x) =
        if renderUnit (renderedValue x) = 1 then F64.ofRatio neg n 100
        else F64.mul (F64.ofRatio neg n 100) (F64.ofNat (renderUnit (renderedValue x))) := by
  have hvalid := renderedValue_valid x
  rw [hv] at hvalid
  obtain ⟨ky, n, h1, h2, h3, h4⟩ := parseRPS_render neg k hvalid.1 hvalid.2
  have hf : formatNumber x = render (renderedValue x) := formatNumber_eq_render x hx
  refine ⟨ky, n, by rw [hv]; exact h1, ?_, ?_, by rw [hf, hv]; exact h4⟩
  · have hU : 0 < 2 ^ unitExp := Nat.pow_pos (by norm_num)
    obtain ⟨hA, hB⟩ := divHalfEven_near (ky * 100) (2 ^ unitExp) hU
    rw [← h2] at hA hB
    have hUq : (0 : ℚ) < 2 ^ unitExp := by positivity
    have hA' : (2 : ℚ) * (n * 2 ^ unitExp) ≤ 2 * (ky * 100) + 2 ^ unitExp := by
      exact_mod_cast hA
    have hB' : (2 : ℚ) * (ky * 100) ≤ 2 * (n * 2 ^ unitExp) + 2 ^ unitExp := by
      exact_mod_cast hB
    generalize (2 : ℚ) ^ unitExp = U at hUq hA' hB' ⊢
    generalize (n : ℚ) = nq at hA' hB' ⊢
    generalize (ky : ℚ) = kq at hA' hB' ⊢
    have e : nq / 100 - kq / U = (nq * U - kq * 100) / (100 * U) := by
      field_simp
      ring
    rw [e, abs_le]
    constructor
    · rw [le_div_iff₀ (by positivity)]; linarith
    · rw [div_le_iff₀ (by positivity)]; linarith
  · unfold F64.ofRatio
    simp only [h3, if_true]

/-- Witness of C8: `1234567` is rendered as `1.23M`, which parses to 1230000. -/
theorem format_then_parse_witness :
    ¬ ParseFails "1234567" ∧
    renderedValue "1234567" = F64.fin false (1234567 * 2 ^ unitExp) ∧
    (∃ ky n : ℕ,
      renderQuotient (renderedValue "1234567") = F64.fin false ky ∧
      |(n : ℚ) / 100 - (ky : ℚ) / 2 ^ unitExp| ≤ 1 / 200 ∧
      F64.ofRatio false n 100 = F64.fin false (roundUnits n 100) ∧
      parseRPS (formatNumber "1234567") =
        if renderUnit (renderedValue "1234567") = 1 then F64.ofRatio false n 100
        else F64.mul (F64.ofRatio false n 100)
          (F64.ofNat (renderUnit (renderedValue "1234567")))) ∧
    formatNumber "1234567" = "1.23M" ∧ parseRPS "1.23M" = F64.ofNat 1230000 :=
  ⟨by decide, by decide,
    format_then_parse "1234567" (by decide) false (1234567 * 2 ^ unitExp) (by decide),
    by decide, by decide⟩

/-! ## The chart -/

theorem ge_nonneg_iff (a b : Bool) (k l : ℕ) (ha : a = true → k = 0) (hb : b = true → l = 0) :
    F64.ge (F64.fin a k) (F64.fin b l) = true ↔ l ≤ k := by
  rw [F64.ge_iff_not_lt _ _ (by simp) (by simp)]
  cases a <;> cases b <;> simp_all [F64.lt]

theorem roundUnits_zero (den : ℕ) (hden : 0 < den) : roundUnits 0 den = 0 := by
  have := roundUnits_exact 0 den 0 0 hden (by norm_num) (by simp)
  simpa using this

theorem roundUnits_self (k : ℕ) (hk : 0 < k) : roundUnits k k = 2 ^ unitExp := by
  have := roundUnits_exact k k 1 unitExp hk (by norm_num) (by ring)
  simpa using this

theorem roundUnits_fifty (r : ℕ) (hr : r ≤ 2 ^ unitExp) :
    roundUnits (r * (50 * 2 ^ unitExp)) (2 ^ unitExp * 2 ^ unitExp) ≤ 50 * 2 ^ unitExp ∧
    roundUnits (2 ^ unitExp * (50 * 2 ^ unitExp)) (2 ^ unitExp * 2 ^ unitExp) =
      50 * 2 ^ unitExp := by
  have hU : 0 < 2 ^ unitExp := Nat.pow_pos (by norm_num)
  have hUU : 0 < 2 ^ unitExp * 2 ^ unitExp := Nat.mul_pos hU hU
  have hex : roundUnits (2 ^ unitExp * (50 * 2 ^ unitExp)) (2 ^ unitExp * 2 ^ unitExp) =
      50 * 2 ^ unitExp :=
    roundUnits_exact _ _ 50 unitExp hUU (by norm_num) (by ring)
  refine ⟨?_, hex⟩
  rw [← hex]
  exact roundUnits_mono _ _ _ hUU (Nat.mul_le_mul_right _ hr)

theorem fifty_lt_overflow : 50 * 2 ^ unitExp < overflowUnits := by
  have h1 : 50 * 2 ^ unitExp < 2 ^ 6 * 2 ^ unitExp :=
    Nat.mul_lt_mul_of_pos_right (by norm_num) (Nat.pow_pos (by norm_num))
  have h2 : (2 : ℕ) ^ 6 * 2 ^ unitExp ≤ overflowUnits := by
    unfold overflowUnits
    rw [← pow_add]
    exact Nat.pow_le_pow_right (by norm_num) (by unfold unitExp; norm_num)
  omega

theorem unit_lt_overflow : 2 ^ unitExp < overflowUnits := by
  unfold overflowUnits
  exact Nat.pow_lt_pow_right (by norm_num) (by unfold unitExp; norm_num)

/-- The scaled ratio of a finite float that is not below zero to a finite float above zero
that is not below it: a finite float between 0 and 50, and 50 for the ratio of a float to
itself. -/
theorem scaled_ratio (b : Bool) (l k : ℕ) (hb : b = true → l = 0) (hk : 0 < k) (hle : l ≤ k) :
    ∃ p, F64.mul (F64.div (F64.fin b l) (F64.fin false k)) (F64.ofNat 50) = F64.fin b p ∧
      p ≤ 50 * 2 ^ unitExp ∧ (b = true → p = 0) ∧ (l = k → p = 50 * 2 ^ unitExp) := by
  have hU : 0 < 2 ^ unitExp := Nat.pow_pos (by norm_num)
  have hUU : 0 < 2 ^ unitExp * 2 ^ unitExp := Nat.mul_pos hU hU
  have hr : roundUnits l k ≤ 2 ^ unitExp := by
    rw [← roundUnits_self k hk]
    exact roundUnits_mono _ _ _ hk hle
  have hdiv : F64.div (F64.fin b l) (F64.fin false k) = F64.fin b (roundUnits l k) := by
    have hlt : roundUnits l k < overflowUnits := lt_of_le_of_lt hr unit_lt_overflow
    simp only [F64.div, hk.ne', if_false, Bool.xor_false, F64.ofRatio, hlt, if_true]
  obtain ⟨h1, h2⟩ := roundUnits_fifty (roundUnits l k) hr
  have hmul : F64.mul (F64.fin b (roundUnits l k)) (F64.ofNat 50) =
      F64.fin b (roundUnits (roundUnits l k * (50 * 2 ^ unitExp))
        (2 ^ unitExp * 2 ^ unitExp)) := by
    have hlt := lt_of_le_of_lt h1 fifty_lt_overflow
    rw [ofNat_small 50 (by norm_num)]
    simp only [F64.mul, Bool.xor_false, F64.ofRatio, hlt, if_true]
  refine ⟨_, by rw [hdiv, hmul], h1, ?_, ?_⟩
  · intro hbt
    rw [hb hbt, roundUnits_zero k hk, Nat.zero_mul, roundUnits_zero _ hUU]
  · intro hlk
    rw [hlk, roundUnits_self k hk]
    exact h2

theorem eq_zero_fin (neg : Bool) (k : ℕ) :
    F64.eq (F64.fin neg k) (F64.ofNat 0) = decide (k = 0) := by
  rw [ofNat_small 0 (by norm_num)]
  cases neg <;> by_cases h : k = 0 <;> simp [F64.eq, h]

theorem gt_zero_fin (neg : Bool) (k : ℕ) (hn : neg = true → k = 0) :
    F64.gt (F64.fin neg k) (F64.ofNat 0) = decide (0 < k) := by
  rw [ofNat_small 0 (by norm_num)]
  cases neg
  · simp [F64.gt, F64.lt]
  · simp [F64.gt, F64.lt, hn rfl]

set_option maxRecDepth 2000 in
/-- The integer part of a finite float between 0 and 50. -/
theorem toInt_small_nonneg (h : Host) (b : Bool) (p : ℕ) (hp : p ≤ 50 * 2 ^ unitExp)
    (hb : b = true → p = 0) :
    toInt h (F64.fin b p) = ((p / 2 ^ unitExp : ℕ) : ℤ) ∧ p / 2 ^ unitExp ≤ 50 ∧
    ∃ q : ℚ, (F64.fin b p).toRat = some q ∧ ((p / 2 ^ unitExp : ℕ) : ℤ) = ⌊q⌋ := by
  have hU : 0 < 2 ^ unitExp := Nat.pow_pos (by norm_num)
  have h50 : p / 2 ^ unitExp ≤ 50 := by
    calc p / 2 ^ unitExp ≤ 50 * 2 ^ unitExp / 2 ^ unitExp := Nat.div_le_div_right hp
      _ = 50 := Nat.mul_div_cancel _ hU
  have ht := toInt_of_small h b p (by omega)
  refine ⟨?_, h50, ?_⟩
  · rw [ht]
    cases b
    · simp
    · rw [hb rfl]; simp
  · refine ⟨_, rfl, ?_⟩
    have hq : (if b = true then (-1 : ℚ) else 1) * (p : ℚ) / 2 ^ unitExp =
        (p : ℚ) / ((2 ^ unitExp : ℕ) : ℚ) := by
      rw [Nat.cast_pow]
      cases b
      · simp
      · rw [hb rfl]; simp
    rw [hq, ← Int.natCast_floor_eq_floor (by positivity), Nat.floor_div_eq_div]
theorem finiteNonneg_cases (x : F64) (hx : x.FiniteNonneg) :
    ∃ neg k, x = F64.fin neg k ∧ (neg = true → k = 0) := by
  cases x with
  | nan => exact absurd hx (by simp [F64.FiniteNonneg])
  | inf n => exact absurd hx (by simp [F64.FiniteNonneg])
  | fin neg k => exact ⟨neg, k, rfl, hx⟩

theorem repeatBlock_small (n : ℤ) (h0 : 0 ≤ n) (h50 : n ≤ 50) :
    repeatBlock n = some (String.mk (List.replicate n.toNat '█')) := by
  unfold repeatBlock
  rw [if_neg]
  push_neg
  constructor
  · exact h0
  · have : (3 : ℤ) * n ≤ 150 := by omega
    have h2 : (150 : ℤ) < 2 ^ 63 := by norm_num
    omega

theorem foldl_append_init (l : List String) (init : String) :
    List.foldl (fun r s => r ++ s) init l = init ++ List.foldl (fun r s => r ++ s) "" l := by
  induction l generalizing init with
  | nil => simp
  | cons a t ih =>
    simp only [List.foldl_cons]
    rw [ih (init ++ a), ih ("" ++ a), String.empty_append, String.append_assoc]

theorem join_cons (a : String) (l : List String) :
    String.join (a :: l) = a ++ String.join l := by
  unfold String.join
  rw [List.foldl_cons, foldl_append_init, String.empty_append]

theorem chartLines_eq_some (h : Host) (maxRPS : F64) (data : List FrameworkData)
    (hb : ∀ fw ∈ data, 0 ≤ barLength h fw.RPS maxRPS ∧ barLength h fw.RPS maxRPS ≤ 50) :
    chartLines h maxRPS data =
      some (String.join (data.map (fun fw => chartRow fw (barLength h fw.RPS maxRPS)))) := by
  induction data with
  | nil => rfl
  | cons fw rest ih =>
    obtain ⟨h0, h50⟩ := hb fw (List.mem_cons_self _ _)
    have ih' := ih (fun x hx => hb x (List.mem_cons_of_mem _ hx))
    simp only [chartLines, chartLine, repeatBlock_small _ h0 h50, Option.map_some', ih',
      List.map_cons, join_cons]
    rfl

/-! ## C11: the length of the bars -/

/-- C11, as stated, fails. With the root throughputs `50` and `29` the bar of the second
framework has 28 blocks, one fewer than the floor of `(29 / 50) * 50`: the binary64 quotient
is below `0.58`. With the root throughput `inf`, which is not below zero, the bar of the top
entry is the conversion of NaN to `int`, which is not 50: it is the smallest `int` on one
host, where the chart panics, and 0 on the other. -/
theorem bar_length_not_exact_floor :
    (parseRPS "50").toRat = some 50 ∧ (parseRPS "29").toRat = some 29 ∧
    ⌊((29 : ℚ) / 50) * 50⌋ = 29 ∧
    barLength sampleHost (parseRPS "29") (parseRPS "50") = 28 ∧
    createASCIIChart sampleHost fiftyResults =
      some ("\n```\nRequests per Second Comparison:\n\n" ++
        chartRow ⟨"go-fiber", parseRPS "50", EndpointResult.zero⟩ 50 ++
        chartRow ⟨"hono-bun", parseRPS "29", EndpointResult.zero⟩ 28 ++ "```\n") ∧
    parseRPS "inf" = F64.inf false ∧ F64.ge (parseRPS "inf") (F64.ofNat 0) = true ∧
    barLength sampleHost (parseRPS "inf") (parseRPS "inf") = -(2 : ℤ) ^ 63 ∧
    createASCIIChart sampleHost infiniteResults = none ∧
    barLength saturatingHost (parseRPS "inf") (parseRPS "inf") = 0 := by
  refine ⟨?_, ?_, by norm_num, by decide, by decide, by decide, by decide, by decide,
    by decide, by decide⟩
  · rw [show parseRPS "50" = F64.ofNat 50 by decide]
    simpa using ofNat_toRat 50 (by norm_num)
  · rw [show parseRPS "29" = F64.ofNat 29 by decide]
    simpa using ofNat_toRat 29 (by norm_num)

/-- C11, amended. For every ranked root-endpoint list whose throughputs are all finite and
not below zero, with `max` the top throughput: when `max > 0`, the bar of each entry has
`floor q` blocks, where `q` is the binary64 value of `(value / max) * 50` (a binary64
division, then a binary64 product), every bar has between 0 and 50 blocks and the bar of the
top entry has 50; when `max` is zero every bar has 0 blocks; and `createASCIIChart` returns
the chart with one line for each ranked framework. -/
theorem bar_length (h : Host) (results : List (String × List EndpointResult))
    (top : FrameworkData) (rest : List FrameworkData)
    (hr : rankedRPS results = top :: rest)
    (hnn : ∀ fw ∈ rankedRPS results, fw.RPS.FiniteNonneg) :
    (F64.gt top.RPS (F64.ofNat 0) = true ∨ F64.eq top.RPS (F64.ofNat 0) = true) ∧
    (F64.gt top.RPS (F64.ofNat 0) = true →
      barLength h top.RPS top.RPS = 50 ∧
      ∀ fw ∈ rankedRPS results, ∃ q : ℚ,
        (F64.mul (F64.div fw.RPS top.RPS) (F64.ofNat 50)).toRat = some q ∧
        barLength h fw.RPS top.RPS = ⌊q⌋ ∧
        0 ≤ barLength h fw.RPS top.RPS ∧ barLength h fw.RPS top.RPS ≤ 50) ∧
    (F64.eq top.RPS (F64.ofNat 0) = true →
      ∀ fw ∈ rankedRPS results, barLength h fw.RPS top.RPS = 0) ∧
    createASCIIChart h results =
      some ("\n```\nRequests per Second Comparison:\n\n" ++
        String.join ((rankedRPS results).map
          (fun fw => chartRow fw (barLength h fw.RPS top.RPS))) ++ "```\n") := by
  have htop : top ∈ rankedRPS results := by rw [hr]; exact List.mem_cons_self _ _
  obtain ⟨a, k, hk, ha⟩ := finiteNonneg_cases _ (hnn top htop)
  have hnan : ∀ fw ∈ rankedRPS results, fw.RPS ≠ F64.nan := by
    intro fw hfw hn
    have := hnn fw hfw
    rw [hn] at this
    exact this
  have hsorted := rankedRPS_sorted results hnan
  rw [hr, List.pairwise_cons] at hsorted
  -- every ranked throughput is at most the top one
  have hle : ∀ fw ∈ rankedRPS results, ∃ b l, fw.RPS = F64.fin b l ∧ (b = true → l = 0) ∧
      l ≤ k := by
    intro fw hfw
    obtain ⟨b, l, hl, hb⟩ := finiteNonneg_cases _ (hnn fw hfw)
    refine ⟨b, l, hl, hb, ?_⟩
    rw [hr] at hfw
    rcases List.mem_cons.1 hfw with rfl | hmem
    · rw [hk] at hl
      cases hl
      exact le_rfl
    · have hge := hsorted.1 fw hmem
      rw [hk, hl] at hge
      exact (ge_nonneg_iff a b k l ha hb).1 hge
  have hzero : F64.eq top.RPS (F64.ofNat 0) = true →
      ∀ fw ∈ rankedRPS results, barLength h fw.RPS top.RPS = 0 := by
    intro hz fw _
    unfold barLength
    simp only [hz, if_true]
  have hpos : F64.gt top.RPS (F64.ofNat 0) = true →
      ∀ fw ∈ rankedRPS results, ∃ b p, (fw.RPS = top.RPS → p = 50 * 2 ^ unitExp) ∧
        F64.mul (F64.div fw.RPS top.RPS) (F64.ofNat 50) = F64.fin b p ∧
        p ≤ 50 * 2 ^ unitExp ∧ (b = true → p = 0) ∧
        barLength h fw.RPS top.RPS = toInt h (F64.fin b p) := by
    intro hgt fw hfw
    rw [hk, gt_zero_fin a k ha, decide_eq_true_eq] at hgt
    have hafalse : a = false := by
      cases a
      · rfl
      · have := ha rfl
        omega
    obtain ⟨b, l, hl, hb, hlk⟩ := hle fw hfw
    obtain ⟨p, h1, h2, h3, h4⟩ := scaled_ratio b l k hb hgt hlk
    refine ⟨b, p, ?_, ?_, h2, h3, ?_⟩
    · intro heq
      rw [hl, hk, hafalse] at heq
      cases heq
      exact h4 rfl
    · rw [hl, hk, hafalse]; exact h1
    · unfold barLength
      have hne : F64.eq top.RPS (F64.ofNat 0) = false := by
        rw [hk, eq_zero_fin, decide_eq_false_iff_not]
        omega
      simp only [hne, Bool.false_eq_true, if_false]
      rw [hl, hk, hafalse, h1]
  have hbars : ∀ fw ∈ rankedRPS results,
      0 ≤ barLength h fw.RPS top.RPS ∧ barLength h fw.RPS top.RPS ≤ 50 := by
    intro fw hfw
    cases hz : F64.eq top.RPS (F64.ofNat 0)
    · have hgt : F64.gt top.RPS (F64.ofNat 0) = true := by
        rw [hk, eq_zero_fin, decide_eq_false_iff_not] at hz
        rw [hk, gt_zero_fin a k ha, decide_eq_true_eq]
        omega
      obtain ⟨b, p, _, _, h2, h3, h4⟩ := hpos hgt fw hfw
      obtain ⟨t1, t2, _⟩ := toInt_small_nonneg h b p h2 h3
      rw [h4, t1]
      exact ⟨Int.natCast_nonneg _, by exact_mod_cast t2⟩
    · rw [hzero hz fw hfw]
      exact ⟨le_rfl, by norm_num⟩
  refine ⟨?_, ?_, hzero, ?_⟩
  · rw [hk, gt_zero_fin a k ha, eq_zero_fin]
    by_cases h0 : k = 0
    · right; simp [h0]
    · left; simp only [decide_eq_true_eq]; omega
  · intro hgt
    constructor
    · obtain ⟨b, p, h0, _, h2, h3, h4⟩ := hpos hgt top htop
      obtain ⟨t1, _, _⟩ := toInt_small_nonneg h b p h2 h3
      rw [h4, t1, h0 rfl, Nat.mul_div_cancel _ (Nat.pow_pos (by norm_num))]
      rfl
    · intro fw hfw
      obtain ⟨b, p, _, h1, h2, h3, h4⟩ := hpos hgt fw hfw
      obtain ⟨t1, _, q, hq1, hq2⟩ := toInt_small_nonneg h b p h2 h3
      refine ⟨q, by rw [h1]; exact hq1, by rw [h4, t1]; exact hq2, hbars fw hfw⟩
  · unfold createASCIIChart
    simp only [hr]
    rw [hr] at hbars
    rw [chartLines_eq_some h top.RPS (top :: rest) hbars]
    rfl

/-- Witness of C11: the throughputs `50` and `29`, with bars of 50 and 28 blocks, and two
throughputs that are zero, with empty bars. -/
theorem bar_length_witness :
    rankedRPS fiftyResults =
      ⟨"go-fiber", parseRPS "50", EndpointResult.zero⟩ ::
        [⟨"hono-bun", parseRPS "29", EndpointResult.zero⟩] ∧
    (∀ fw ∈ rankedRPS fiftyResults, fw.RPS.FiniteNonneg) ∧
    barLength sampleHost (parseRPS "50") (parseRPS "50") = 50 ∧
    (∀ fw ∈ rankedRPS zeroResults, barLength sampleHost fw.RPS (parseRPS "0") = 0) := by
  have h1 := bar_length sampleHost fiftyResults ⟨"go-fiber", parseRPS "50", EndpointResult.zero⟩
    [⟨"hono-bun", parseRPS "29", EndpointResult.zero⟩] (by decide) (by decide)
  have h2 := bar_length sampleHost zeroResults ⟨"go-fiber", parseRPS "0", EndpointResult.zero⟩
    [⟨"hono-bun", parseRPS "0.0", EndpointResult.zero⟩] (by decide) (by decide)
  exact ⟨by decide, by decide, (h1.2.1 (by decide)).1, h2.2.2.1 (by decide)⟩

/-! ## C12: a bar of negative length -/

theorem barLength_minus_five (h : Host) :
    barLength h (parseRPS "-5") (parseRPS "5") = -50 := by
  have e1 : F64.eq (parseRPS "5") (F64.ofNat 0) = false := by decide
  have e2 : F64.mul (F64.div (parseRPS "-5") (parseRPS "5")) (F64.ofNat 50) =
      F64.fin true (50 * 2 ^ unitExp) := by decide
  unfold barLength
  rw [e1, e2, toInt_of_small h true _ (by decide)]
  decide

/-- C12 fails on a snapshot with the root throughputs `5` and `-5`, on every host: the text
`-5` parses to minus five, the bar of that framework has the length `-50`, which is not a
repeat count, `strings.Repeat` panics and `createASCIIChart` returns no chart. -/
theorem createASCIIChart_panics_on_negative (h : Host) :
    parseRPS "-5" = F64.fin true (5 * 2 ^ unitExp) ∧
    rankedRPS negativeSnapshot.Results =
      [⟨"go-fiber", parseRPS "5", EndpointResult.zero⟩,
       ⟨"hono-bun", parseRPS "-5", EndpointResult.zero⟩] ∧
    barLength h (parseRPS "-5") (parseRPS "5") = -50 ∧
    repeatBlock (-50) = none ∧
    createASCIIChart h negativeSnapshot.Results = none := by
  have hr : rankedRPS negativeSnapshot.Results =
      [⟨"go-fiber", parseRPS "5", EndpointResult.zero⟩,
       ⟨"hono-bun", parseRPS "-5", EndpointResult.zero⟩] := by decide
  refine ⟨by decide, hr, barLength_minus_five h, by decide, ?_⟩
  unfold createASCIIChart
  rw [hr]
  simp only
  rw [chartLines_eq_none h (parseRPS "5") _ ⟨"hono-bun", parseRPS "-5", EndpointResult.zero⟩
    (by simp) (by rw [barLength_minus_five h]; decide)]
  rfl


end Readme
